import Mathlib

/-!
Verification of the SpecForge `forge_cli` core (template rendering and
cross-directory synchronization engine) against its natural-language
specification.  The Python source `src/forge_cli/__init__.py` is embedded
shallowly: the filesystem is a list of (path, file) entries, paths are lists
of components, file contents are lists of characters, modification times are
naturals, and every operation of the core is a pure function on that state.
-/

namespace SpecForge

/-- File content, modelled as a list of characters (Python `str` / bytes). -/
abbrev Content := List Char

/-- A file: its byte content together with its modification time. -/
structure SFile where
  content : Content
  mtime : Nat
  deriving DecidableEq

/-- A filesystem path, as a list of components relative to the project root. -/
abbrev FPath := List String

/-- Look up the file stored at path `p` in an entry list. -/
def lookupE : List (FPath × SFile) → FPath → Option SFile
  | [], _ => none
  | e :: rest, p => if e.1 = p then some e.2 else lookupE rest p

/-- Remove every entry with key `p`. -/
def removeKeyE : List (FPath × SFile) → FPath → List (FPath × SFile)
  | [], _ => []
  | e :: rest, p => if e.1 = p then removeKeyE rest p else e :: removeKeyE rest p

/-- Remove every entry whose key lies under prefix `pre`. -/
def removeUnderE : List (FPath × SFile) → FPath → List (FPath × SFile)
  | [], _ => []
  | e :: rest, pre =>
    if pre.isPrefixOf e.1 then removeUnderE rest pre else e :: removeUnderE rest pre

/-- A filesystem: an association list from paths to files. -/
structure FS where
  entries : List (FPath × SFile)
  deriving DecidableEq

/-- Look up the file stored at path `p`. -/
def FS.lookup (fs : FS) (p : FPath) : Option SFile :=
  lookupE fs.entries p

/-- Write (create or overwrite) the file at path `p`.  Mirrors
`Path.write_text` / `Path.write_bytes`: any previous entry is replaced. -/
def FS.write (fs : FS) (p : FPath) (f : SFile) : FS :=
  ⟨(p, f) :: removeKeyE fs.entries p⟩

/-- Delete every file under the subtree rooted at `pre`
(mirrors `shutil.rmtree`). -/
def FS.removeTree (fs : FS) (pre : FPath) : FS :=
  ⟨removeUnderE fs.entries pre⟩

/-- Perform a sequence of writes, in order. -/
def FS.writeAll (fs : FS) (ws : List (FPath × SFile)) : FS :=
  ws.foldl (fun a w => a.write w.1 w.2) fs

/-! ### Basic filesystem lemmas -/

theorem FS.lookup_write_self (fs : FS) (p : FPath) (f : SFile) :
    (fs.write p f).lookup p = some f := by
  simp [FS.write, FS.lookup, lookupE]

theorem lookupE_removeKeyE_ne (l : List (FPath × SFile)) (p q : FPath) (h : p ≠ q) :
    lookupE (removeKeyE l q) p = lookupE l p := by
  induction l with
  | nil => rfl
  | cons e rest ih =>
    by_cases heq : e.1 = q
    · have hep : e.1 ≠ p := by rw [heq]; exact Ne.symm h
      simp only [removeKeyE, if_pos heq, lookupE, if_neg hep]
      exact ih
    · simp only [removeKeyE, if_neg heq, lookupE]
      by_cases hep : e.1 = p
      · simp [hep]
      · simp only [if_neg hep]
        exact ih

theorem FS.lookup_write_ne (fs : FS) (p q : FPath) (f : SFile) (h : p ≠ q) :
    (fs.write q f).lookup p = fs.lookup p := by
  unfold FS.write FS.lookup
  rw [lookupE, if_neg (by intro hqp; exact h (Eq.symm hqp))]
  exact lookupE_removeKeyE_ne _ _ _ h

theorem FS.lookup_writeAll_ne (ws : List (FPath × SFile)) (fs : FS) (p : FPath)
    (h : ∀ w ∈ ws, w.1 ≠ p) :
    (fs.writeAll ws).lookup p = fs.lookup p := by
  induction ws generalizing fs with
  | nil => rfl
  | cons w rest ih =>
    have hw : w.1 ≠ p := h w (List.mem_cons_self _ _)
    have hr : ∀ x ∈ rest, x.1 ≠ p := fun x hx => h x (List.mem_cons_of_mem _ hx)
    calc (fs.writeAll (w :: rest)).lookup p
        = ((fs.write w.1 w.2).writeAll rest).lookup p := rfl
      _ = (fs.write w.1 w.2).lookup p := ih _ hr
      _ = fs.lookup p := FS.lookup_write_ne _ _ _ _ (Ne.symm hw)

theorem FS.lookup_removeTree_of_not_under (fs : FS) (pre p : FPath)
    (h : pre.isPrefixOf p = false) :
    (fs.removeTree pre).lookup p = fs.lookup p := by
  unfold FS.removeTree FS.lookup
  induction fs.entries with
  | nil => rfl
  | cons e rest ih =>
    by_cases hpre : pre.isPrefixOf e.1
    · have hep : e.1 ≠ p := by
        intro hc
        rw [hc] at hpre
        rw [hpre] at h
        exact absurd h (by simp)
      simp only [removeUnderE, if_pos hpre, lookupE, if_neg hep]
      exact ih
    · simp only [removeUnderE, if_neg hpre, lookupE]
      by_cases hep : e.1 = p
      · simp [hep]
      · simp only [if_neg hep]
        exact ih

/-! ### Shared-Resource Updater (`update_shared_resources`)

The Python function replaces `.specforge/scripts/` wholesale and
`.specforge/templates/` item by item, either from the bundled resources or
from a downloaded archive.  The source snapshot is a `SrcTree`: each of its
two directories is `none` when absent, or the list of files under it
(paths relative to that directory). -/

def specforgeScripts : FPath := [".specforge", "scripts"]
def specforgeTemplates : FPath := [".specforge", "templates"]
def specforgeMemory : FPath := [".specforge", "memory"]

/-- A source snapshot (bundled resources, or extracted `.specforge` archive
content). `scripts`/`templates` are `none` when the directory is absent. -/
structure SrcTree where
  scripts : Option (List (FPath × SFile))
  templates : Option (List (FPath × SFile))

/-- Bundled branch, scripts part (lines 1547-1566): delete
`.specforge/scripts` and recreate it from the shell-variant folder
(`bash/` for `sh`, `powershell/` for `ps`) plus root-level loose files. -/
def bundledScriptsStep (fs : FS) (scriptType : String)
    (osc : Option (List (FPath × SFile))) : FS :=
  match osc with
  | none => fs
  | some sfiles =>
    let fsA := fs.removeTree specforgeScripts
    let variant := if scriptType = "sh" then "bash" else "powershell"
    let variantWrites : List (FPath × SFile) :=
      if scriptType = "sh" ∨ scriptType = "ps" then
        sfiles.filterMap (fun e => match e.1 with
          | d :: rest =>
            if d = variant then some (specforgeScripts ++ variant :: rest, e.2) else none
          | [] => none)
      else []
    let rootWrites : List (FPath × SFile) :=
      sfiles.filterMap (fun e => match e.1 with
        | [n] => some (specforgeScripts ++ [n], e.2)
        | _ => none)
    fsA.writeAll (variantWrites ++ rootWrites)

/-- Bundled branch, templates part (lines 1569-1579): overwrite
`.specforge/templates` item by item, skipping `commands` and
`vscode-settings.json`. -/
def bundledTemplatesStep (fs : FS) (ot : Option (List (FPath × SFile))) : FS :=
  match ot with
  | none => fs
  | some tfiles =>
    fs.writeAll (tfiles.filterMap (fun e => match e.1 with
      | n :: rest =>
        if n = "commands" ∨ n = "vscode-settings.json" then none
        else some (specforgeTemplates ++ n :: rest, e.2)
      | [] => none))

/-- The bundled branch of `update_shared_resources` (lines 1542-1581). -/
def updateSharedFromBundled (fs : FS) (scriptType : String) (src : SrcTree) : FS :=
  bundledTemplatesStep (bundledScriptsStep fs scriptType src.scripts) src.templates

/-- Download branch, scripts part (lines 1620-1625): wholesale replacement
of `.specforge/scripts` by the archive's scripts tree. -/
def downloadScriptsStep (fs : FS) (osc : Option (List (FPath × SFile))) : FS :=
  match osc with
  | none => fs
  | some sfiles =>
    (fs.removeTree specforgeScripts).writeAll
      (sfiles.map (fun e => (specforgeScripts ++ e.1, e.2)))

/-- Download branch, templates part (lines 1628-1637): copy every item of
the archive's templates tree over `.specforge/templates`. -/
def downloadTemplatesStep (fs : FS) (ot : Option (List (FPath × SFile))) : FS :=
  match ot with
  | none => fs
  | some tfiles =>
    fs.writeAll (tfiles.map (fun e => (specforgeTemplates ++ e.1, e.2)))

/-- The download branch of `update_shared_resources` (lines 1609-1639):
after extraction, if the archive has no `.specforge` directory the update
fails with the project untouched; otherwise scripts then templates are
refreshed. -/
def updateSharedFromDownload (fs : FS) (extracted : Option SrcTree) : FS × Bool :=
  match extracted with
  | none => (fs, false)
  | some src =>
    (downloadTemplatesStep (downloadScriptsStep fs src.scripts) src.templates, true)

/-- `update_shared_resources` (lines 1522-1644): use the bundled resources
when present and not forced to download, otherwise fall back to the
downloaded archive. -/
def update_shared_resources (fs : FS) (scriptType : String) (bundled : Option SrcTree)
    (forceDownload : Bool) (downloaded : Option SrcTree) : FS × Bool :=
  match bundled, forceDownload with
  | some src, false => (updateSharedFromBundled fs scriptType src, true)
  | some _, true => updateSharedFromDownload fs downloaded
  | none, _ => updateSharedFromDownload fs downloaded

/-! ### C1: the memory subtree is never touched -/

theorem memory_isPrefixOf_iff (p : FPath) :
    specforgeMemory.isPrefixOf p = true ↔ ∃ t, p = ".specforge" :: "memory" :: t := by
  cases p with
  | nil => simp [specforgeMemory, List.isPrefixOf]
  | cons a q =>
    cases q with
    | nil => simp [specforgeMemory, List.isPrefixOf]
    | cons b t =>
      constructor
      · intro h
        simp only [specforgeMemory, List.isPrefixOf, List.isPrefixOf_nil_left,
          Bool.and_eq_true, beq_iff_eq] at h
        exact ⟨t, by rw [h.1, h.2.1]⟩
      · rintro ⟨t', ht⟩
        cases ht
        simp [specforgeMemory, List.isPrefixOf]

theorem scripts_path_ne_memory (l t : List String) :
    specforgeScripts ++ l ≠ ".specforge" :: "memory" :: t := by
  intro h
  simp only [specforgeScripts, List.cons_append, List.nil_append, List.cons.injEq] at h
  exact absurd h.2.1 (by decide)

theorem templates_path_ne_memory (l t : List String) :
    specforgeTemplates ++ l ≠ ".specforge" :: "memory" :: t := by
  intro h
  simp only [specforgeTemplates, List.cons_append, List.nil_append, List.cons.injEq] at h
  exact absurd h.2.1 (by decide)

theorem bundledScriptsStep_memory (fs : FS) (st : String)
    (osc : Option (List (FPath × SFile))) (t : List String) :
    (bundledScriptsStep fs st osc).lookup (".specforge" :: "memory" :: t)
      = fs.lookup (".specforge" :: "memory" :: t) := by
  cases osc with
  | none => rfl
  | some sfiles =>
    unfold bundledScriptsStep
    rw [FS.lookup_writeAll_ne, FS.lookup_removeTree_of_not_under]
    · simp [specforgeScripts, List.isPrefixOf]
    · intro w hw
      simp only [List.mem_append, List.mem_filterMap] at hw
      rcases hw with hw | hw
      · by_cases hvar : st = "sh" ∨ st = "ps"
        · simp only [if_pos hvar, List.mem_filterMap] at hw
          obtain ⟨⟨ep, ef⟩, _, he⟩ := hw
          cases ep with
          | nil => exact absurd he (by simp)
          | cons d rest =>
            simp only [] at he
            split at he <;> split at he
            all_goals try (rw [Option.some.injEq] at he; rw [← he]; exact scripts_path_ne_memory _ _)
            all_goals exact absurd he (by simp)
        · simp only [if_neg hvar] at hw
          exact absurd hw (by simp)
      · obtain ⟨⟨ep, ef⟩, _, he⟩ := hw
        cases ep with
        | nil => exact absurd he (by simp)
        | cons n rest =>
          cases rest with
          | nil =>
            simp only [Option.some.injEq] at he
            rw [← he]
            exact scripts_path_ne_memory _ _
          | cons m rest2 => exact absurd he (by simp)

theorem bundledTemplatesStep_memory (fs : FS)
    (ot : Option (List (FPath × SFile))) (t : List String) :
    (bundledTemplatesStep fs ot).lookup (".specforge" :: "memory" :: t)
      = fs.lookup (".specforge" :: "memory" :: t) := by
  cases ot with
  | none => rfl
  | some tfiles =>
    unfold bundledTemplatesStep
    refine FS.lookup_writeAll_ne _ _ _ ?_
    intro w hw
    simp only [List.mem_filterMap] at hw
    obtain ⟨⟨ep, ef⟩, _, he⟩ := hw
    cases ep with
    | nil => exact absurd he (by simp)
    | cons n rest =>
      simp only [] at he
      split at he
      · exact absurd he (by simp)
      · rw [Option.some.injEq] at he
        rw [← he]
        exact templates_path_ne_memory _ _

theorem downloadScriptsStep_memory (fs : FS)
    (osc : Option (List (FPath × SFile))) (t : List String) :
    (downloadScriptsStep fs osc).lookup (".specforge" :: "memory" :: t)
      = fs.lookup (".specforge" :: "memory" :: t) := by
  cases osc with
  | none => rfl
  | some sfiles =>
    unfold downloadScriptsStep
    rw [FS.lookup_writeAll_ne, FS.lookup_removeTree_of_not_under]
    · simp [specforgeScripts, List.isPrefixOf]
    · intro w hw
      simp only [List.mem_map] at hw
      obtain ⟨e, _, he⟩ := hw
      rw [← he]
      exact scripts_path_ne_memory _ _

theorem downloadTemplatesStep_memory (fs : FS)
    (ot : Option (List (FPath × SFile))) (t : List String) :
    (downloadTemplatesStep fs ot).lookup (".specforge" :: "memory" :: t)
      = fs.lookup (".specforge" :: "memory" :: t) := by
  cases ot with
  | none => rfl
  | some tfiles =>
    unfold downloadTemplatesStep
    refine FS.lookup_writeAll_ne _ _ _ ?_
    intro w hw
    simp only [List.mem_map] at hw
    obtain ⟨e, _, he⟩ := hw
    rw [← he]
    exact templates_path_ne_memory _ _

/-- **C1.** For every call to the Shared-Resource Updater
(`update_shared_resources`), over all inputs (filesystem state, script type,
bundled or downloaded source), no file under the `.specforge/memory` subtree
is created, modified, or deleted: every lookup under the memory subtree is
identical before and after the call, even though the scripts subtree is
deleted and recreated wholesale in the same operation. -/
theorem c1_memory_subtree_untouched (fs : FS) (scriptType : String)
    (bundled : Option SrcTree) (forceDownload : Bool) (downloaded : Option SrcTree)
    (p : FPath) (hp : specforgeMemory.isPrefixOf p = true) :
    (update_shared_resources fs scriptType bundled forceDownload downloaded).1.lookup p
      = fs.lookup p := by
  obtain ⟨t, rfl⟩ := (memory_isPrefixOf_iff p).1 hp
  have hdl : ∀ ext : Option SrcTree,
      (updateSharedFromDownload fs ext).1.lookup (".specforge" :: "memory" :: t)
        = fs.lookup (".specforge" :: "memory" :: t) := by
    intro ext
    cases ext with
    | none => rfl
    | some src =>
      show (downloadTemplatesStep (downloadScriptsStep fs src.scripts)
          src.templates).lookup _ = _
      rw [downloadTemplatesStep_memory, downloadScriptsStep_memory]
  match bundled, forceDownload with
  | some src, false =>
    show (updateSharedFromBundled fs scriptType src).lookup _ = _
    unfold updateSharedFromBundled
    rw [bundledTemplatesStep_memory, bundledScriptsStep_memory]
  | some _, true => exact hdl downloaded
  | none, _ => exact hdl downloaded

/-- Concrete witness for C1: a project with a memory file, updated from a
bundled source that rewrites scripts and templates, keeps the memory file. -/
theorem c1_memory_subtree_untouched_witness :
    (specforgeMemory.isPrefixOf [".specforge", "memory", "constitution.md"] = true) ∧
      ((update_shared_resources
          ⟨[([".specforge", "memory", "constitution.md"], ⟨"rules".data, 5⟩),
            ([".specforge", "scripts", "bash", "a.sh"], ⟨"old".data, 1⟩)]⟩
          "sh"
          (some ⟨some [(["bash", "a.sh"], ⟨"new".data, 9⟩), (["common.sh"], ⟨"c".data, 9⟩)],
                 some [(["plan.md"], ⟨"p".data, 9⟩)]⟩)
          false none).1.lookup [".specforge", "memory", "constitution.md"]
        = FS.lookup ⟨[([".specforge", "memory", "constitution.md"], ⟨"rules".data, 5⟩),
            ([".specforge", "scripts", "bash", "a.sh"], ⟨"old".data, 1⟩)]⟩
            [".specforge", "memory", "constitution.md"]) :=
  ⟨by decide,
   c1_memory_subtree_untouched _ "sh" _ false none _ (by decide)⟩

/-! ### JSON deep merge (`merge_json_files`, lines 938-979)

JSON values are modelled structurally; objects are association lists in
insertion order, as Python dicts are.  `deep_merge` walks the update dict:
a key whose value is a dict on both sides is merged recursively, any other
key is set outright (replacing in place, or appending when new). -/

inductive Json where
  | null : Json
  | bool (b : Bool) : Json
  | num (n : Int) : Json
  | str (s : String) : Json
  | arr (xs : List Json) : Json
  | obj (fields : List (String × Json)) : Json

/-- Look up a key in a JSON object (first occurrence). -/
def lookupJ : List (String × Json) → String → Option Json
  | [], _ => none
  | e :: rest, k => if e.1 = k then some e.2 else lookupJ rest k

/-- `result[key] = value` on a Python dict: replace in place when the key
exists, append at the end otherwise. -/
def setKey : List (String × Json) → String → Json → List (String × Json)
  | [], k, v => [(k, v)]
  | e :: rest, k, v => if e.1 = k then (k, v) :: rest else e :: setKey rest k v

/-- Whether a JSON value is an object holding the given fields. -/
def asObj : Json → Option (List (String × Json))
  | Json.obj o => some o
  | _ => none

/-- `deep_merge(base, update)` (lines 962-972): fold the update entries into
a copy of `base`; when both sides hold objects, merge recursively, otherwise
set the update value outright. -/
def mergeObj : List (String × Json) → List (String × Json) → List (String × Json)
  | base, [] => base
  | base, (k, Json.obj u) :: rest =>
    (match asObj ((lookupJ base k).getD Json.null) with
     | some o => mergeObj (setKey base k (Json.obj (mergeObj o u))) rest
     | none => mergeObj (setKey base k (Json.obj u)) rest)
  | base, (k, Json.null) :: rest => mergeObj (setKey base k Json.null) rest
  | base, (k, Json.bool b) :: rest => mergeObj (setKey base k (Json.bool b)) rest
  | base, (k, Json.num n) :: rest => mergeObj (setKey base k (Json.num n)) rest
  | base, (k, Json.str s) :: rest => mergeObj (setKey base k (Json.str s)) rest
  | base, (k, Json.arr xs) :: rest => mergeObj (setKey base k (Json.arr xs)) rest
termination_by b u => sizeOf u
decreasing_by
  all_goals simp only [Prod.mk.sizeOf_spec, List.cons.sizeOf_spec, Json.obj.sizeOf_spec]
  all_goals omega

/-- `merge_json_files` (lines 938-979): when the existing file is missing or
unparsable the new content is the result; otherwise the two objects are
deep-merged. -/
def merge_json_files (existing : Option (List (String × Json)))
    (newContent : List (String × Json)) : List (String × Json) :=
  match existing with
  | none => newContent
  | some o => mergeObj o newContent

/-- Keys of a JSON object are pairwise distinct (true of any parsed dict). -/
abbrev NodupKeys (l : List (String × Json)) : Prop :=
  (l.map Prod.fst).Nodup

/-- Both the existing value and the incoming value are JSON objects. -/
def bothObj (b : Option Json) (v : Json) : Prop :=
  (∃ o, b = some (Json.obj o)) ∧ ∃ u, v = Json.obj u

theorem lookupJ_setKey (l : List (String × Json)) (k k' : String) (v : Json) :
    lookupJ (setKey l k v) k' = if k = k' then some v else lookupJ l k' := by
  induction l with
  | nil =>
    by_cases h : k = k' <;> simp [setKey, lookupJ, h]
  | cons e rest ih =>
    by_cases hek : e.1 = k
    · simp only [setKey, if_pos hek, lookupJ]
      by_cases hk : k = k'
      · simp [hk]
      · have : e.1 ≠ k' := by rw [hek]; exact hk
        simp [hk, this]
    · simp only [setKey, if_neg hek, lookupJ]
      by_cases hek' : e.1 = k'
      · have : ¬ k = k' := by intro hc; rw [hc] at hek; exact hek hek'
        simp [hek', this]
      · simp only [if_neg hek']
        exact ih

theorem lookupJ_eq_none_of_not_mem (l : List (String × Json)) (k : String)
    (h : k ∉ l.map Prod.fst) : lookupJ l k = none := by
  induction l with
  | nil => rfl
  | cons e rest ih =>
    simp only [List.map_cons, List.mem_cons] at h
    rw [lookupJ, if_neg (fun hc => h (Or.inl hc.symm))]
    exact ih (fun hin => h (Or.inr hin))

/-- One step of `mergeObj`: the head update entry is applied to the base,
then the rest is merged.  This packages the six cons equations. -/
theorem mergeObj_cons (base : List (String × Json)) (k : String) (v : Json)
    (rest : List (String × Json)) :
    mergeObj base ((k, v) :: rest)
      = mergeObj (match v, asObj ((lookupJ base k).getD Json.null) with
          | Json.obj u, some o => setKey base k (Json.obj (mergeObj o u))
          | _, _ => setKey base k v) rest := by
  cases v with
  | obj u =>
    rw [mergeObj]
    cases h : asObj ((lookupJ base k).getD Json.null) with
    | some o => rfl
    | none => rfl
  | null => rw [mergeObj]
  | bool b => rw [mergeObj]
  | num n => rw [mergeObj]
  | str s => rw [mergeObj]
  | arr xs => rw [mergeObj]

/-- The single-key update step changes no other key of the base. -/
theorem lookupJ_step_ne (base : List (String × Json)) (k k' : String) (v : Json)
    (h : k' ≠ k) :
    lookupJ (match v, asObj ((lookupJ base k').getD Json.null) with
        | Json.obj u, some o => setKey base k' (Json.obj (mergeObj o u))
        | _, _ => setKey base k' v) k = lookupJ base k := by
  split
  · rw [lookupJ_setKey, if_neg h]
  · rw [lookupJ_setKey, if_neg h]

/-- Keys not mentioned by the update are untouched by the merge. -/
theorem lookupJ_mergeObj_not_mem (upd : List (String × Json)) (k : String)
    (h : lookupJ upd k = none) :
    ∀ base, lookupJ (mergeObj base upd) k = lookupJ base k := by
  induction upd with
  | nil => intro base; rw [mergeObj]
  | cons e rest ih =>
    intro base
    obtain ⟨k', v⟩ := e
    simp only [lookupJ] at h
    by_cases hk : k' = k
    · rw [if_pos hk] at h; exact absurd h (by simp)
    · rw [if_neg hk] at h
      rw [mergeObj_cons, ih h]
      exact lookupJ_step_ne base k k' v hk

/-- A key whose value is an object on both sides is merged recursively. -/
theorem lookupJ_mergeObj_both_obj (upd : List (String × Json)) (k : String)
    (o u : List (String × Json)) (hnd : NodupKeys upd)
    (hu : lookupJ upd k = some (Json.obj u)) :
    ∀ base, lookupJ base k = some (Json.obj o) →
      lookupJ (mergeObj base upd) k = some (Json.obj (mergeObj o u)) := by
  induction upd with
  | nil => intro base hb; exact absurd hu (by simp [lookupJ])
  | cons e rest ih =>
    intro base hb
    obtain ⟨k', v⟩ := e
    simp only [lookupJ] at hu
    have hnd' : NodupKeys rest := by
      simpa using (List.nodup_cons.1 hnd).2
    by_cases hk : k' = k
    · rw [if_pos hk] at hu
      have hkrest : lookupJ rest k = none := by
        refine lookupJ_eq_none_of_not_mem rest k ?_
        have hkmem : k' ∉ rest.map Prod.fst := by
          simpa using (List.nodup_cons.1 hnd).1
        rw [hk] at hkmem
        exact hkmem
      subst hk
      cases hu
      rw [mergeObj_cons, lookupJ_mergeObj_not_mem rest k' hkrest]
      rw [hb]
      show lookupJ (setKey base k' (Json.obj (mergeObj o u))) k' = _
      rw [lookupJ_setKey, if_pos rfl]
    · rw [if_neg hk] at hu
      rw [mergeObj_cons]
      refine ih hnd' hu _ ?_
      rw [lookupJ_step_ne base k k' v hk]
      exact hb

theorem asObj_getD_eq_some (b : Option Json) (o : List (String × Json))
    (h : asObj (b.getD Json.null) = some o) : b = some (Json.obj o) := by
  cases b with
  | none => exact absurd h (by simp [asObj])
  | some j =>
    cases j with
    | obj f =>
      simp only [Option.getD, asObj, Option.some.injEq] at h
      rw [h]
    | null => exact absurd h (by simp [asObj])
    | bool b2 => exact absurd h (by simp [asObj])
    | num n => exact absurd h (by simp [asObj])
    | str s => exact absurd h (by simp [asObj])
    | arr xs => exact absurd h (by simp [asObj])

/-- A key present in the update whose two values are not both objects has
its value replaced outright. -/
theorem lookupJ_mergeObj_replace (upd : List (String × Json)) (k : String)
    (v : Json) (hnd : NodupKeys upd) (hu : lookupJ upd k = some v) :
    ∀ base, ¬ bothObj (lookupJ base k) v →
      lookupJ (mergeObj base upd) k = some v := by
  induction upd with
  | nil => exact absurd hu (by simp [lookupJ])
  | cons e rest ih =>
    intro base hnb
    obtain ⟨k', v'⟩ := e
    simp only [lookupJ] at hu
    have hnd' : NodupKeys rest := by
      simpa using (List.nodup_cons.1 hnd).2
    by_cases hk : k' = k
    · rw [if_pos hk] at hu
      have hkrest : lookupJ rest k = none := by
        refine lookupJ_eq_none_of_not_mem rest k ?_
        have hkmem : k' ∉ rest.map Prod.fst := by
          simpa using (List.nodup_cons.1 hnd).1
        rw [hk] at hkmem
        exact hkmem
      subst hk
      cases hu
      rw [mergeObj_cons, lookupJ_mergeObj_not_mem rest k' hkrest]
      cases v with
      | obj u2 =>
        cases ho : asObj ((lookupJ base k').getD Json.null) with
        | some o2 =>
          exact absurd ⟨⟨o2, asObj_getD_eq_some _ _ ho⟩, ⟨u2, rfl⟩⟩ hnb
        | none =>
          show lookupJ (setKey base k' (Json.obj u2)) k' = _
          rw [lookupJ_setKey, if_pos rfl]
      | null =>
        show lookupJ (setKey base k' Json.null) k' = _
        rw [lookupJ_setKey, if_pos rfl]
      | bool b =>
        show lookupJ (setKey base k' (Json.bool b)) k' = _
        rw [lookupJ_setKey, if_pos rfl]
      | num n =>
        show lookupJ (setKey base k' (Json.num n)) k' = _
        rw [lookupJ_setKey, if_pos rfl]
      | str s =>
        show lookupJ (setKey base k' (Json.str s)) k' = _
        rw [lookupJ_setKey, if_pos rfl]
      | arr xs =>
        show lookupJ (setKey base k' (Json.arr xs)) k' = _
        rw [lookupJ_setKey, if_pos rfl]
    · rw [if_neg hk] at hu
      rw [mergeObj_cons]
      refine ih hnd' hu _ ?_
      rw [lookupJ_step_ne base k k' v' hk]
      exact hnb

/-- **C7.** `merge_json_files` performs a deep merge of the new JSON content
into the existing file's content: keys present only in the existing content
are preserved, keys present in both where both values are objects are merged
recursively, and any other key present in the new content (including lists
and scalars) has its value replaced outright; if the existing file is absent
or is not valid JSON, the result is exactly the new content. -/
theorem c7_merge_json_files_deep_merge :
    (∀ newContent, merge_json_files none newContent = newContent) ∧
    (∀ base upd k, NodupKeys upd →
      ((lookupJ upd k = none →
          lookupJ (merge_json_files (some base) upd) k = lookupJ base k) ∧
       (∀ o u, lookupJ base k = some (Json.obj o) → lookupJ upd k = some (Json.obj u) →
          lookupJ (merge_json_files (some base) upd) k = some (Json.obj (mergeObj o u))) ∧
       (∀ v, lookupJ upd k = some v → ¬ bothObj (lookupJ base k) v →
          lookupJ (merge_json_files (some base) upd) k = some v))) := by
  refine ⟨fun _ => rfl, fun base upd k hnd => ⟨?_, ?_, ?_⟩⟩
  · intro h
    exact lookupJ_mergeObj_not_mem upd k h base
  · intro o u hb hu
    exact lookupJ_mergeObj_both_obj upd k o u hnd hu base hb
  · intro v hu hnb
    exact lookupJ_mergeObj_replace upd k v hnd hu base hnb

/-- Concrete witness for C7: existing `{a: 1, c: {x: 1, y: 2}}` merged with
`{b: 2, c: {y: 3}, d: [1]}` keeps `a`, merges `c` recursively and adds the
rest. -/
theorem c7_merge_json_files_deep_merge_witness :
    (NodupKeys [("b", Json.num 2), ("c", Json.obj [("y", Json.num 3)]),
        ("d", Json.arr [Json.num 1])]) ∧
    (lookupJ (merge_json_files
        (some [("a", Json.num 1), ("c", Json.obj [("x", Json.num 1), ("y", Json.num 2)])])
        [("b", Json.num 2), ("c", Json.obj [("y", Json.num 3)]), ("d", Json.arr [Json.num 1])])
      "a" = lookupJ [("a", Json.num 1),
        ("c", Json.obj [("x", Json.num 1), ("y", Json.num 2)])] "a") :=
  ⟨by decide,
   (c7_merge_json_files_deep_merge.2 _ _ "a" (by decide)).1 rfl⟩

/-! ### Agent registry (lines 128-327)

`AGENT_CONFIG`, `AGENT_COMMAND_DIRS` and `AGENT_CONTEXT_PATHS`, as static
lookup tables. -/

/-- One agent's profile in `AGENT_CONFIG` (only the fields the core reads). -/
structure AgentCfg where
  name : String
  folder : String
  context_file : String
  context_glob : String
  project_dir_env : String
  deriving DecidableEq

/-- `AGENT_CONFIG` (lines 128-282). -/
def AGENT_CONFIG : String → Option AgentCfg
  | "copilot" => some ⟨"GitHub Copilot", ".github/", "copilot-instructions.md",
      "**/*copilot-instructions.md", "$PWD"⟩
  | "claude" => some ⟨"Claude Code", ".claude/", "CLAUDE.md", "**/*CLAUDE.md",
      "$CLAUDE_PROJECT_DIR"⟩
  | "gemini" => some ⟨"Gemini CLI", ".gemini/", "GEMINI.md", "**/*GEMINI.md", "$PWD"⟩
  | "cursor-agent" => some ⟨"Cursor", ".cursor/", "specify-rules.mdc",
      "**/*specify-rules.mdc", "$PWD"⟩
  | "qwen" => some ⟨"Qwen Code", ".qwen/", "QWEN.md", "**/*QWEN.md", "$PWD"⟩
  | "opencode" => some ⟨"opencode", ".opencode/", "AGENTS.md", "**/*AGENTS.md", "$PWD"⟩
  | "codex" => some ⟨"Codex CLI", ".codex/", "AGENTS.md", "**/*AGENTS.md", "$PWD"⟩
  | "windsurf" => some ⟨"Windsurf", ".windsurf/", "specify-rules.md",
      "**/*specify-rules.md", "$PWD"⟩
  | "kilocode" => some ⟨"Kilo Code", ".kilocode/", "specify-rules.md",
      "**/*specify-rules.md", "$PWD"⟩
  | "auggie" => some ⟨"Auggie CLI", ".augment/", "specify-rules.md",
      "**/*specify-rules.md", "$PWD"⟩
  | "codebuddy" => some ⟨"CodeBuddy", ".codebuddy/", "CODEBUDDY.md",
      "**/*CODEBUDDY.md", "$PWD"⟩
  | "qoder" => some ⟨"Qoder CLI", ".qoder/", "QODER.md", "**/*QODER.md", "$PWD"⟩
  | "roo" => some ⟨"Roo Code", ".roo/", "specify-rules.md", "**/*specify-rules.md", "$PWD"⟩
  | "q" => some ⟨"Amazon Q Developer CLI", ".amazonq/", "AGENTS.md", "**/*AGENTS.md", "$PWD"⟩
  | "amp" => some ⟨"Amp", ".agents/", "AGENTS.md", "**/*AGENTS.md", "$PWD"⟩
  | "shai" => some ⟨"SHAI", ".shai/", "SHAI.md", "**/*SHAI.md", "$PWD"⟩
  | "bob" => some ⟨"IBM Bob", ".bob/", "AGENTS.md", "**/*AGENTS.md", "$PWD"⟩
  | _ => none

/-- The agent identity keys, in `AGENT_COMMAND_DIRS` iteration order. -/
def agentKeys : List String :=
  ["claude", "gemini", "copilot", "cursor-agent", "qwen", "opencode", "windsurf",
   "codex", "kilocode", "auggie", "roo", "codebuddy", "amp", "shai", "q", "qoder", "bob"]

/-- `AGENT_COMMAND_DIRS` (lines 287-305): command directory, file
extension/wrapper kind and argument format per agent. -/
def AGENT_COMMAND_DIRS : String → Option (FPath × String × String)
  | "claude" => some ([".claude", "commands"], "md", "$ARGUMENTS")
  | "gemini" => some ([".gemini", "commands"], "toml", "\x7b\x7bargs\x7d\x7d")
  | "copilot" => some ([".github", "agents"], "agent.md", "$ARGUMENTS")
  | "cursor-agent" => some ([".cursor", "commands"], "md", "$ARGUMENTS")
  | "qwen" => some ([".qwen", "commands"], "toml", "\x7b\x7bargs\x7d\x7d")
  | "opencode" => some ([".opencode", "command"], "md", "$ARGUMENTS")
  | "windsurf" => some ([".windsurf", "workflows"], "md", "$ARGUMENTS")
  | "codex" => some ([".codex", "prompts"], "md", "$ARGUMENTS")
  | "kilocode" => some ([".kilocode", "workflows"], "md", "$ARGUMENTS")
  | "auggie" => some ([".augment", "commands"], "md", "$ARGUMENTS")
  | "roo" => some ([".roo", "commands"], "md", "$ARGUMENTS")
  | "codebuddy" => some ([".codebuddy", "commands"], "md", "$ARGUMENTS")
  | "amp" => some ([".agents", "commands"], "md", "$ARGUMENTS")
  | "shai" => some ([".shai", "commands"], "md", "$ARGUMENTS")
  | "q" => some ([".amazonq", "prompts"], "md", "$ARGUMENTS")
  | "qoder" => some ([".qoder", "commands"], "md", "$ARGUMENTS")
  | "bob" => some ([".bob", "commands"], "md", "$ARGUMENTS")
  | _ => none

/-- `AGENT_CONTEXT_PATHS` (lines 309-327): context file path per agent. -/
def AGENT_CONTEXT_PATHS : String → Option FPath
  | "claude" => some ["CLAUDE.md"]
  | "gemini" => some ["GEMINI.md"]
  | "copilot" => some [".github", "agents", "copilot-instructions.md"]
  | "cursor-agent" => some [".cursor", "rules", "specify-rules.mdc"]
  | "qwen" => some ["QWEN.md"]
  | "opencode" => some ["AGENTS.md"]
  | "codex" => some ["AGENTS.md"]
  | "windsurf" => some [".windsurf", "rules", "specify-rules.md"]
  | "kilocode" => some [".kilocode", "rules", "specify-rules.md"]
  | "auggie" => some [".augment", "rules", "specify-rules.md"]
  | "codebuddy" => some ["CODEBUDDY.md"]
  | "qoder" => some ["QODER.md"]
  | "roo" => some [".roo", "rules", "specify-rules.md"]
  | "q" => some ["AGENTS.md"]
  | "amp" => some ["AGENTS.md"]
  | "shai" => some ["SHAI.md"]
  | "bob" => some ["AGENTS.md"]
  | _ => none

/-! ### Python `str.replace` and the placeholder substitution chain
(`generate_agent_commands`, lines 436-450)

`replaceAll pat rep s` replaces every non-overlapping occurrence of `pat` in
`s`, scanning left to right, exactly as Python `str.replace` does for a
non-empty pattern (every pattern used by the renderer is a non-empty
literal). -/

def replaceAll (pat rep : Content) : Content → Content
  | [] => []
  | c :: rest =>
    if h : pat ≠ [] ∧ pat.isPrefixOf (c :: rest) = true then
      rep ++ replaceAll pat rep ((c :: rest).drop pat.length)
    else c :: replaceAll pat rep rest
termination_by s => s.length
decreasing_by
  · simp only [List.length_drop, List.length_cons]
    have : 0 < pat.length := List.length_pos.2 h.1
    omega
  · simp only [List.length_cons]
    omega

/-- The `__AGENT_DIR__` placeholder token. -/
def dirTok : Content := "__AGENT_DIR__".data
/-- The `__AGENT_NAME__` placeholder token. -/
def nameTok : Content := "__AGENT_NAME__".data
/-- The `__AGENT_CONTEXT_FILE__` placeholder token. -/
def ctxFileTok : Content := "__AGENT_CONTEXT_FILE__".data
/-- The `__AGENT_CONTEXT_GLOB__` placeholder token. -/
def ctxGlobTok : Content := "__AGENT_CONTEXT_GLOB__".data
/-- The `__AGENT_PROJECT_DIR_ENV__` placeholder token. -/
def pdeTok : Content := "__AGENT_PROJECT_DIR_ENV__".data
/-- The `__AGENT__` placeholder token. -/
def agentTok : Content := "__AGENT__".data

/-- Python `str.rstrip("/")`: drop every trailing slash. -/
def rstripSlash (s : Content) : Content :=
  (s.reverse.dropWhile (fun c => c = '/')).reverse

/-- The agent-scoped placeholder substitutions of `generate_agent_commands`
(lines 440-449), as (token, replacement) pairs in source order: the five
agent-agnostic placeholders first, the bare `__AGENT__` key last. -/
def agentPlaceholderList (a : String) (cfg : AgentCfg) : List (Content × Content) :=
  [(dirTok, rstripSlash cfg.folder.data),
   (nameTok, cfg.name.data),
   (ctxFileTok, cfg.context_file.data),
   (ctxGlobTok, cfg.context_glob.data),
   (pdeTok, cfg.project_dir_env.data),
   (agentTok, a.data)]

/-- Apply the placeholder substitutions, in source order. -/
def applyAgentPlaceholders (a : String) (cfg : AgentCfg) (s : Content) : Content :=
  (agentPlaceholderList a cfg).foldl (fun acc pr => replaceAll pr.1 pr.2 acc) s

/-- A token character: underscore or an ASCII capital letter.  Every
character of every placeholder token is of this kind. -/
def tokChar (c : Char) : Bool :=
  c = '_' ∨ ('A' ≤ c ∧ c ≤ 'Z')

/-- A fragment character: anything that cannot start or continue a
placeholder token. -/
def fragChar (c : Char) : Bool := ! tokChar c

/-- A fragment string: plain template text free of token characters. -/
def fragB (s : Content) : Bool := s.all fragChar

/-- `pat` occurs nowhere inside `B` (at no start position). -/
def noOccInB (pat B : Content) : Bool :=
  (List.range B.length).all (fun i => ! pat.isPrefixOf (B.drop i))

theorem tokChar_ne_fragChar (c : Char) (h1 : tokChar c = true) (h2 : fragChar c = true) :
    False := by
  rw [fragChar, h1] at h2
  exact absurd h2 (by simp)

theorem replaceAll_nil (pat rep : Content) : replaceAll pat rep [] = [] := by
  rw [replaceAll]

theorem isPrefixOf_append_self (l r : Content) : l.isPrefixOf (l ++ r) = true := by
  induction l with
  | nil => simp [List.isPrefixOf]
  | cons c t ih => simpa [List.isPrefixOf] using ih

theorem isPrefixOf_of_isPrefixOf_append (p A B : Content)
    (h : p.isPrefixOf (A ++ B) = true) (hlen : p.length ≤ A.length) :
    p.isPrefixOf A = true := by
  induction p generalizing A with
  | nil => simp [List.isPrefixOf]
  | cons x p' ih =>
    cases A with
    | nil => simp at hlen
    | cons a A' =>
      simp only [List.cons_append, List.isPrefixOf, Bool.and_eq_true, beq_iff_eq] at h ⊢
      exact ⟨h.1, ih A' h.2 (by simpa using Nat.le_of_succ_le_succ hlen)⟩

theorem isPrefixOf_append_long (p A B : Content)
    (h : p.isPrefixOf (A ++ B) = true) (hlen : A.length < p.length) :
    (p.drop A.length).isPrefixOf B = true ∧ p.drop A.length ≠ [] := by
  induction A generalizing p with
  | nil =>
    constructor
    · simpa using h
    · intro hc
      have hpnil : p = [] := by simpa using hc
      rw [hpnil] at hlen
      simp at hlen
  | cons a A' ih =>
    cases p with
    | nil => simp at hlen
    | cons x p' =>
      simp only [List.cons_append, List.isPrefixOf, Bool.and_eq_true, beq_iff_eq] at h
      have := ih p' h.2 (by simpa using Nat.lt_of_succ_lt_succ hlen)
      simpa using this

/-- Scanning a fragment: no token pattern can match inside it. -/
theorem replaceAll_frag_append (pat rep : Content)
    (hpat : ∀ c ∈ pat, tokChar c = true) (hpne : pat ≠ []) :
    ∀ (u rest : Content), fragB u = true →
      replaceAll pat rep (u ++ rest) = u ++ replaceAll pat rep rest := by
  intro u
  induction u with
  | nil => intro rest _; rfl
  | cons c u' ih =>
    intro rest hu
    have hcfrag : fragChar c = true := by
      have := (List.all_eq_true.1 hu) c (List.mem_cons_self _ _)
      exact this
    have hu' : fragB u' = true := by
      refine List.all_eq_true.2 ?_
      intro x hx
      exact (List.all_eq_true.1 hu) x (List.mem_cons_of_mem _ hx)
    have hnm : ¬ (pat ≠ [] ∧ pat.isPrefixOf (c :: (u' ++ rest)) = true) := by
      rintro ⟨_, hpre⟩
      cases hp : pat with
      | nil => exact hpne hp
      | cons p0 pt =>
        rw [hp] at hpre
        simp only [List.isPrefixOf, Bool.and_eq_true, beq_iff_eq] at hpre
        have htok : tokChar p0 = true := hpat p0 (by rw [hp]; exact List.mem_cons_self _ _)
        rw [hpre.1] at htok
        exact tokChar_ne_fragChar c htok hcfrag
    show replaceAll pat rep (c :: (u' ++ rest)) = c :: (u' ++ replaceAll pat rep rest)
    rw [replaceAll]
    rw [dif_neg hnm]
    rw [ih rest hu']

/-- A fragment is left unchanged by the substitution. -/
theorem replaceAll_frag (pat rep : Content)
    (hpat : ∀ c ∈ pat, tokChar c = true) (hpne : pat ≠ [])
    (u : Content) (hu : fragB u = true) :
    replaceAll pat rep u = u := by
  have := replaceAll_frag_append pat rep hpat hpne u [] hu
  simpa [replaceAll_nil] using this

/-- A match at the head is replaced, and scanning resumes after it. -/
theorem replaceAll_head_match (pat rep rest : Content) (hpne : pat ≠ []) :
    replaceAll pat rep (pat ++ rest) = rep ++ replaceAll pat rep rest := by
  cases hp : pat with
  | nil => exact absurd hp hpne
  | cons p0 pt =>
    rw [← hp]
    have hcons : pat ++ rest = p0 :: (pt ++ rest) := by rw [hp]; rfl
    rw [hcons, replaceAll]
    have hpre : pat.isPrefixOf (p0 :: (pt ++ rest)) = true := by
      rw [← hcons]; exact isPrefixOf_append_self pat rest
    rw [dif_pos ⟨hpne, hpre⟩]
    have hdrop : (p0 :: (pt ++ rest)).drop pat.length = rest := by
      rw [← hcons]
      exact List.drop_left pat rest
    rw [hdrop]

/-- Scanning across a block (an unmatched token or an already-substituted
value): if the pattern occurs nowhere inside the block and the block is
followed by a fragment character (or the end of the template), the block is
copied verbatim. -/
theorem replaceAll_pass_block (pat rep : Content)
    (hpat : ∀ c ∈ pat, tokChar c = true) (hpne : pat ≠ []) :
    ∀ (tok rest : Content), noOccInB pat tok = true →
      (∀ c, rest.head? = some c → fragChar c = true) →
      replaceAll pat rep (tok ++ rest) = tok ++ replaceAll pat rep rest := by
  intro tok
  induction tok with
  | nil => intro rest _ _; rfl
  | cons c tok' ih =>
    intro rest hno hrest
    have hno0 : pat.isPrefixOf (c :: tok') = false := by
      have := (List.all_eq_true.1 hno) 0 (by
        simp [List.mem_range])
      simpa using this
    have hno' : noOccInB pat tok' = true := by
      refine List.all_eq_true.2 ?_
      intro i hi
      have hi1 : i + 1 ∈ List.range (c :: tok').length := by
        simp only [List.mem_range, List.length_cons]
        simpa [List.mem_range] using hi
      have := (List.all_eq_true.1 hno) (i + 1) hi1
      simpa using this
    have hnm : ¬ (pat ≠ [] ∧ pat.isPrefixOf (c :: (tok' ++ rest)) = true) := by
      rintro ⟨_, hpre⟩
      by_cases hlen : pat.length ≤ (c :: tok').length
      · have : pat.isPrefixOf (c :: tok') = true := by
          have hshape : c :: (tok' ++ rest) = (c :: tok') ++ rest := rfl
          rw [hshape] at hpre
          exact isPrefixOf_of_isPrefixOf_append pat (c :: tok') rest hpre hlen
        rw [this] at hno0
        exact absurd hno0 (by simp)
      · have hlen' : (c :: tok').length < pat.length := Nat.lt_of_not_le hlen
        have hshape : c :: (tok' ++ rest) = (c :: tok') ++ rest := rfl
        rw [hshape] at hpre
        obtain ⟨hdroppre, hdropne⟩ :=
          isPrefixOf_append_long pat (c :: tok') rest hpre hlen'
        cases hd : pat.drop (c :: tok').length with
        | nil => exact hdropne hd
        | cons d dt =>
          rw [hd] at hdroppre
          cases rest with
          | nil => simp [List.isPrefixOf] at hdroppre
          | cons r0 rt =>
            simp only [List.isPrefixOf, Bool.and_eq_true, beq_iff_eq] at hdroppre
            have hdmem : d ∈ pat := by
              have : d ∈ pat.drop (c :: tok').length := by
                rw [hd]; exact List.mem_cons_self _ _
              exact List.drop_subset _ _ this
            have htok : tokChar d = true := hpat d hdmem
            have hfrag : fragChar r0 = true := hrest r0 rfl
            rw [hdroppre.1] at htok
            exact tokChar_ne_fragChar r0 htok hfrag
    show replaceAll pat rep (c :: (tok' ++ rest)) = c :: (tok' ++ replaceAll pat rep rest)
    rw [replaceAll, dif_neg hnm, ih rest hno' hrest]

/-- A placeholder-like pattern: nonempty, made of token characters. -/
abbrev tokLike (p : Content) : Prop := p ≠ [] ∧ ∀ c ∈ p, tokChar c = true

/-- The six placeholder tokens, in the order the source substitutes them. -/
def placeholderTokens : List Content :=
  [dirTok, nameTok, ctxFileTok, ctxGlobTok, pdeTok, agentTok]

/-- The five substitution values an agent profile provides. -/
def cfgVals (cfg : AgentCfg) : List Content :=
  [rstripSlash cfg.folder.data, cfg.name.data, cfg.context_file.data,
   cfg.context_glob.data, cfg.project_dir_env.data]

theorem fragHead (s : Content) (hs : fragB s = true) :
    ∀ c, s.head? = some c → fragChar c = true := by
  intro c hc
  cases s with
  | nil => exact absurd hc (by simp)
  | cons x t =>
    simp only [List.head?, Option.some.injEq] at hc
    rw [← hc]
    exact (List.all_eq_true.1 hs) x (List.mem_cons_self _ _)

theorem fragHead_append (v X : Content) (hv : fragB v = true) (hvne : v ≠ []) :
    ∀ c, (v ++ X).head? = some c → fragChar c = true := by
  intro c hc
  cases v with
  | nil => exact absurd rfl hvne
  | cons x t =>
    simp only [List.cons_append, List.head?, Option.some.injEq] at hc
    rw [← hc]
    exact (List.all_eq_true.1 hv) x (List.mem_cons_self _ _)

/-- A substitution pass that matches nothing: fragments are skipped and both
blocks are passed over verbatim. -/
theorem replaceAll_two_blocks_no_match (pat rep u B1 v B2 w : Content)
    (hpat : ∀ c ∈ pat, tokChar c = true) (hpne : pat ≠ [])
    (hu : fragB u = true) (hv : fragB v = true) (hw : fragB w = true) (hvne : v ≠ [])
    (h1 : noOccInB pat B1 = true) (h2 : noOccInB pat B2 = true) :
    replaceAll pat rep (u ++ (B1 ++ (v ++ (B2 ++ w))))
      = u ++ (B1 ++ (v ++ (B2 ++ w))) := by
  rw [replaceAll_frag_append pat rep hpat hpne u _ hu,
    replaceAll_pass_block pat rep hpat hpne B1 _ h1
      (fragHead_append v (B2 ++ w) hv hvne),
    replaceAll_frag_append pat rep hpat hpne v _ hv,
    replaceAll_pass_block pat rep hpat hpne B2 w h2 (fragHead w hw),
    replaceAll_frag pat rep hpat hpne w hw]

/-- A substitution pass whose pattern is the first block: it is replaced and
nothing else changes. -/
theorem replaceAll_match_first_block (pat rep u v B2 w : Content)
    (hpat : ∀ c ∈ pat, tokChar c = true) (hpne : pat ≠ [])
    (hu : fragB u = true) (hv : fragB v = true) (hw : fragB w = true)
    (h2 : noOccInB pat B2 = true) :
    replaceAll pat rep (u ++ (pat ++ (v ++ (B2 ++ w))))
      = u ++ (rep ++ (v ++ (B2 ++ w))) := by
  rw [replaceAll_frag_append pat rep hpat hpne u _ hu,
    replaceAll_head_match pat rep _ hpne,
    replaceAll_frag_append pat rep hpat hpne v _ hv,
    replaceAll_pass_block pat rep hpat hpne B2 w h2 (fragHead w hw),
    replaceAll_frag pat rep hpat hpne w hw]

/-- A substitution pass whose pattern is the second block: it is replaced and
nothing else changes. -/
theorem replaceAll_match_second_block (pat rep u B1 v w : Content)
    (hpat : ∀ c ∈ pat, tokChar c = true) (hpne : pat ≠ [])
    (hu : fragB u = true) (hv : fragB v = true) (hw : fragB w = true) (hvne : v ≠ [])
    (h1 : noOccInB pat B1 = true) :
    replaceAll pat rep (u ++ (B1 ++ (v ++ (pat ++ w))))
      = u ++ (B1 ++ (v ++ (rep ++ w))) := by
  rw [replaceAll_frag_append pat rep hpat hpne u _ hu,
    replaceAll_pass_block pat rep hpat hpne B1 _ h1
      (fragHead_append v (pat ++ w) hv hvne),
    replaceAll_frag_append pat rep hpat hpne v _ hv,
    replaceAll_head_match pat rep w hpne,
    replaceAll_frag pat rep hpat hpne w hw]

/-- A run of substitution passes none of which matches anything in a
two-block template leaves it unchanged. -/
theorem foldl_two_blocks_no_match (L : List (Content × Content))
    (u B1 v B2 w : Content)
    (hu : fragB u = true) (hv : fragB v = true) (hw : fragB w = true) (hvne : v ≠ [])
    (hL : ∀ pr ∈ L, tokLike pr.1 ∧ noOccInB pr.1 B1 = true ∧ noOccInB pr.1 B2 = true) :
    L.foldl (fun acc pr => replaceAll pr.1 pr.2 acc) (u ++ (B1 ++ (v ++ (B2 ++ w))))
      = u ++ (B1 ++ (v ++ (B2 ++ w))) := by
  induction L with
  | nil => rfl
  | cons pr L' ih =>
    have hpr := hL pr (List.mem_cons_self _ _)
    have hrest : ∀ x ∈ L', tokLike x.1 ∧ noOccInB x.1 B1 = true ∧ noOccInB x.1 B2 = true :=
      fun x hx => hL x (List.mem_cons_of_mem _ hx)
    rw [List.foldl_cons]
    rw [replaceAll_two_blocks_no_match pr.1 pr.2 u B1 v B2 w hpr.1.2 hpr.1.1
      hu hv hw hvne hpr.2.1 hpr.2.2]
    exact ih hrest

/-- The complete substitution chain `L1 ++ (T, val) :: L2 ++ [(A, arep)]`
applied to a template holding `T` and `A` in either order: both tokens are
fully and correctly substituted, regardless of their order of appearance. -/
theorem subst_chain_both_orders (L1 L2 : List (Content × Content))
    (T val A arep : Content) (u v w : Content)
    (hT : tokLike T) (hA : tokLike A)
    (hu : fragB u = true) (hv : fragB v = true) (hw : fragB w = true) (hvne : v ≠ [])
    (hTA : noOccInB T A = true) (hAval : noOccInB A val = true)
    (hL1 : ∀ pr ∈ L1, tokLike pr.1 ∧ noOccInB pr.1 T = true ∧ noOccInB pr.1 A = true)
    (hL2 : ∀ pr ∈ L2, tokLike pr.1 ∧ noOccInB pr.1 val = true ∧ noOccInB pr.1 A = true) :
    ((L1 ++ (T, val) :: (L2 ++ [(A, arep)])).foldl
        (fun acc pr => replaceAll pr.1 pr.2 acc) (u ++ (T ++ (v ++ (A ++ w))))
      = u ++ (val ++ (v ++ (arep ++ w)))) ∧
    ((L1 ++ (T, val) :: (L2 ++ [(A, arep)])).foldl
        (fun acc pr => replaceAll pr.1 pr.2 acc) (u ++ (A ++ (v ++ (T ++ w))))
      = u ++ (arep ++ (v ++ (val ++ w)))) := by
  constructor
  · rw [List.foldl_append, List.foldl_cons, List.foldl_append]
    rw [foldl_two_blocks_no_match L1 u T v A w hu hv hw hvne hL1]
    dsimp only
    rw [replaceAll_match_first_block T val u v A w hT.2 hT.1 hu hv hw hTA]
    rw [foldl_two_blocks_no_match L2 u val v A w hu hv hw hvne hL2]
    rw [List.foldl_cons, List.foldl_nil]
    exact replaceAll_match_second_block A arep u val v w hA.2 hA.1 hu hv hw hvne hAval
  · rw [List.foldl_append, List.foldl_cons, List.foldl_append]
    have hL1' : ∀ pr ∈ L1, tokLike pr.1 ∧ noOccInB pr.1 A = true ∧ noOccInB pr.1 T = true :=
      fun pr hpr => ⟨(hL1 pr hpr).1, (hL1 pr hpr).2.2, (hL1 pr hpr).2.1⟩
    rw [foldl_two_blocks_no_match L1 u A v T w hu hv hw hvne hL1']
    dsimp only
    rw [replaceAll_match_second_block T val u A v w hT.2 hT.1 hu hv hw hvne hTA]
    have hL2' : ∀ pr ∈ L2, tokLike pr.1 ∧ noOccInB pr.1 A = true ∧ noOccInB pr.1 val = true :=
      fun pr hpr => ⟨(hL2 pr hpr).1, (hL2 pr hpr).2.2, (hL2 pr hpr).2.1⟩
    rw [foldl_two_blocks_no_match L2 u A v val w hu hv hw hvne hL2']
    rw [List.foldl_cons, List.foldl_nil]
    exact replaceAll_match_first_block A arep u v val w hA.2 hA.1 hu hv hw hAval

/-- All six tokens are nonempty strings of token characters. -/
theorem toks_tokLike : ∀ p ∈ placeholderTokens, tokLike p := by decide

/-- No placeholder token occurs inside a different placeholder token. -/
theorem toks_noOcc : ∀ p ∈ placeholderTokens, ∀ t ∈ placeholderTokens,
    p ≠ t → noOccInB p t = true := by decide

/-- No placeholder token occurs inside any configured agent value. -/
theorem cfg_vals_noOcc (a : String) (cfg : AgentCfg) (h : AGENT_CONFIG a = some cfg) :
    ∀ p ∈ placeholderTokens, ∀ vb ∈ cfgVals cfg, noOccInB p vb = true := by
  unfold AGENT_CONFIG at h
  split at h
  all_goals try (cases h)
  all_goals decide

/-- **C6.** In the Template Renderer, every agent-scoped placeholder whose
name contains another placeholder's name as a substring is substituted
before the shorter one (first conjunct: a token containing another token as
a substring always comes earlier in the substitution order; in particular
`__AGENT_DIR__`, `__AGENT_NAME__`, `__AGENT_CONTEXT_FILE__`,
`__AGENT_CONTEXT_GLOB__` and `__AGENT_PROJECT_DIR_ENV__` all precede
`__AGENT__` in `agentPlaceholderList`).  Second conjunct: for any template
made of plain fragments around one long agent placeholder and the short
`__AGENT__` token, in either order of appearance, the rendered output has
both tokens fully and correctly substituted. -/
theorem c6_placeholder_substitution_ordering :
    (∀ (i j : Fin placeholderTokens.length), i ≠ j →
        noOccInB (placeholderTokens.get j) (placeholderTokens.get i) = false →
        (i : Nat) < (j : Nat)) ∧
    (∀ (a : String) (cfg : AgentCfg), AGENT_CONFIG a = some cfg →
      ∀ T val, (T, val) ∈ (agentPlaceholderList a cfg).take 5 →
        ∀ u v w : Content, fragB u = true → fragB v = true → fragB w = true → v ≠ [] →
          (applyAgentPlaceholders a cfg (u ++ (T ++ (v ++ (agentTok ++ w))))
            = u ++ (val ++ (v ++ (a.data ++ w)))) ∧
          (applyAgentPlaceholders a cfg (u ++ (agentTok ++ (v ++ (T ++ w))))
            = u ++ (a.data ++ (v ++ (val ++ w))))) := by
  constructor
  · decide
  · intro a cfg hcfg T val hmem u v w hu hv hw hvne
    have hvals := cfg_vals_noOcc a cfg hcfg
    have htok := toks_tokLike
    have hno := toks_noOcc
    have hvd : rstripSlash cfg.folder.data ∈ cfgVals cfg := by simp [cfgVals]
    have hvn : cfg.name.data ∈ cfgVals cfg := by simp [cfgVals]
    have hvf : cfg.context_file.data ∈ cfgVals cfg := by simp [cfgVals]
    have hvg : cfg.context_glob.data ∈ cfgVals cfg := by simp [cfgVals]
    have hvp : cfg.project_dir_env.data ∈ cfgVals cfg := by simp [cfgVals]
    simp only [agentPlaceholderList, List.take, List.mem_cons, List.not_mem_nil,
      or_false, Prod.mk.injEq] at hmem
    rcases hmem with ⟨rfl, rfl⟩ | ⟨rfl, rfl⟩ | ⟨rfl, rfl⟩ | ⟨rfl, rfl⟩ | ⟨rfl, rfl⟩
    · refine subst_chain_both_orders []
        [(nameTok, cfg.name.data), (ctxFileTok, cfg.context_file.data),
         (ctxGlobTok, cfg.context_glob.data), (pdeTok, cfg.project_dir_env.data)]
        dirTok _ agentTok a.data u v w
        (htok dirTok (by decide)) (htok agentTok (by decide)) hu hv hw hvne
        (hno dirTok (by decide) agentTok (by decide) (by decide))
        (hvals agentTok (by decide) _ hvd) ?_ ?_
      · intro pr hpr
        exact absurd hpr (List.not_mem_nil _)
      · intro pr hpr
        simp only [List.mem_cons, List.not_mem_nil, or_false] at hpr
        rcases hpr with rfl | rfl | rfl | rfl
        · exact ⟨htok nameTok (by decide), hvals nameTok (by decide) _ hvd,
            hno nameTok (by decide) agentTok (by decide) (by decide)⟩
        · exact ⟨htok ctxFileTok (by decide), hvals ctxFileTok (by decide) _ hvd,
            hno ctxFileTok (by decide) agentTok (by decide) (by decide)⟩
        · exact ⟨htok ctxGlobTok (by decide), hvals ctxGlobTok (by decide) _ hvd,
            hno ctxGlobTok (by decide) agentTok (by decide) (by decide)⟩
        · exact ⟨htok pdeTok (by decide), hvals pdeTok (by decide) _ hvd,
            hno pdeTok (by decide) agentTok (by decide) (by decide)⟩
    · refine subst_chain_both_orders [(dirTok, rstripSlash cfg.folder.data)]
        [(ctxFileTok, cfg.context_file.data),
         (ctxGlobTok, cfg.context_glob.data), (pdeTok, cfg.project_dir_env.data)]
        nameTok _ agentTok a.data u v w
        (htok nameTok (by decide)) (htok agentTok (by decide)) hu hv hw hvne
        (hno nameTok (by decide) agentTok (by decide) (by decide))
        (hvals agentTok (by decide) _ hvn) ?_ ?_
      · intro pr hpr
        simp only [List.mem_cons, List.not_mem_nil, or_false] at hpr
        rcases hpr with rfl
        exact ⟨htok dirTok (by decide), hno dirTok (by decide) nameTok (by decide) (by decide),
          hno dirTok (by decide) agentTok (by decide) (by decide)⟩
      · intro pr hpr
        simp only [List.mem_cons, List.not_mem_nil, or_false] at hpr
        rcases hpr with rfl | rfl | rfl
        · exact ⟨htok ctxFileTok (by decide), hvals ctxFileTok (by decide) _ hvn,
            hno ctxFileTok (by decide) agentTok (by decide) (by decide)⟩
        · exact ⟨htok ctxGlobTok (by decide), hvals ctxGlobTok (by decide) _ hvn,
            hno ctxGlobTok (by decide) agentTok (by decide) (by decide)⟩
        · exact ⟨htok pdeTok (by decide), hvals pdeTok (by decide) _ hvn,
            hno pdeTok (by decide) agentTok (by decide) (by decide)⟩
    · refine subst_chain_both_orders
        [(dirTok, rstripSlash cfg.folder.data), (nameTok, cfg.name.data)]
        [(ctxGlobTok, cfg.context_glob.data), (pdeTok, cfg.project_dir_env.data)]
        ctxFileTok _ agentTok a.data u v w
        (htok ctxFileTok (by decide)) (htok agentTok (by decide)) hu hv hw hvne
        (hno ctxFileTok (by decide) agentTok (by decide) (by decide))
        (hvals agentTok (by decide) _ hvf) ?_ ?_
      · intro pr hpr
        simp only [List.mem_cons, List.not_mem_nil, or_false] at hpr
        rcases hpr with rfl | rfl
        · exact ⟨htok dirTok (by decide),
            hno dirTok (by decide) ctxFileTok (by decide) (by decide),
            hno dirTok (by decide) agentTok (by decide) (by decide)⟩
        · exact ⟨htok nameTok (by decide),
            hno nameTok (by decide) ctxFileTok (by decide) (by decide),
            hno nameTok (by decide) agentTok (by decide) (by decide)⟩
      · intro pr hpr
        simp only [List.mem_cons, List.not_mem_nil, or_false] at hpr
        rcases hpr with rfl | rfl
        · exact ⟨htok ctxGlobTok (by decide), hvals ctxGlobTok (by decide) _ hvf,
            hno ctxGlobTok (by decide) agentTok (by decide) (by decide)⟩
        · exact ⟨htok pdeTok (by decide), hvals pdeTok (by decide) _ hvf,
            hno pdeTok (by decide) agentTok (by decide) (by decide)⟩
    · refine subst_chain_both_orders
        [(dirTok, rstripSlash cfg.folder.data), (nameTok, cfg.name.data),
         (ctxFileTok, cfg.context_file.data)]
        [(pdeTok, cfg.project_dir_env.data)]
        ctxGlobTok _ agentTok a.data u v w
        (htok ctxGlobTok (by decide)) (htok agentTok (by decide)) hu hv hw hvne
        (hno ctxGlobTok (by decide) agentTok (by decide) (by decide))
        (hvals agentTok (by decide) _ hvg) ?_ ?_
      · intro pr hpr
        simp only [List.mem_cons, List.not_mem_nil, or_false] at hpr
        rcases hpr with rfl | rfl | rfl
        · exact ⟨htok dirTok (by decide),
            hno dirTok (by decide) ctxGlobTok (by decide) (by decide),
            hno dirTok (by decide) agentTok (by decide) (by decide)⟩
        · exact ⟨htok nameTok (by decide),
            hno nameTok (by decide) ctxGlobTok (by decide) (by decide),
            hno nameTok (by decide) agentTok (by decide) (by decide)⟩
        · exact ⟨htok ctxFileTok (by decide),
            hno ctxFileTok (by decide) ctxGlobTok (by decide) (by decide),
            hno ctxFileTok (by decide) agentTok (by decide) (by decide)⟩
      · intro pr hpr
        simp only [List.mem_cons, List.not_mem_nil, or_false] at hpr
        rcases hpr with rfl
        exact ⟨htok pdeTok (by decide), hvals pdeTok (by decide) _ hvg,
          hno pdeTok (by decide) agentTok (by decide) (by decide)⟩
    · refine subst_chain_both_orders
        [(dirTok, rstripSlash cfg.folder.data), (nameTok, cfg.name.data),
         (ctxFileTok, cfg.context_file.data), (ctxGlobTok, cfg.context_glob.data)]
        []
        pdeTok _ agentTok a.data u v w
        (htok pdeTok (by decide)) (htok agentTok (by decide)) hu hv hw hvne
        (hno pdeTok (by decide) agentTok (by decide) (by decide))
        (hvals agentTok (by decide) _ hvp) ?_ ?_
      · intro pr hpr
        simp only [List.mem_cons, List.not_mem_nil, or_false] at hpr
        rcases hpr with rfl | rfl | rfl | rfl
        · exact ⟨htok dirTok (by decide),
            hno dirTok (by decide) pdeTok (by decide) (by decide),
            hno dirTok (by decide) agentTok (by decide) (by decide)⟩
        · exact ⟨htok nameTok (by decide),
            hno nameTok (by decide) pdeTok (by decide) (by decide),
            hno nameTok (by decide) agentTok (by decide) (by decide)⟩
        · exact ⟨htok ctxFileTok (by decide),
            hno ctxFileTok (by decide) pdeTok (by decide) (by decide),
            hno ctxFileTok (by decide) agentTok (by decide) (by decide)⟩
        · exact ⟨htok ctxGlobTok (by decide),
            hno ctxGlobTok (by decide) pdeTok (by decide) (by decide),
            hno ctxGlobTok (by decide) agentTok (by decide) (by decide)⟩
      · intro pr hpr
        exact absurd hpr (List.not_mem_nil _)

/-- Concrete witness for C6: for the `claude` agent, a template with
`__AGENT_DIR__` before `__AGENT__` (and plain text around them)
renders with both substituted. -/
theorem c6_placeholder_substitution_ordering_witness :
    (fragB " and ".data = true ∧ (" and ".data : Content) ≠ []) ∧
    (applyAgentPlaceholders "claude"
        ⟨"Claude Code", ".claude/", "CLAUDE.md", "**/*CLAUDE.md", "$CLAUDE_PROJECT_DIR"⟩
        ("see ".data ++ (dirTok ++ (" and ".data ++ (agentTok ++ " end".data))))
      = "see ".data ++ (rstripSlash (".claude/").data
          ++ (" and ".data ++ ("claude".data ++ " end".data)))) :=
  ⟨⟨by decide, by decide⟩,
   (c6_placeholder_substitution_ordering.2 "claude" _ rfl dirTok _
      (by simp [agentPlaceholderList, List.take])
      ("see ".data) (" and ".data) (" end".data)
      (by decide) (by decide) (by decide) (by decide)).1⟩

/-! ### Path rewrite for bundled templates (`_rewrite_paths_for_bundled`,
lines 346-357)

For each word in `memory`, `scripts`, `templates` the source applies two
`re.sub` passes: one matching `^(/?)word/` in MULTILINE mode (i.e. at the
start of the string or right after a newline), one matching `(/?)word/`
after a whitespace, backtick or quote lookbehind.  Both are modelled by one
generic scanner `rwPass` parameterized by its trigger on the previous
character (`none` = start of string). -/

/-- The lookbehind delimiter class `[\s`"']` of the second substitution
(backtick and quotes written via their code points). -/
def rwDelim (c : Char) : Bool :=
  c = ' ' ∨ c = '\t' ∨ c = '\n' ∨ c = '\r' ∨ c = Char.ofNat 11 ∨ c = Char.ofNat 12 ∨
    c = Char.ofNat 96 ∨ c = '"' ∨ c = Char.ofNat 39

/-- Trigger of the MULTILINE `^` anchor: start of string or after `\n`. -/
def trigLS : Option Char → Bool
  | none => true
  | some c => c = '\n'

/-- Trigger of the lookbehind `(?<=[\s`"'])` (code-point delimiters). -/
def trigD : Option Char → Bool
  | none => false
  | some c => rwDelim c

/-- Try to match `(/?)word/` at the head of `s`; returns the matched
length. -/
def slashMatch (w s : Content) : Option Nat :=
  if ('/' :: (w ++ ['/'])).isPrefixOf s = true then some (w.length + 2)
  else if (w ++ ['/']).isPrefixOf s = true then some (w.length + 1)
  else none

/-- The replacement text `.specforge/word/`. -/
def rwRepl (w : Content) : Content := ".specforge/".data ++ (w ++ ['/'])

theorem slashMatch_pos (w s : Content) (k : Nat) (h : slashMatch w s = some k) :
    1 ≤ k := by
  unfold slashMatch at h
  split at h
  · cases h; omega
  · split at h
    · cases h; omega
    · exact absurd h (by simp)

theorem slashMatch_getD_pos (w s : Content) (h : (slashMatch w s).isSome = true) :
    1 ≤ (slashMatch w s).getD 0 := by
  cases hm : slashMatch w s with
  | none => rw [hm] at h; exact absurd h (by simp)
  | some k =>
    have := slashMatch_pos w s k hm
    simpa using this

/-- One `re.sub` pass, fueled for structural recursion (the fuel is always
at least the string length): scan left to right carrying the previous
character; at a triggered position where `(/?)word/` matches, emit the
replacement and resume right after the matched text (whose last character
is `/`). -/
def rwPassF (trig : Option Char → Bool) (w : Content) : Nat → Option Char → Content → Content
  | 0, _, s => s
  | _ + 1, _, [] => []
  | fuel + 1, prev, c :: rest =>
    if trig prev = true ∧ (slashMatch w (c :: rest)).isSome = true then
      rwRepl w ++ rwPassF trig w fuel (some '/')
        ((c :: rest).drop ((slashMatch w (c :: rest)).getD 0))
    else c :: rwPassF trig w fuel (some c) rest

/-- One `re.sub` pass over the whole string. -/
def rwPass (trig : Option Char → Bool) (w : Content) (prev : Option Char)
    (s : Content) : Content :=
  rwPassF trig w s.length prev s

theorem rwPassF_fuel (trig : Option Char → Bool) (w : Content) :
    ∀ (n m : Nat) (s : Content), s.length ≤ n → s.length ≤ m →
      ∀ prev, rwPassF trig w n prev s = rwPassF trig w m prev s := by
  intro n
  induction n with
  | zero =>
    intro m s hn _ prev
    have hs : s = [] := List.length_eq_zero.1 (Nat.le_zero.1 hn)
    subst hs
    cases m <;> rfl
  | succ n ih =>
    intro m s hn hm prev
    cases s with
    | nil => cases m <;> rfl
    | cons c rest =>
      cases m with
      | zero => simp at hm
      | succ m' =>
        rw [rwPassF, rwPassF]
        simp only [List.length_cons] at hn hm
        by_cases hhit : trig prev = true ∧ (slashMatch w (c :: rest)).isSome = true
        · rw [if_pos hhit, if_pos hhit]
          have hk := slashMatch_getD_pos w _ hhit.2
          have hlen : ((c :: rest).drop ((slashMatch w (c :: rest)).getD 0)).length
              ≤ rest.length := by
            simp only [List.length_drop, List.length_cons]
            omega
          rw [ih m' _ (Nat.le_trans hlen (by omega)) (Nat.le_trans hlen (by omega)) (some '/')]
        · rw [if_neg hhit, if_neg hhit]
          rw [ih m' rest (by omega) (by omega) (some c)]

theorem rwPass_nil (trig : Option Char → Bool) (w : Content) (prev : Option Char) :
    rwPass trig w prev [] = [] := rfl

theorem rwPass_cons_hit (trig : Option Char → Bool) (w : Content) (prev : Option Char)
    (c : Char) (rest : Content)
    (ht : trig prev = true) (hm : (slashMatch w (c :: rest)).isSome = true) :
    rwPass trig w prev (c :: rest)
      = rwRepl w ++ rwPass trig w (some '/')
          ((c :: rest).drop ((slashMatch w (c :: rest)).getD 0)) := by
  show rwPassF trig w (c :: rest).length prev (c :: rest) = _
  rw [show (c :: rest).length = rest.length + 1 from rfl, rwPassF, if_pos ⟨ht, hm⟩]
  have hk := slashMatch_getD_pos w _ hm
  have hlen : ((c :: rest).drop ((slashMatch w (c :: rest)).getD 0)).length
      ≤ rest.length := by
    simp only [List.length_drop, List.length_cons]
    omega
  rw [rwPassF_fuel trig w rest.length _ _ hlen (Nat.le_refl _) (some '/')]
  rfl

theorem rwPass_cons_skip (trig : Option Char → Bool) (w : Content) (prev : Option Char)
    (c : Char) (rest : Content)
    (h : ¬ (trig prev = true ∧ (slashMatch w (c :: rest)).isSome = true)) :
    rwPass trig w prev (c :: rest) = c :: rwPass trig w (some c) rest := by
  show rwPassF trig w (c :: rest).length prev (c :: rest) = _
  rw [show (c :: rest).length = rest.length + 1 from rfl, rwPassF, if_neg h]
  rfl

/-- No triggered match anywhere in `s`, scanning from state `prev`. -/
def trigFree (trig : Option Char → Bool) (w : Content) : Option Char → Content → Bool
  | _, [] => true
  | prev, c :: rest =>
    (!(trig prev && (slashMatch w (c :: rest)).isSome)) && trigFree trig w (some c) rest

/-- A rewrite word is nonempty and holds no dot, slash or delimiter. -/
def wordOk (w : Content) : Bool :=
  !w.isEmpty && w.all (fun c => !(c = '.') && !(c = '/') && !(rwDelim c))

/-- A trigger fires only on delimiter characters. -/
def trigBound (trig : Option Char → Bool) : Prop :=
  ∀ c, trig (some c) = true → rwDelim c = true

theorem trigLS_bound : trigBound trigLS := by
  intro c h
  simp only [trigLS, decide_eq_true_eq] at h
  simp [rwDelim, h]

theorem trigD_bound : trigBound trigD := by
  intro c h
  exact h

/-- A trigger-free string is left unchanged by the pass. -/
theorem rwPass_of_trigFree (trig : Option Char → Bool) (w : Content) :
    ∀ (s : Content) (prev : Option Char), trigFree trig w prev s = true →
      rwPass trig w prev s = s := by
  intro s
  induction s with
  | nil => intro prev _; exact rwPass_nil trig w prev
  | cons c rest ih =>
    intro prev h
    rw [trigFree] at h
    simp only [Bool.and_eq_true, Bool.not_eq_true'] at h
    rw [rwPass_cons_skip trig w prev c rest (by
      rintro ⟨ht, hm⟩
      rw [ht, hm] at h
      simp at h)]
    rw [ih (some c) h.2]

/-- The scanner never invents text: a dot-free pattern that is a prefix of
the output was already a prefix of the input (replacements start with a
dot). -/
theorem isPrefixOf_rwPass (trig : Option Char → Bool) (w : Content)
    (u : Content) (hu : '.' ∉ u) :
    ∀ (s : Content) (prev : Option Char),
      u.isPrefixOf (rwPass trig w prev s) = true → u.isPrefixOf s = true := by
  induction u with
  | nil => intro s prev _; simp [List.isPrefixOf]
  | cons a u' ih =>
    intro s prev h
    cases s with
    | nil =>
      rw [rwPass_nil] at h
      simp [List.isPrefixOf] at h
    | cons c rest =>
      have hadot : a ≠ '.' := fun hc => hu (hc ▸ List.mem_cons_self _ _)
      have hu' : '.' ∉ u' := fun hc => hu (List.mem_cons_of_mem _ hc)
      by_cases hhit : trig prev = true ∧ (slashMatch w (c :: rest)).isSome = true
      · rw [rwPass_cons_hit trig w prev c rest hhit.1 hhit.2] at h
        exfalso
        have hshape : (a :: u').isPrefixOf ('.' :: ("specforge/".data ++ ((w ++ ['/'])
            ++ rwPass trig w (some '/')
              ((c :: rest).drop ((slashMatch w (c :: rest)).getD 0))))) = true := by
          simpa [rwRepl, List.append_assoc] using h
        simp only [List.isPrefixOf, Bool.and_eq_true, beq_iff_eq] at hshape
        exact hadot hshape.1
      · rw [rwPass_cons_skip trig w prev c rest hhit] at h
        simp only [List.isPrefixOf, Bool.and_eq_true, beq_iff_eq] at h ⊢
        exact ⟨h.1, ih hu' rest (some c) h.2⟩

/-- At a scan position the pass keeps, a match in the output implies a match
in the input. -/
theorem slashMatch_rwPass_isSome (trig : Option Char → Bool) (w w' : Content)
    (hw' : wordOk w' = true) (c : Char) (rest : Content) (prev : Option Char)
    (h : (slashMatch w' (c :: rwPass trig w prev rest)).isSome = true) :
    (slashMatch w' (c :: rest)).isSome = true := by
  have hdot2 : '.' ∉ w' ++ ['/'] := by
    intro hc
    simp only [List.mem_append, List.mem_singleton] at hc
    rcases hc with hc | hc
    · have h2 := hw'
      simp only [wordOk, Bool.and_eq_true, List.all_eq_true] at h2
      have := h2.2 '.' hc
      simp at this
    · exact absurd hc (by decide)
  by_cases h1 : ('/' :: (w' ++ ['/'])).isPrefixOf (c :: rwPass trig w prev rest) = true
  · have h1' : ('/' :: (w' ++ ['/'])).isPrefixOf (c :: rest) = true := by
      simp only [List.isPrefixOf, Bool.and_eq_true, beq_iff_eq] at h1 ⊢
      exact ⟨h1.1, isPrefixOf_rwPass trig w _ hdot2 rest prev h1.2⟩
    unfold slashMatch
    rw [if_pos h1']
    simp
  · by_cases h2 : (w' ++ ['/']).isPrefixOf (c :: rwPass trig w prev rest) = true
    · have h2' : (w' ++ ['/']).isPrefixOf (c :: rest) = true := by
        cases hw : w' ++ ['/'] with
        | nil => exact absurd hw (by simp)
        | cons x t =>
          rw [hw] at h2 hdot2
          simp only [List.isPrefixOf, Bool.and_eq_true, beq_iff_eq] at h2 ⊢
          refine ⟨h2.1, isPrefixOf_rwPass trig w t ?_ rest prev h2.2⟩
          intro hc
          exact hdot2 (List.mem_cons_of_mem _ hc)
      unfold slashMatch
      by_cases hx : ('/' :: (w' ++ ['/'])).isPrefixOf (c :: rest) = true
      · rw [if_pos hx]
        simp
      · rw [if_neg hx, if_pos h2']
        simp
    · exfalso
      unfold slashMatch at h
      rw [if_neg h1, if_neg h2] at h
      simp at h

theorem wordOk_no_delim (w : Content) (hw : wordOk w = true) :
    ∀ ch ∈ w, rwDelim ch = false := by
  intro ch hch
  have h2 := hw
  simp only [wordOk, Bool.and_eq_true, List.all_eq_true] at h2
  have := h2.2 ch hch
  simp only [Bool.and_eq_true, Bool.not_eq_true'] at this
  exact this.2

theorem wordOk_cons (w : Content) (hw : wordOk w = true) :
    ∃ w0 wt, w = w0 :: wt ∧ w0 ≠ '.' := by
  cases hww : w with
  | nil =>
    rw [hww] at hw
    simp [wordOk] at hw
  | cons w0 wt =>
    refine ⟨w0, wt, rfl, ?_⟩
    have h2 := hw
    simp only [wordOk, Bool.and_eq_true, List.all_eq_true] at h2
    have := h2.2 w0 (by rw [hww]; exact List.mem_cons_self _ _)
    simp only [Bool.and_eq_true, Bool.not_eq_true', decide_eq_false_iff_not] at this
    exact this.1.1

theorem slashMatch_dot (w : Content) (hw : wordOk w = true) (t : Content) :
    slashMatch w ('.' :: t) = none := by
  obtain ⟨w0, wt, hww, hw0⟩ := wordOk_cons w hw
  unfold slashMatch
  rw [if_neg, if_neg]
  · rw [hww]
    simp only [List.cons_append, List.isPrefixOf, Bool.and_eq_true, beq_iff_eq]
    rintro ⟨hc, -⟩
    exact hw0 hc
  · simp only [List.isPrefixOf, Bool.and_eq_true, beq_iff_eq]
    rintro ⟨hc, -⟩
    exact absurd hc (by decide)

theorem rwRepl_no_delim (w : Content) (hw : wordOk w = true) :
    ∀ ch ∈ rwRepl w, rwDelim ch = false := by
  intro ch hch
  rw [rwRepl] at hch
  simp only [List.mem_append, List.mem_singleton] at hch
  rcases hch with hch | hch | hch
  · simp only [List.mem_cons, List.not_mem_nil, or_false] at hch
    rcases hch with rfl | rfl | rfl | rfl | rfl | rfl | rfl | rfl | rfl | rfl | rfl <;> decide
  · exact wordOk_no_delim w hw ch hch
  · rw [hch]; decide

theorem getLastD_concat_slash : ∀ (xs : Content) (d : Char),
    (xs ++ ['/']).getLastD d = '/' := by
  intro xs
  induction xs with
  | nil => intro d; rfl
  | cons x xs' ih =>
    intro d
    rw [List.cons_append, List.getLastD_cons]
    exact ih x

theorem take_of_isPrefixOf (p : Content) :
    ∀ (s : Content), p.isPrefixOf s = true → s.take p.length = p := by
  induction p with
  | nil => intro s _; rfl
  | cons a p' ih =>
    intro s h
    cases s with
    | nil => simp [List.isPrefixOf] at h
    | cons c rest =>
      simp only [List.isPrefixOf, Bool.and_eq_true, beq_iff_eq] at h
      simp only [List.length_cons, List.take_succ_cons]
      rw [h.1, ih rest h.2]

/-- The text matched by `(/?)word/` ends with a slash. -/
theorem slashMatch_take (w s : Content) (hw : wordOk w = true)
    (h : (slashMatch w s).isSome = true) :
    (s.take ((slashMatch w s).getD 0)).getLastD ' ' = '/' := by
  unfold slashMatch at h ⊢
  by_cases h1 : ('/' :: (w ++ ['/'])).isPrefixOf s = true
  · rw [if_pos h1]
    have htake := take_of_isPrefixOf _ s h1
    have hlen : ('/' :: (w ++ ['/'])).length = w.length + 2 := by
      simp
    rw [hlen] at htake
    simp only [Option.getD_some]
    rw [htake]
    rw [show ('/' :: (w ++ ['/'])) = ('/' :: w) ++ ['/'] from rfl]
    exact getLastD_concat_slash _ _
  · rw [if_neg h1] at h ⊢
    by_cases h2 : (w ++ ['/']).isPrefixOf s = true
    · rw [if_pos h2]
      have htake := take_of_isPrefixOf _ s h2
      have hlen : (w ++ ['/']).length = w.length + 1 := by simp
      rw [hlen] at htake
      simp only [Option.getD_some]
      rw [htake]
      exact getLastD_concat_slash _ _
    · rw [if_neg h2] at h
      simp at h

theorem trigFree_retrig (trig : Option Char → Bool) (w : Content)
    (pv pv' : Option Char) (Y : Content)
    (h : trigFree trig w pv Y = true) (hpv' : trig pv' = false) :
    trigFree trig w pv' Y = true := by
  cases Y with
  | nil => rfl
  | cons c rest =>
    rw [trigFree] at h ⊢
    simp only [Bool.and_eq_true] at h ⊢
    refine ⟨by rw [hpv']; simp, h.2⟩

/-- Peel a leading segment off a trigger-free string. -/
theorem trigFree_append_right (trig : Option Char → Bool) (w : Content) :
    ∀ (xs Y : Content) (prev : Option Char) (d : Char),
      trigFree trig w prev (xs ++ Y) = true → xs ≠ [] →
      trigFree trig w (some (xs.getLastD d)) Y = true := by
  intro xs
  induction xs with
  | nil => intro Y prev d _ hne; exact absurd rfl hne
  | cons x xs' ih =>
    intro Y prev d h _
    rw [List.cons_append, trigFree] at h
    simp only [Bool.and_eq_true] at h
    rw [List.getLastD_cons]
    by_cases hxs : xs' = []
    · subst hxs
      simpa [List.getLastD] using h.2
    · exact ih Y (some x) x h.2 hxs

/-- Glue a segment of non-triggering characters onto a trigger-free tail. -/
theorem trigFree_cons_append (trig : Option Char → Bool) (w : Content) (Y : Content) :
    ∀ (xs' : Content) (x : Char) (prev : Option Char),
      (∀ c ∈ x :: xs', trig (some c) = false) →
      (trig prev = true → (slashMatch w ((x :: xs') ++ Y)).isSome = false) →
      trigFree trig w (some (xs'.getLastD x)) Y = true →
      trigFree trig w prev ((x :: xs') ++ Y) = true := by
  intro xs'
  induction xs' with
  | nil =>
    intro x prev hxs h0 hY
    show trigFree trig w prev (x :: Y) = true
    rw [trigFree]
    simp only [Bool.and_eq_true, Bool.not_eq_true']
    constructor
    · cases ht : trig prev with
      | false => simp
      | true =>
        have := h0 ht
        simp only [List.cons_append, List.nil_append] at this
        rw [this]
        simp
    · simpa using hY
  | cons x2 xs'' ih =>
    intro x prev hxs h0 hY
    show trigFree trig w prev (x :: ((x2 :: xs'') ++ Y)) = true
    rw [trigFree]
    simp only [Bool.and_eq_true, Bool.not_eq_true']
    constructor
    · cases ht : trig prev with
      | false => simp
      | true =>
        have := h0 ht
        simp only [List.cons_append] at this ⊢
        rw [this]
        simp
    · refine ih x2 (some x) (fun c hc => hxs c (List.mem_cons_of_mem _ hc)) ?_ ?_
      · intro hx
        rw [hxs x (List.mem_cons_self _ _)] at hx
        exact absurd hx (by simp)
      · rw [List.getLastD_cons] at hY
        exact hY

theorem rwRepl_shape (w : Content) :
    rwRepl w = '.' :: ("specforge/".data ++ (w ++ ['/'])) := rfl

theorem rwRepl_getLastD (w : Content) :
    ("specforge/".data ++ (w ++ ['/'])).getLastD '.' = '/' := by
  rw [show ("specforge/".data ++ (w ++ ['/'])) = (("specforge/".data ++ w) ++ ['/']) by
    rw [List.append_assoc]]
  exact getLastD_concat_slash _ _

/-- The output of a pass is trigger-free for that same pass. -/
theorem trigFree_rwPass_self (trig : Option Char → Bool) (w : Content)
    (hw : wordOk w = true) (htb : trigBound trig) :
    ∀ (n : Nat) (s : Content), s.length ≤ n → ∀ (prev : Option Char),
      trigFree trig w prev (rwPass trig w prev s) = true := by
  intro n
  induction n with
  | zero =>
    intro s hs prev
    have : s = [] := List.length_eq_zero.1 (Nat.le_zero.1 hs)
    rw [this, rwPass_nil]
    rfl
  | succ n ih =>
    intro s hs prev
    cases s with
    | nil => rw [rwPass_nil]; rfl
    | cons c rest =>
      by_cases hhit : trig prev = true ∧ (slashMatch w (c :: rest)).isSome = true
      · rw [rwPass_cons_hit trig w prev c rest hhit.1 hhit.2]
        have hklen : 1 ≤ (slashMatch w (c :: rest)).getD 0 :=
          slashMatch_getD_pos w _ hhit.2
        have hdlen : ((c :: rest).drop ((slashMatch w (c :: rest)).getD 0)).length ≤ n := by
          simp only [List.length_drop, List.length_cons]
          simp only [List.length_cons] at hs
          omega
        have hY := ih _ hdlen (some '/')
        rw [rwRepl_shape, List.cons_append]
        refine trigFree_cons_append trig w _ _ '.' prev ?_ ?_ ?_
        · intro ch hch
          cases htc : trig (some ch) with
          | false => rfl
          | true =>
            exfalso
            have hdel := htb ch htc
            have : rwDelim ch = false := by
              refine rwRepl_no_delim w hw ch ?_
              rw [rwRepl_shape]
              exact hch
            rw [this] at hdel
            exact absurd hdel (by simp)
        · intro _
          rw [List.cons_append, slashMatch_dot w hw]
          rfl
        · rw [rwRepl_getLastD]
          exact hY
      · rw [rwPass_cons_skip trig w prev c rest hhit]
        rw [trigFree]
        simp only [Bool.and_eq_true, Bool.not_eq_true']
        constructor
        · cases ht : trig prev with
          | false => simp
          | true =>
            simp only [Bool.true_and]
            cases hsm : (slashMatch w (c :: rwPass trig w (some c) rest)).isSome with
            | false => rfl
            | true =>
              exfalso
              have := slashMatch_rwPass_isSome trig w w hw c rest (some c) hsm
              exact hhit ⟨ht, this⟩
        · have hrl : rest.length ≤ n := by
            simp only [List.length_cons] at hs
            omega
          exact ih rest hrl (some c)

/-- A pass for one word preserves trigger-freedom for any word. -/
theorem trigFree_rwPass_other (trig trig' : Option Char → Bool) (w w' : Content)
    (hw : wordOk w = true) (hw' : wordOk w' = true) (htb' : trigBound trig') :
    ∀ (n : Nat) (s : Content), s.length ≤ n → ∀ (prev : Option Char),
      trigFree trig' w' prev s = true →
      trigFree trig' w' prev (rwPass trig w prev s) = true := by
  intro n
  induction n with
  | zero =>
    intro s hs prev _
    have : s = [] := List.length_eq_zero.1 (Nat.le_zero.1 hs)
    rw [this, rwPass_nil]
    rfl
  | succ n ih =>
    intro s hs prev hin
    cases s with
    | nil => rw [rwPass_nil]; rfl
    | cons c rest =>
      by_cases hhit : trig prev = true ∧ (slashMatch w (c :: rest)).isSome = true
      · rw [rwPass_cons_hit trig w prev c rest hhit.1 hhit.2]
        have hklen : 1 ≤ (slashMatch w (c :: rest)).getD 0 :=
          slashMatch_getD_pos w _ hhit.2
        have hdlen : ((c :: rest).drop ((slashMatch w (c :: rest)).getD 0)).length ≤ n := by
          simp only [List.length_drop, List.length_cons]
          simp only [List.length_cons] at hs
          omega
        have hintail : trigFree trig' w' (some '/')
            ((c :: rest).drop ((slashMatch w (c :: rest)).getD 0)) = true := by
          have hsplit : c :: rest
              = (c :: rest).take ((slashMatch w (c :: rest)).getD 0)
                ++ (c :: rest).drop ((slashMatch w (c :: rest)).getD 0) := by
            rw [List.take_append_drop]
          have htfne : (c :: rest).take ((slashMatch w (c :: rest)).getD 0) ≠ [] := by
            intro hc
            have := congrArg List.length hc
            simp only [List.length_take, List.length_nil, List.length_cons] at this
            omega
          have := trigFree_append_right trig' w' _ _ prev ' '
            (by rw [← hsplit]; exact hin) htfne
          rw [slashMatch_take w (c :: rest) hw hhit.2] at this
          exact this
        have hY := ih _ hdlen (some '/') hintail
        rw [rwRepl_shape, List.cons_append]
        refine trigFree_cons_append trig' w' _ _ '.' prev ?_ ?_ ?_
        · intro ch hch
          cases htc : trig' (some ch) with
          | false => rfl
          | true =>
            exfalso
            have hdel := htb' ch htc
            have : rwDelim ch = false := by
              refine rwRepl_no_delim w hw ch ?_
              rw [rwRepl_shape]
              exact hch
            rw [this] at hdel
            exact absurd hdel (by simp)
        · intro _
          rw [List.cons_append, slashMatch_dot w' hw']
          rfl
        · rw [rwRepl_getLastD]
          exact hY
      · rw [rwPass_cons_skip trig w prev c rest hhit]
        rw [trigFree] at hin ⊢
        simp only [Bool.and_eq_true, Bool.not_eq_true'] at hin ⊢
        constructor
        · cases ht : trig' prev with
          | false => simp
          | true =>
            simp only [Bool.true_and]
            cases hsm : (slashMatch w' (c :: rwPass trig w (some c) rest)).isSome with
            | false => rfl
            | true =>
              exfalso
              have hsome := slashMatch_rwPass_isSome trig w w' hw' c rest (some c) hsm
              rw [ht] at hin
              simp only [Bool.true_and] at hin
              rw [hin.1] at hsome
              exact absurd hsome (by simp)
        · have hrl : rest.length ≤ n := by
            simp only [List.length_cons] at hs
            omega
          exact ih rest hrl (some c) hin.2

/-- One word of `_rewrite_paths_for_bundled`: the MULTILINE line-start
substitution, then the delimiter-lookbehind substitution (lines 352-356). -/
def rwWord (w : Content) (s : Content) : Content :=
  rwPass trigD w none (rwPass trigLS w none s)

/-- `_rewrite_paths_for_bundled` (lines 346-357): the two substitutions for
`memory`, then `scripts`, then `templates`. -/
def _rewrite_paths_for_bundled (s : Content) : Content :=
  rwWord "templates".data (rwWord "scripts".data (rwWord "memory".data s))

/-- Both triggers of a word are dead in the output of its own passes. -/
theorem rwWord_self_trigFree (w : Content) (hw : wordOk w = true) (s : Content) :
    trigFree trigLS w none (rwWord w s) = true ∧
      trigFree trigD w none (rwWord w s) = true := by
  constructor
  · refine trigFree_rwPass_other trigD trigLS w w hw hw trigLS_bound _ _
      (Nat.le_refl _) none ?_
    exact trigFree_rwPass_self trigLS w hw trigLS_bound _ _ (Nat.le_refl _) none
  · exact trigFree_rwPass_self trigD w hw trigD_bound _ _ (Nat.le_refl _) none

/-- The passes for one word preserve trigger-freedom for any word. -/
theorem rwWord_other_trigFree (w w' : Content) (hw : wordOk w = true)
    (hw' : wordOk w' = true) (trig' : Option Char → Bool) (htb' : trigBound trig')
    (s : Content) (h : trigFree trig' w' none s = true) :
    trigFree trig' w' none (rwWord w s) = true := by
  refine trigFree_rwPass_other trigD trig' w w' hw hw' htb' _ _ (Nat.le_refl _) none ?_
  exact trigFree_rwPass_other trigLS trig' w w' hw hw' htb' _ _ (Nat.le_refl _) none h

/-- A string free of both this word's triggers is unchanged by its passes. -/
theorem rwWord_of_trigFree (w : Content) (s : Content)
    (hLS : trigFree trigLS w none s = true) (hD : trigFree trigD w none s = true) :
    rwWord w s = s := by
  unfold rwWord
  rw [rwPass_of_trigFree trigLS w s none hLS, rwPass_of_trigFree trigD w s none hD]

/-- **C9.** The path-rewrite transformation (`_rewrite_paths_for_bundled`)
relocates a `memory/`, `scripts/` or `templates/` reference under the
`.specforge/` prefix only at a triggered position (start of a line, or
immediately after a whitespace, backtick or quote character): a string with
no triggered occurrence of any of the three words is returned unchanged
(first conjunct), and applying the transformation twice yields the same
result as applying it once, for every input (second conjunct) — in
particular references already namespaced under `.specforge/` are never
rewritten again.  The third conjunct shows a concrete input: a line-start
reference and a quote-preceded reference are relocated, while a mid-word
occurrence and an already-namespaced one are untouched. -/
theorem c9_rewrite_paths_for_bundled :
    (∀ s : Content,
      trigFree trigLS "memory".data none s = true →
      trigFree trigD "memory".data none s = true →
      trigFree trigLS "scripts".data none s = true →
      trigFree trigD "scripts".data none s = true →
      trigFree trigLS "templates".data none s = true →
      trigFree trigD "templates".data none s = true →
      _rewrite_paths_for_bundled s = s) ∧
    (∀ s : Content, _rewrite_paths_for_bundled (_rewrite_paths_for_bundled s)
        = _rewrite_paths_for_bundled s) ∧
    (_rewrite_paths_for_bundled
        ("scripts/a.sh xscripts/b .specforge/scripts/c \"scripts/d".data)
      = (".specforge/scripts/a.sh xscripts/b .specforge/scripts/c \".specforge/scripts/d".data)) := by
  have hwm : wordOk "memory".data = true := by decide
  have hws : wordOk "scripts".data = true := by decide
  have hwt : wordOk "templates".data = true := by decide
  refine ⟨?_, ?_, ?_⟩
  · intro s hm1 hm2 hs1 hs2 ht1 ht2
    unfold _rewrite_paths_for_bundled
    rw [rwWord_of_trigFree _ _ hm1 hm2, rwWord_of_trigFree _ _ hs1 hs2,
      rwWord_of_trigFree _ _ ht1 ht2]
  · intro s
    set s3 := _rewrite_paths_for_bundled s with hs3
    have hmem : trigFree trigLS "memory".data none s3 = true ∧
        trigFree trigD "memory".data none s3 = true := by
      have h1 := rwWord_self_trigFree "memory".data hwm s
      constructor
      · exact rwWord_other_trigFree "templates".data "memory".data hwt hwm trigLS
          trigLS_bound _ (rwWord_other_trigFree "scripts".data "memory".data hws hwm
            trigLS trigLS_bound _ h1.1)
      · exact rwWord_other_trigFree "templates".data "memory".data hwt hwm trigD
          trigD_bound _ (rwWord_other_trigFree "scripts".data "memory".data hws hwm
            trigD trigD_bound _ h1.2)
    have hscr : trigFree trigLS "scripts".data none s3 = true ∧
        trigFree trigD "scripts".data none s3 = true := by
      have h1 := rwWord_self_trigFree "scripts".data hws (rwWord "memory".data s)
      constructor
      · exact rwWord_other_trigFree "templates".data "scripts".data hwt hws trigLS
          trigLS_bound _ h1.1
      · exact rwWord_other_trigFree "templates".data "scripts".data hwt hws trigD
          trigD_bound _ h1.2
    have htem : trigFree trigLS "templates".data none s3 = true ∧
        trigFree trigD "templates".data none s3 = true :=
      rwWord_self_trigFree "templates".data hwt _
    show _rewrite_paths_for_bundled s3 = s3
    unfold _rewrite_paths_for_bundled
    rw [rwWord_of_trigFree _ _ hmem.1 hmem.2, rwWord_of_trigFree _ _ hscr.1 hscr.2,
      rwWord_of_trigFree _ _ htem.1 htem.2]
  · decide

/-- Concrete witness for C9: a string with no triggered path reference is
left unchanged. -/
theorem c9_rewrite_paths_for_bundled_witness :
    (trigFree trigLS "memory".data none ("see x/scripts".data) = true) ∧
    (_rewrite_paths_for_bundled ("see x/scripts".data) = "see x/scripts".data) :=
  ⟨by decide,
   c9_rewrite_paths_for_bundled.1 ("see x/scripts".data)
     (by decide) (by decide) (by decide) (by decide) (by decide) (by decide)⟩

/-! ### Context Synchronizer (`sync_context_files`, lines 1389-1460)

Discovery collects each installed agent's existing context file
(deduplicated by resolved path; the model's paths are already canonical, so
aliasing arises from agents sharing a table entry such as `AGENTS.md`).
The most recently modified candidate wins (Python `max` keeps the first
maximal element); its body, stripped of a leading frontmatter block, is
rewritten to every other deduplicated target.  A `clock` argument models
wall time: every write stamps the current clock and advances it, so later
writes always carry strictly larger modification times. -/

def find3Dash : Content → Option Nat
  | [] => none
  | c :: rest =>
    if ("---".data).isPrefixOf (c :: rest) = true then some 0
    else (find3Dash rest).map (fun i => i + 1)

/-- `_extract_markdown_body` (lines 1367-1376): strip a leading `---`
frontmatter block (`content.find("---", 3)` then `lstrip("\n")`). -/
def _extract_markdown_body (s : Content) : Content :=
  if ("---".data).isPrefixOf s = true then
    match find3Dash (s.drop 3) with
    | some i => ((s.drop 3).drop (i + 3)).dropWhile (fun c => c = '\n')
    | none => s
  else s

/-- The synthetic frontmatter header written for the cursor agent family. -/
def cursorHeader : Content :=
  "---\ndescription: SpecForge project context\nglobs: \n---\n\n".data

/-- `_format_context_for_agent` (lines 1379-1386). -/
def _format_context_for_agent (agentKey : String) (body : Content) : Content :=
  if agentKey = "cursor-agent" then cursorHeader ++ body else body

/-- Discovery phase of `sync_context_files` (lines 1397-1413): existing
context files with mtimes, deduplicated by path, first agent kept. -/
def collectCtx (fs : FS) : List String → List FPath → List (String × FPath × Nat)
  | [], _ => []
  | a :: rest, seen =>
    match AGENT_CONTEXT_PATHS a with
    | none => collectCtx fs rest seen
    | some p =>
      match fs.lookup p with
      | none => collectCtx fs rest seen
      | some f =>
        if p ∈ seen then collectCtx fs rest seen
        else (a, p, f.mtime) :: collectCtx fs rest (p :: seen)

/-- Python `max(context_files, key=mtime)`: the first maximal element. -/
def firstMaxAux (best : String × FPath × Nat) :
    List (String × FPath × Nat) → String × FPath × Nat
  | [] => best
  | c :: rest => firstMaxAux (if best.2.2 < c.2.2 then c else best) rest

def firstMax : List (String × FPath × Nat) → Option (String × FPath × Nat)
  | [] => none
  | c :: rest => some (firstMaxAux c rest)

/-- The state threaded through the propagation loop of
`sync_context_files`. -/
structure CtxSyncState where
  fs : FS
  synced : Nat
  created : Nat
  clock : Nat
  targets : List FPath
  events : List (String × FPath)
  deriving DecidableEq

/-- Propagation phase of `sync_context_files` (lines 1428-1454): write the
formatted body to every agent's context path, skipping the source path and
already-synced resolved targets. -/
def propagateCtx (winnerPath : FPath) (body : Content) :
    List String → CtxSyncState → CtxSyncState
  | [], st => st
  | a :: rest, st =>
    match AGENT_CONTEXT_PATHS a with
    | none => propagateCtx winnerPath body rest st
    | some r =>
      if r = winnerPath then propagateCtx winnerPath body rest st
      else if r ∈ st.targets then propagateCtx winnerPath body rest st
      else
        let isNew : Bool := (st.fs.lookup r).isNone
        propagateCtx winnerPath body rest
          { fs := st.fs.write r ⟨_format_context_for_agent a body, st.clock⟩
            synced := st.synced + 1
            created := st.created + (if isNew then 1 else 0)
            clock := st.clock + 1
            targets := r :: st.targets
            events := (a, r) :: st.events }

/-- `sync_context_files` (lines 1389-1460). -/
def sync_context_files (installedAgents : List String) (fs : FS) (clock : Nat) :
    CtxSyncState :=
  match firstMax (collectCtx fs installedAgents []) with
  | none => ⟨fs, 0, 0, clock, [], []⟩
  | some newest =>
    let newestContent := ((fs.lookup newest.2.1).map SFile.content).getD []
    let body := _extract_markdown_body newestContent
    propagateCtx newest.2.1 body installedAgents ⟨fs, 0, 0, clock, [], []⟩

/-! ### Facts about discovery -/

/-- Collected entries are valid: the agent is installed, resolves to the
recorded path, and the file exists with the recorded mtime. -/
theorem collectCtx_mem (fs : FS) :
    ∀ (agents : List String) (seen : List FPath) (a : String) (p : FPath) (t : Nat),
      (a, p, t) ∈ collectCtx fs agents seen →
      a ∈ agents ∧ AGENT_CONTEXT_PATHS a = some p ∧
        ∃ f, fs.lookup p = some f ∧ f.mtime = t := by
  intro agents
  induction agents with
  | nil => intro seen a p t h; exact absurd h (List.not_mem_nil _)
  | cons b rest ih =>
    intro seen a p t h
    rw [collectCtx] at h
    cases hb : AGENT_CONTEXT_PATHS b with
    | none =>
      rw [hb] at h
      obtain ⟨h1, h2, h3⟩ := ih seen a p t h
      exact ⟨List.mem_cons_of_mem _ h1, h2, h3⟩
    | some pb =>
      rw [hb] at h
      simp only [] at h
      cases hf : fs.lookup pb with
      | none =>
        rw [hf] at h
        simp only [] at h
        obtain ⟨h1, h2, h3⟩ := ih seen a p t h
        exact ⟨List.mem_cons_of_mem _ h1, h2, h3⟩
      | some f =>
        rw [hf] at h
        simp only [] at h
        by_cases hseen : pb ∈ seen
        · rw [if_pos hseen] at h
          obtain ⟨h1, h2, h3⟩ := ih seen a p t h
          exact ⟨List.mem_cons_of_mem _ h1, h2, h3⟩
        · rw [if_neg hseen] at h
          rcases List.mem_cons.1 h with heq | hrest
          · rw [Prod.mk.injEq, Prod.mk.injEq] at heq
            obtain ⟨rfl, rfl, rfl⟩ := heq
            exact ⟨List.mem_cons_self _ _, hb, ⟨f, hf, rfl⟩⟩
          · obtain ⟨h1, h2, h3⟩ := ih _ a p t hrest
            exact ⟨List.mem_cons_of_mem _ h1, h2, h3⟩

/-- Collected paths avoid the seen set. -/
theorem collectCtx_not_seen (fs : FS) :
    ∀ (agents : List String) (seen : List FPath) (a : String) (p : FPath) (t : Nat),
      (a, p, t) ∈ collectCtx fs agents seen → p ∉ seen := by
  intro agents
  induction agents with
  | nil => intro seen a p t h; exact absurd h (List.not_mem_nil _)
  | cons b rest ih =>
    intro seen a p t h
    rw [collectCtx] at h
    cases hb : AGENT_CONTEXT_PATHS b with
    | none =>
      rw [hb] at h
      exact ih seen a p t h
    | some pb =>
      rw [hb] at h
      simp only [] at h
      cases hf : fs.lookup pb with
      | none =>
        rw [hf] at h
        simp only [] at h
        exact ih seen a p t h
      | some f =>
        rw [hf] at h
        simp only [] at h
        by_cases hseen : pb ∈ seen
        · rw [if_pos hseen] at h
          exact ih seen a p t h
        · rw [if_neg hseen] at h
          rcases List.mem_cons.1 h with heq | hrest
          · rw [Prod.mk.injEq, Prod.mk.injEq] at heq
            obtain ⟨-, rfl, -⟩ := heq
            exact hseen
          · have := ih _ a p t hrest
            intro hc
            exact this (List.mem_cons_of_mem _ hc)

/-- Deduplication: the collected paths are pairwise distinct. -/
theorem collectCtx_paths_nodup (fs : FS) :
    ∀ (agents : List String) (seen : List FPath),
      ((collectCtx fs agents seen).map (fun e => e.2.1)).Nodup := by
  intro agents
  induction agents with
  | nil => intro seen; simp [collectCtx]
  | cons b rest ih =>
    intro seen
    rw [collectCtx]
    cases hb : AGENT_CONTEXT_PATHS b with
    | none =>
      simp only []
      exact ih seen
    | some pb =>
      simp only []
      cases hf : fs.lookup pb with
      | none =>
        simp only []
        exact ih seen
      | some f =>
        simp only []
        by_cases hseen : pb ∈ seen
        · rw [if_pos hseen]
          exact ih seen
        · rw [if_neg hseen]
          simp only [List.map_cons, List.nodup_cons]
          constructor
          · intro hc
            simp only [List.mem_map] at hc
            obtain ⟨e, he, hep⟩ := hc
            have := collectCtx_not_seen fs rest (pb :: seen) e.1 e.2.1 e.2.2 (by
              rw [show (e.1, e.2.1, e.2.2) = e from rfl]
              exact he)
            rw [hep] at this
            exact this (List.mem_cons_self _ _)
          · exact ih (pb :: seen)

/-- Deduplication keeps the first agent: every collected entry's agent is
the first installed agent that resolves to that (unclaimed) path with an
existing file. -/
theorem collectCtx_first_agent (fs : FS) :
    ∀ (agents : List String) (seen : List FPath) (a : String) (p : FPath) (t : Nat),
      (a, p, t) ∈ collectCtx fs agents seen →
      ∃ pre suf, agents = pre ++ a :: suf ∧
        ∀ b ∈ pre, ¬ (AGENT_CONTEXT_PATHS b = some p ∧ (fs.lookup p).isSome = true) := by
  intro agents
  induction agents with
  | nil => intro seen a p t h; exact absurd h (List.not_mem_nil _)
  | cons b rest ih =>
    intro seen a p t h
    have hpseen := collectCtx_not_seen fs (b :: rest) seen a p t h
    rw [collectCtx] at h
    cases hb : AGENT_CONTEXT_PATHS b with
    | none =>
      obtain ⟨pre, suf, hsplit, hpre⟩ := ih seen a p t (by rw [hb] at h; exact h)
      refine ⟨b :: pre, suf, by rw [hsplit]; rfl, ?_⟩
      intro x hx
      rcases List.mem_cons.1 hx with rfl | hx'
      · rintro ⟨hc, -⟩
        rw [hb] at hc
        exact absurd hc (by simp)
      · exact hpre x hx'
    | some pb =>
      rw [hb] at h
      simp only [] at h
      cases hf : fs.lookup pb with
      | none =>
        obtain ⟨pre, suf, hsplit, hpre⟩ := ih seen a p t (by rw [hf] at h; exact h)
        refine ⟨b :: pre, suf, by rw [hsplit]; rfl, ?_⟩
        intro x hx
        rcases List.mem_cons.1 hx with rfl | hx'
        · rintro ⟨hc, hsome⟩
          rw [hb, Option.some.injEq] at hc
          rw [← hc] at hsome
          rw [hf] at hsome
          exact absurd hsome (by simp)
        · exact hpre x hx'
      | some f =>
        rw [hf] at h
        simp only [] at h
        by_cases hseen : pb ∈ seen
        · rw [if_pos hseen] at h
          obtain ⟨pre, suf, hsplit, hpre⟩ := ih seen a p t h
          refine ⟨b :: pre, suf, by rw [hsplit]; rfl, ?_⟩
          intro x hx
          rcases List.mem_cons.1 hx with rfl | hx'
          · rintro ⟨hc, -⟩
            rw [hb, Option.some.injEq] at hc
            rw [hc] at hseen
            exact hpseen hseen
          · exact hpre x hx'
        · rw [if_neg hseen] at h
          rcases List.mem_cons.1 h with heq | hrest
          · rw [Prod.mk.injEq, Prod.mk.injEq] at heq
            obtain ⟨rfl, rfl, rfl⟩ := heq
            exact ⟨[], rest, rfl, by intro x hx; exact absurd hx (List.not_mem_nil _)⟩
          · obtain ⟨pre, suf, hsplit, hpre⟩ := ih _ a p t hrest
            have hppb : p ≠ pb := by
              have := collectCtx_not_seen fs rest (pb :: seen) a p t hrest
              intro hc
              exact this (by rw [hc]; exact List.mem_cons_self _ _)
            refine ⟨b :: pre, suf, by rw [hsplit]; rfl, ?_⟩
            intro x hx
            rcases List.mem_cons.1 hx with rfl | hx'
            · rintro ⟨hc, -⟩
              rw [hb, Option.some.injEq] at hc
              exact hppb hc.symm
            · exact hpre x hx'

/-! ### Winner selection -/

/-- Specification of `firstMaxAux` (Python `max` keeps the first maximal
element). -/
theorem firstMaxAux_spec :
    ∀ (rest : List (String × FPath × Nat)) (best : String × FPath × Nat),
      (firstMaxAux best rest = best ∨
        ∃ l1 l2, rest = l1 ++ firstMaxAux best rest :: l2 ∧
          best.2.2 < (firstMaxAux best rest).2.2 ∧
          ∀ d ∈ l1, d.2.2 < (firstMaxAux best rest).2.2) ∧
      best.2.2 ≤ (firstMaxAux best rest).2.2 ∧
      (∀ d ∈ rest, d.2.2 ≤ (firstMaxAux best rest).2.2) := by
  intro rest
  induction rest with
  | nil =>
    intro best
    exact ⟨Or.inl rfl, Nat.le_refl _, fun d hd => absurd hd (List.not_mem_nil _)⟩
  | cons c rest' ih =>
    intro best
    rw [show firstMaxAux best (c :: rest')
        = firstMaxAux (if best.2.2 < c.2.2 then c else best) rest' from rfl]
    obtain ⟨hpos, hle, hall⟩ := ih (if best.2.2 < c.2.2 then c else best)
    by_cases hbc : best.2.2 < c.2.2
    · rw [if_pos hbc] at hpos hle hall ⊢
      refine ⟨?_, Nat.le_trans (Nat.le_of_lt hbc) hle, ?_⟩
      · rcases hpos with heq | ⟨l1, l2, hsplit, hlt, hl1⟩
        · refine Or.inr ⟨[], rest', ?_, ?_, ?_⟩
          · rw [heq]; rfl
          · rw [heq]; exact hbc
          · intro d hd; exact absurd hd (List.not_mem_nil _)
        · refine Or.inr ⟨c :: l1, l2, ?_, ?_, ?_⟩
          · conv_lhs => rw [hsplit]
            rw [List.cons_append]
          · exact Nat.lt_trans hbc hlt
          · intro d hd
            rcases List.mem_cons.1 hd with rfl | hd'
            · exact hlt
            · exact hl1 d hd'
      · intro d hd
        rcases List.mem_cons.1 hd with rfl | hd'
        · exact hle
        · exact hall d hd'
    · rw [if_neg hbc] at hpos hle hall ⊢
      refine ⟨?_, hle, ?_⟩
      · rcases hpos with heq | ⟨l1, l2, hsplit, hlt, hl1⟩
        · exact Or.inl heq
        · refine Or.inr ⟨c :: l1, l2, ?_, hlt, ?_⟩
          · conv_lhs => rw [hsplit]
            rw [List.cons_append]
          · intro d hd
            rcases List.mem_cons.1 hd with rfl | hd'
            · exact Nat.lt_of_le_of_lt (Nat.le_of_not_lt hbc) hlt
            · exact hl1 d hd'
      · intro d hd
        rcases List.mem_cons.1 hd with rfl | hd'
        · exact Nat.le_trans (Nat.le_of_not_lt hbc) hle
        · exact hall d hd'

/-- Specification of Python `max` over the candidate list: the winner is a
candidate of maximal modification time, and every candidate listed before
it is strictly older. -/
theorem firstMax_spec (l : List (String × FPath × Nat)) (c : String × FPath × Nat)
    (h : firstMax l = some c) :
    (∃ l1 l2, l = l1 ++ c :: l2 ∧ ∀ d ∈ l1, d.2.2 < c.2.2) ∧
      ∀ d ∈ l, d.2.2 ≤ c.2.2 := by
  cases l with
  | nil => exact absurd h (by simp [firstMax])
  | cons c0 rest =>
    rw [show firstMax (c0 :: rest) = some (firstMaxAux c0 rest) from rfl,
      Option.some.injEq] at h
    obtain ⟨hpos, hle, hall⟩ := firstMaxAux_spec rest c0
    rw [h] at hpos hle hall
    constructor
    · rcases hpos with heq | ⟨l1, l2, hsplit, hlt, hl1⟩
      · exact ⟨[], rest, by rw [heq, List.nil_append],
          fun d hd => absurd hd (List.not_mem_nil _)⟩
      · refine ⟨c0 :: l1, l2, ?_, ?_⟩
        · conv_lhs => rw [hsplit]
          rw [List.cons_append]
        intro d hd
        rcases List.mem_cons.1 hd with rfl | hd'
        · exact hlt
        · exact hl1 d hd'
    · intro d hd
      rcases List.mem_cons.1 hd with rfl | hd'
      · exact hle
      · exact hall d hd'

/-- **C10.** When two or more deduplicated context-file candidates share the
identical maximal modification time, the winner of `sync_context_files` is
the first one in the candidate list — which `collectCtx` builds in
installed-agents iteration order — making winner selection deterministic:
every candidate strictly before the winner has a strictly smaller mtime,
and no candidate anywhere exceeds the winner's. -/
theorem c10_tie_breaks_to_first_agent (installed : List String) (fs : FS)
    (c : String × FPath × Nat)
    (h : firstMax (collectCtx fs installed []) = some c) :
    (∃ l1 l2, collectCtx fs installed [] = l1 ++ c :: l2 ∧
        ∀ d ∈ l1, d.2.2 < c.2.2) ∧
      ∀ d ∈ collectCtx fs installed [], d.2.2 ≤ c.2.2 :=
  firstMax_spec _ c h

/-- Concrete witness for C10: `claude` and `gemini` both have mtime 5; the
winner is the `claude` candidate, first in iteration order. -/
theorem c10_tie_breaks_to_first_agent_witness :
    (firstMax (collectCtx
        ⟨[(["CLAUDE.md"], ⟨"A".data, 5⟩), (["GEMINI.md"], ⟨"B".data, 5⟩)]⟩
        ["claude", "gemini"] []) = some ("claude", ["CLAUDE.md"], 5)) ∧
    ((∃ l1 l2, collectCtx
        ⟨[(["CLAUDE.md"], ⟨"A".data, 5⟩), (["GEMINI.md"], ⟨"B".data, 5⟩)]⟩
        ["claude", "gemini"] [] = l1 ++ ("claude", ["CLAUDE.md"], 5) :: l2 ∧
        ∀ d ∈ l1, d.2.2 < 5) ∧
      ∀ d ∈ collectCtx
        ⟨[(["CLAUDE.md"], ⟨"A".data, 5⟩), (["GEMINI.md"], ⟨"B".data, 5⟩)]⟩
        ["claude", "gemini"] [], d.2.2 ≤ 5) :=
  ⟨by decide, c10_tie_breaks_to_first_agent _ _ _ (by decide)⟩

/-! ### Propagation facts -/

/-- Each pass writes every distinct resolved target path at most once. -/
theorem propagateCtx_events_nodup (wp : FPath) (body : Content) :
    ∀ (agents : List String) (st : CtxSyncState),
      (st.events.map Prod.snd).Nodup →
      (∀ e ∈ st.events, e.2 ∈ st.targets) →
      ((propagateCtx wp body agents st).events.map Prod.snd).Nodup ∧
        ∀ e ∈ (propagateCtx wp body agents st).events,
          e.2 ∈ (propagateCtx wp body agents st).targets := by
  intro agents
  induction agents with
  | nil => intro st h1 h2; exact ⟨h1, h2⟩
  | cons a rest ih =>
    intro st h1 h2
    rw [propagateCtx]
    cases ha : AGENT_CONTEXT_PATHS a with
    | none => exact ih st h1 h2
    | some r =>
      simp only []
      by_cases hwp : r = wp
      · rw [if_pos hwp]
        exact ih st h1 h2
      · rw [if_neg hwp]
        by_cases htg : r ∈ st.targets
        · rw [if_pos htg]
          exact ih st h1 h2
        · rw [if_neg htg]
          refine ih _ ?_ ?_
          · simp only [List.map_cons, List.nodup_cons]
            refine ⟨?_, h1⟩
            intro hc
            simp only [List.mem_map] at hc
            obtain ⟨e, he, hep⟩ := hc
            exact htg (by rw [← hep]; exact h2 e he)
          · intro e he
            rcases List.mem_cons.1 he with rfl | he'
            · exact List.mem_cons_self _ _
            · exact List.mem_cons_of_mem _ (h2 e he')

/-- **C3.** In one invocation of `sync_context_files`, (first conjunct) the
deduplicated discovery candidates resolve to pairwise-distinct physical
paths — no file is read twice as an independent source; (second conjunct)
the candidate kept for a path belongs to the first installed agent that
resolves to that path with an existing file; (third conjunct) during
propagation each distinct resolved target path is written at most once per
pass. -/
theorem c3_alias_dedup (installed : List String) (fs : FS) (clock : Nat) :
    ((collectCtx fs installed []).map (fun e => e.2.1)).Nodup ∧
    (∀ a p t, (a, p, t) ∈ collectCtx fs installed [] →
      ∃ pre suf, installed = pre ++ a :: suf ∧
        ∀ b ∈ pre, ¬ (AGENT_CONTEXT_PATHS b = some p ∧ (fs.lookup p).isSome = true)) ∧
    ((sync_context_files installed fs clock).events.map Prod.snd).Nodup := by
  refine ⟨collectCtx_paths_nodup fs installed [], ?_, ?_⟩
  · intro a p t h
    exact collectCtx_first_agent fs installed [] a p t h
  · unfold sync_context_files
    cases hfm : firstMax (collectCtx fs installed []) with
    | none => simp
    | some newest =>
      simp only []
      exact (propagateCtx_events_nodup newest.2.1 _ installed
        ⟨fs, 0, 0, clock, [], []⟩ (by simp) (by simp)).1

/-- Concrete witness for C3: `opencode` and `codex` alias `AGENTS.md`; only
the first is collected, and the sync pass writes `CLAUDE.md` exactly once. -/
theorem c3_alias_dedup_witness :
    ((collectCtx ⟨[(["AGENTS.md"], ⟨"A".data, 9⟩), (["CLAUDE.md"], ⟨"B".data, 1⟩)]⟩
        ["opencode", "codex", "claude"] []).map (fun e => e.2.1)
      = [["AGENTS.md"], ["CLAUDE.md"]]) ∧
    (((collectCtx ⟨[(["AGENTS.md"], ⟨"A".data, 9⟩), (["CLAUDE.md"], ⟨"B".data, 1⟩)]⟩
        ["opencode", "codex", "claude"] []).map (fun e => e.2.1)).Nodup ∧
      (∀ a p t, (a, p, t) ∈ collectCtx
          ⟨[(["AGENTS.md"], ⟨"A".data, 9⟩), (["CLAUDE.md"], ⟨"B".data, 1⟩)]⟩
          ["opencode", "codex", "claude"] [] →
        ∃ pre suf, ["opencode", "codex", "claude"] = pre ++ a :: suf ∧
          ∀ b ∈ pre, ¬ (AGENT_CONTEXT_PATHS b = some p ∧
            (FS.lookup ⟨[(["AGENTS.md"], ⟨"A".data, 9⟩), (["CLAUDE.md"], ⟨"B".data, 1⟩)]⟩
              p).isSome = true)) ∧
      ((sync_context_files ["opencode", "codex", "claude"]
          ⟨[(["AGENTS.md"], ⟨"A".data, 9⟩), (["CLAUDE.md"], ⟨"B".data, 1⟩)]⟩
          100).events.map Prod.snd).Nodup) :=
  ⟨by decide, c3_alias_dedup ["opencode", "codex", "claude"] _ 100⟩

/-- A nonempty candidate list always yields a winner. -/
theorem firstMax_isSome (l : List (String × FPath × Nat)) (h : l ≠ []) :
    ∃ c, firstMax l = some c := by
  cases l with
  | nil => exact absurd rfl h
  | cons c0 rest => exact ⟨firstMaxAux c0 rest, rfl⟩

/-- The first installed agent whose context path resolves to `r` — the one
whose formatting convention the written copy of `r` ends up using. -/
def firstCtxAgent (r : FPath) : List String → Option String
  | [] => none
  | a :: rest =>
    if AGENT_CONTEXT_PATHS a = some r then some a else firstCtxAgent r rest

/-- Propagation never touches the winner path, nor any path already in the
synced-targets set. -/
theorem propagateCtx_preserved (wp : FPath) (body : Content) :
    ∀ (agents : List String) (st : CtxSyncState) (q : FPath),
      q ∈ st.targets ∨ q = wp →
      (propagateCtx wp body agents st).fs.lookup q = st.fs.lookup q := by
  intro agents
  induction agents with
  | nil => intro st q _; rfl
  | cons a rest ih =>
    intro st q hq
    rw [propagateCtx]
    cases ha : AGENT_CONTEXT_PATHS a with
    | none => exact ih st q hq
    | some r =>
      simp only []
      by_cases hwp : r = wp
      · rw [if_pos hwp]; exact ih st q hq
      · rw [if_neg hwp]
        by_cases htg : r ∈ st.targets
        · rw [if_pos htg]; exact ih st q hq
        · rw [if_neg htg]
          have hrq : q ≠ r := by
            intro h
            rcases hq with hmem | rfl
            · exact htg (h ▸ hmem)
            · exact hwp (h.symm)
          refine Eq.trans (ih _ q ?_) ?_
          · rcases hq with hmem | rfl
            · exact Or.inl (List.mem_cons_of_mem _ hmem)
            · exact Or.inr rfl
          · exact FS.lookup_write_ne st.fs q r _ hrq

/-- Propagation fully replaces every resolvable non-winner target that is
not already synced: afterwards the target holds exactly the winner body
wrapped for the first installed agent resolving to that target. -/
theorem propagateCtx_writes (wp : FPath) (body : Content) :
    ∀ (agents : List String) (st : CtxSyncState) (r : FPath),
      r ≠ wp → r ∉ st.targets →
      (∃ a, a ∈ agents ∧ AGENT_CONTEXT_PATHS a = some r) →
      ∃ a0, firstCtxAgent r agents = some a0 ∧
        ((propagateCtx wp body agents st).fs.lookup r).map SFile.content
          = some (_format_context_for_agent a0 body) := by
  intro agents
  induction agents with
  | nil =>
    intro st r _ _ hex
    obtain ⟨a, ha, _⟩ := hex
    exact absurd ha (List.not_mem_nil _)
  | cons a rest ih =>
    intro st r hrwp hrst hex
    rw [propagateCtx]
    cases ha : AGENT_CONTEXT_PATHS a with
    | none =>
      have hfa : firstCtxAgent r (a :: rest) = firstCtxAgent r rest := by
        rw [firstCtxAgent, if_neg]
        intro h; rw [ha] at h; cases h
      rw [hfa]
      refine ih st r hrwp hrst ?_
      obtain ⟨b, hb, hbr⟩ := hex
      rcases List.mem_cons.1 hb with rfl | hb'
      · rw [ha] at hbr; cases hbr
      · exact ⟨b, hb', hbr⟩
    | some p =>
      simp only []
      by_cases hpr : p = r
      · subst hpr
        have hfirst : firstCtxAgent p (a :: rest) = some a := by
          rw [firstCtxAgent, if_pos ha]
        rw [hfirst]
        rw [if_neg hrwp, if_neg hrst]
        refine ⟨a, rfl, ?_⟩
        rw [propagateCtx_preserved wp body rest _ p
          (Or.inl (List.mem_cons_self _ _))]
        simp only [FS.lookup_write_self]
        rfl
      · have hfa : firstCtxAgent r (a :: rest) = firstCtxAgent r rest := by
          rw [firstCtxAgent, if_neg]
          intro h; rw [ha, Option.some.injEq] at h; exact hpr h
        rw [hfa]
        have hex' : ∃ b, b ∈ rest ∧ AGENT_CONTEXT_PATHS b = some r := by
          obtain ⟨b, hb, hbr⟩ := hex
          rcases List.mem_cons.1 hb with rfl | hb'
          · rw [ha, Option.some.injEq] at hbr; exact absurd hbr hpr
          · exact ⟨b, hb', hbr⟩
        by_cases hwp : p = wp
        · rw [if_pos hwp]; exact ih st r hrwp hrst hex'
        · rw [if_neg hwp]
          by_cases htg : p ∈ st.targets
          · rw [if_pos htg]; exact ih st r hrwp hrst hex'
          · rw [if_neg htg]
            refine ih _ r hrwp ?_ hex'
            intro hmem
            rcases List.mem_cons.1 hmem with rfl | hmem'
            · exact hpr rfl
            · exact hrst hmem'

/-- **C4.** Winner selection and propagation of `sync_context_files`:
(1) a candidate whose mtime strictly exceeds every other candidate's is
selected as the winner; (2) if no candidate context file exists the call is
a no-op reporting zero syncs and zero creations; (3) each installed agent's
resolved context path other than the winner's ends up holding exactly the
winner's content stripped of its leading frontmatter wrapper and re-wrapped
by the convention of the first agent resolving to that path, fully
replacing the previous content; (4) re-wrapping adds a synthetic
frontmatter header for the cursor family and is the identity for every
other agent. -/
theorem c4_winner_propagation :
    (∀ (installed : List String) (fs : FS) (c : String × FPath × Nat),
      c ∈ collectCtx fs installed [] →
      (∀ d ∈ collectCtx fs installed [], d ≠ c → d.2.2 < c.2.2) →
      firstMax (collectCtx fs installed []) = some c) ∧
    (∀ (installed : List String) (fs : FS) (clock : Nat),
      collectCtx fs installed [] = [] →
      sync_context_files installed fs clock = ⟨fs, 0, 0, clock, [], []⟩) ∧
    (∀ (installed : List String) (fs : FS) (clock : Nat)
        (c : String × FPath × Nat),
      firstMax (collectCtx fs installed []) = some c →
      ∀ a r, a ∈ installed → AGENT_CONTEXT_PATHS a = some r → r ≠ c.2.1 →
        ∃ a0, firstCtxAgent r installed = some a0 ∧
          (((sync_context_files installed fs clock).fs.lookup r).map
              SFile.content)
            = some (_format_context_for_agent a0
                (_extract_markdown_body
                  (((fs.lookup c.2.1).map SFile.content).getD [])))) ∧
    (∀ a body, a ≠ "cursor-agent" → _format_context_for_agent a body = body) ∧
    (∀ body,
      _format_context_for_agent "cursor-agent" body = cursorHeader ++ body) := by
  refine ⟨?_, ?_, ?_, ?_, ?_⟩
  · intro installed fs c hc hstrict
    have hne : collectCtx fs installed [] ≠ [] := by
      intro h; rw [h] at hc; exact absurd hc (List.not_mem_nil _)
    obtain ⟨w, hw⟩ := firstMax_isSome _ hne
    obtain ⟨⟨l1, l2, hsplit, _⟩, hall⟩ := firstMax_spec _ w hw
    have hwmem : w ∈ collectCtx fs installed [] := by
      rw [hsplit]; exact List.mem_append_right _ (List.mem_cons_self _ _)
    by_cases hwc : w = c
    · rw [hwc] at hw; exact hw
    · exact absurd (hall c hc)
        (Nat.not_le_of_lt (hstrict w hwmem hwc))
  · intro installed fs clock h
    unfold sync_context_files
    rw [h]
    rfl
  · intro installed fs clock c h a r hainst har hne
    have hsync : sync_context_files installed fs clock
        = propagateCtx c.2.1
            (_extract_markdown_body
              (((fs.lookup c.2.1).map SFile.content).getD []))
            installed ⟨fs, 0, 0, clock, [], []⟩ := by
      unfold sync_context_files
      rw [h]
    rw [hsync]
    exact propagateCtx_writes c.2.1 _ installed ⟨fs, 0, 0, clock, [], []⟩ r hne
      (List.not_mem_nil _) ⟨a, hainst, har⟩
  · intro a body ha
    simp [_format_context_for_agent, ha]
  · intro body
    simp [_format_context_for_agent]

/-- Concrete witness for C4: `CLAUDE.md` (mtime 9, with frontmatter) beats
`GEMINI.md` (mtime 1); afterwards `GEMINI.md` holds the stripped body. -/
theorem c4_winner_propagation_witness :
    (("claude", ["CLAUDE.md"], 9) ∈ collectCtx
        ⟨[(["CLAUDE.md"], ⟨"---\nx: y\n---\nBody".data, 9⟩),
          (["GEMINI.md"], ⟨"old".data, 1⟩)]⟩ ["claude", "gemini"] [] ∧
      (∀ d ∈ collectCtx
          ⟨[(["CLAUDE.md"], ⟨"---\nx: y\n---\nBody".data, 9⟩),
            (["GEMINI.md"], ⟨"old".data, 1⟩)]⟩ ["claude", "gemini"] [],
        d ≠ ("claude", ["CLAUDE.md"], 9) → d.2.2 < 9) ∧
      firstMax (collectCtx
          ⟨[(["CLAUDE.md"], ⟨"---\nx: y\n---\nBody".data, 9⟩),
            (["GEMINI.md"], ⟨"old".data, 1⟩)]⟩ ["claude", "gemini"] [])
        = some ("claude", ["CLAUDE.md"], 9)) ∧
    (∃ a0, firstCtxAgent ["GEMINI.md"] ["claude", "gemini"] = some a0 ∧
      (((sync_context_files ["claude", "gemini"]
            ⟨[(["CLAUDE.md"], ⟨"---\nx: y\n---\nBody".data, 9⟩),
              (["GEMINI.md"], ⟨"old".data, 1⟩)]⟩ 100).fs.lookup
          ["GEMINI.md"]).map SFile.content)
        = some (_format_context_for_agent a0
            (_extract_markdown_body
              (((FS.lookup
                  ⟨[(["CLAUDE.md"], ⟨"---\nx: y\n---\nBody".data, 9⟩),
                    (["GEMINI.md"], ⟨"old".data, 1⟩)]⟩
                  ["CLAUDE.md"]).map SFile.content).getD [])))) :=
  ⟨⟨by decide, by decide,
      (c4_winner_propagation.1 ["claude", "gemini"] _ ("claude", ["CLAUDE.md"], 9)
        (by decide) (by decide))⟩,
    (c4_winner_propagation.2.2.1 ["claude", "gemini"] _ 100
      ("claude", ["CLAUDE.md"], 9)
      (c4_winner_propagation.1 ["claude", "gemini"] _ ("claude", ["CLAUDE.md"], 9)
        (by decide) (by decide))
      "gemini" ["GEMINI.md"] (by decide) (by decide) (by decide))⟩

/-! ### Write counting for repeated synchronization -/

/-- How many writes one propagation pass performs, as a function of the
winner path and the target set seen so far (mirrors the loop's counter). -/
def newPathCount (wp : FPath) : List String → List FPath → Nat
  | [], _ => 0
  | a :: rest, seen =>
    match AGENT_CONTEXT_PATHS a with
    | none => newPathCount wp rest seen
    | some r =>
      if r = wp then newPathCount wp rest seen
      else if r ∈ seen then newPathCount wp rest seen
      else 1 + newPathCount wp rest (r :: seen)

/-- Number of distinct resolved context paths of the agent list outside
`seen`. -/
def distinctNew : List String → List FPath → Nat
  | [], _ => 0
  | a :: rest, seen =>
    match AGENT_CONTEXT_PATHS a with
    | none => distinctNew rest seen
    | some r =>
      if r ∈ seen then distinctNew rest seen
      else 1 + distinctNew rest (r :: seen)

theorem propagateCtx_synced (wp : FPath) (body : Content) :
    ∀ (agents : List String) (st : CtxSyncState),
      (propagateCtx wp body agents st).synced
        = st.synced + newPathCount wp agents st.targets := by
  intro agents
  induction agents with
  | nil => intro st; rfl
  | cons a rest ih =>
    intro st
    rw [propagateCtx, newPathCount]
    cases ha : AGENT_CONTEXT_PATHS a with
    | none => exact ih st
    | some r =>
      simp only []
      by_cases hwp : r = wp
      · rw [if_pos hwp, if_pos hwp]; exact ih st
      · rw [if_neg hwp, if_neg hwp]
        by_cases htg : r ∈ st.targets
        · rw [if_pos htg, if_pos htg]; exact ih st
        · rw [if_neg htg, if_neg htg]
          rw [ih]
          simp only []
          omega

theorem distinctNew_congr :
    ∀ (agents : List String) (s1 s2 : List FPath),
      (∀ p, p ∈ s1 ↔ p ∈ s2) →
      distinctNew agents s1 = distinctNew agents s2 := by
  intro agents
  induction agents with
  | nil => intro s1 s2 _; rfl
  | cons a rest ih =>
    intro s1 s2 hmem
    rw [distinctNew, distinctNew]
    cases ha : AGENT_CONTEXT_PATHS a with
    | none => exact ih s1 s2 hmem
    | some r =>
      simp only []
      by_cases h1 : r ∈ s1
      · rw [if_pos h1, if_pos ((hmem r).1 h1)]
        exact ih s1 s2 hmem
      · rw [if_neg h1, if_neg (fun h2 => h1 ((hmem r).2 h2))]
        refine congrArg (1 + ·) (ih _ _ ?_)
        intro p
        simp only [List.mem_cons]
        exact ⟨fun h => h.elim Or.inl (fun hp => Or.inr ((hmem p).1 hp)),
          fun h => h.elim Or.inl (fun hp => Or.inr ((hmem p).2 hp))⟩

/-- The pass's write count is the number of distinct resolvable targets not
counting the winner path. -/
theorem newPathCount_eq_distinctNew (wp : FPath) :
    ∀ (agents : List String) (seen : List FPath),
      newPathCount wp agents seen = distinctNew agents (wp :: seen) := by
  intro agents
  induction agents with
  | nil => intro seen; rfl
  | cons a rest ih =>
    intro seen
    rw [newPathCount, distinctNew]
    cases ha : AGENT_CONTEXT_PATHS a with
    | none => exact ih seen
    | some r =>
      simp only []
      by_cases hwp : r = wp
      · rw [if_pos hwp, if_pos (by rw [hwp]; exact List.mem_cons_self _ _)]
        exact ih seen
      · rw [if_neg hwp]
        by_cases hseen : r ∈ seen
        · rw [if_pos hseen, if_pos (List.mem_cons_of_mem _ hseen)]
          exact ih seen
        · rw [if_neg hseen,
            if_neg (by
              intro h
              rcases List.mem_cons.1 h with h' | h'
              · exact hwp h'
              · exact hseen h')]
          rw [ih (r :: seen)]
          refine congrArg (1 + ·) (distinctNew_congr _ _ _ ?_)
          intro p
          simp only [List.mem_cons]
          tauto

/-- Removing one resolvable unseen path from consideration drops the
distinct-target count by exactly one. -/
theorem distinctNew_remove :
    ∀ (agents : List String) (seen : List FPath) (p : FPath),
      p ∉ seen → (∃ a, a ∈ agents ∧ AGENT_CONTEXT_PATHS a = some p) →
      distinctNew agents seen = 1 + distinctNew agents (p :: seen) := by
  intro agents
  induction agents with
  | nil =>
    intro seen p _ hex
    obtain ⟨a, ha, _⟩ := hex
    exact absurd ha (List.not_mem_nil _)
  | cons a rest ih =>
    intro seen p hp hex
    rw [distinctNew, distinctNew]
    cases ha : AGENT_CONTEXT_PATHS a with
    | none =>
      refine ih seen p hp ?_
      obtain ⟨b, hb, hbp⟩ := hex
      rcases List.mem_cons.1 hb with rfl | hb'
      · rw [ha] at hbp; cases hbp
      · exact ⟨b, hb', hbp⟩
    | some r =>
      simp only []
      by_cases hrp : r = p
      · subst hrp
        rw [if_neg hp, if_pos (List.mem_cons_self _ _)]
      · by_cases hseen : r ∈ seen
        · rw [if_pos hseen, if_pos (List.mem_cons_of_mem _ hseen)]
          refine ih seen p hp ?_
          obtain ⟨b, hb, hbp⟩ := hex
          rcases List.mem_cons.1 hb with rfl | hb'
          · rw [ha, Option.some.injEq] at hbp; exact absurd hbp hrp
          · exact ⟨b, hb', hbp⟩
        · rw [if_neg hseen,
            if_neg (by
              intro h
              rcases List.mem_cons.1 h with h' | h'
              · exact hrp h'
              · exact hseen h')]
          have hex' : ∃ b, b ∈ rest ∧ AGENT_CONTEXT_PATHS b = some p := by
            obtain ⟨b, hb, hbp⟩ := hex
            rcases List.mem_cons.1 hb with rfl | hb'
            · rw [ha, Option.some.injEq] at hbp; exact absurd hbp hrp
            · exact ⟨b, hb', hbp⟩
          have hp' : p ∉ r :: seen := by
            intro h
            rcases List.mem_cons.1 h with h' | h'
            · exact hrp h'.symm
            · exact hp h'
          rw [ih (r :: seen) p hp' hex']
          refine congrArg (fun n => 1 + (1 + n))
            (distinctNew_congr _ _ _ ?_)
          intro q
          simp only [List.mem_cons]
          tauto

/-- If discovery finds nothing, no installed agent's unseen resolved
context path holds an existing file. -/
theorem collectCtx_nil_lookup (fs : FS) :
    ∀ (agents : List String) (seen : List FPath),
      collectCtx fs agents seen = [] →
      ∀ a ∈ agents, ∀ p, AGENT_CONTEXT_PATHS a = some p → p ∉ seen →
        fs.lookup p = none := by
  intro agents
  induction agents with
  | nil => intro seen _ a ha; exact absurd ha (List.not_mem_nil _)
  | cons a rest ih =>
    intro seen h b hb p hbp hpseen
    rw [collectCtx] at h
    cases ha : AGENT_CONTEXT_PATHS a with
    | none =>
      rw [ha] at h
      rcases List.mem_cons.1 hb with rfl | hb'
      · rw [ha] at hbp; cases hbp
      · exact ih seen h b hb' p hbp hpseen
    | some p0 =>
      rw [ha] at h
      simp only [] at h
      cases hf : fs.lookup p0 with
      | none =>
        rw [hf] at h
        rcases List.mem_cons.1 hb with rfl | hb'
        · rw [ha, Option.some.injEq] at hbp; rw [hbp] at hf; exact hf
        · exact ih seen h b hb' p hbp hpseen
      | some f =>
        rw [hf] at h
        simp only [] at h
        by_cases hp0 : p0 ∈ seen
        · rw [if_pos hp0] at h
          rcases List.mem_cons.1 hb with rfl | hb'
          · rw [ha, Option.some.injEq] at hbp
            rw [hbp] at hp0
            exact absurd hp0 hpseen
          · exact ih seen h b hb' p hbp hpseen
        · rw [if_neg hp0] at h
          cases h

/-- One run with at least one existing candidate performs exactly
`distinctNew installed [] - 1` writes: every distinct resolved target
except the winner's own path is rewritten, unconditionally. -/
theorem sync_synced_eq (installed : List String) (fs : FS) (clock : Nat)
    (h : collectCtx fs installed [] ≠ []) :
    (sync_context_files installed fs clock).synced + 1
      = distinctNew installed [] := by
  obtain ⟨c, hc⟩ := firstMax_isSome _ h
  have hsync : sync_context_files installed fs clock
      = propagateCtx c.2.1
          (_extract_markdown_body
            (((fs.lookup c.2.1).map SFile.content).getD []))
          installed ⟨fs, 0, 0, clock, [], []⟩ := by
    unfold sync_context_files
    rw [hc]
  have hcmem : c ∈ collectCtx fs installed [] := by
    obtain ⟨⟨l1, l2, hsplit, _⟩, _⟩ := firstMax_spec _ c hc
    rw [hsplit]
    exact List.mem_append_right _ (List.mem_cons_self _ _)
  obtain ⟨hcinst, hctx, f, hlook, _⟩ :=
    collectCtx_mem fs installed [] c.1 c.2.1 c.2.2 hcmem
  rw [hsync, propagateCtx_synced]
  simp only []
  rw [newPathCount_eq_distinctNew]
  have hrem := distinctNew_remove installed [] c.2.1 (List.not_mem_nil _)
    ⟨c.1, hcinst, hctx⟩
  omega

/-- The winner's own file is untouched by a run. -/
theorem sync_preserves_winner (installed : List String) (fs : FS) (clock : Nat)
    (c : String × FPath × Nat)
    (hc : firstMax (collectCtx fs installed []) = some c) :
    (sync_context_files installed fs clock).fs.lookup c.2.1
      = fs.lookup c.2.1 := by
  have hsync : sync_context_files installed fs clock
      = propagateCtx c.2.1
          (_extract_markdown_body
            (((fs.lookup c.2.1).map SFile.content).getD []))
          installed ⟨fs, 0, 0, clock, [], []⟩ := by
    unfold sync_context_files
    rw [hc]
  rw [hsync]
  exact propagateCtx_preserved _ _ installed _ c.2.1 (Or.inr rfl)

/-- If a run found a candidate, the immediately following run does too. -/
theorem collect_second_ne (installed : List String) (fs : FS) (clock : Nat)
    (h : collectCtx fs installed [] ≠ []) :
    collectCtx (sync_context_files installed fs clock).fs installed [] ≠ [] := by
  intro h2
  obtain ⟨c, hc⟩ := firstMax_isSome _ h
  have hcmem : c ∈ collectCtx fs installed [] := by
    obtain ⟨⟨l1, l2, hsplit, _⟩, _⟩ := firstMax_spec _ c hc
    rw [hsplit]
    exact List.mem_append_right _ (List.mem_cons_self _ _)
  obtain ⟨hcinst, hctx, f, hlook, _⟩ :=
    collectCtx_mem fs installed [] c.1 c.2.1 c.2.2 hcmem
  have hnone := collectCtx_nil_lookup _ installed [] h2 c.1 hcinst c.2.1 hctx
    (List.not_mem_nil _)
  rw [sync_preserves_winner installed fs clock c hc, hlook] at hnone
  cases hnone

/-- Counterexample to **C2**: two agents whose context files both exist.
The first run rewrites `GEMINI.md`, giving it the newest clock stamp; the
second run therefore selects `GEMINI.md` as winner and rewrites
`CLAUDE.md` — one write, not zero, on the second run. -/
theorem c2_counterexample :
    (sync_context_files ["claude", "gemini"]
        (sync_context_files ["claude", "gemini"]
          ⟨[(["CLAUDE.md"], ⟨"A".data, 10⟩), (["GEMINI.md"], ⟨"B".data, 5⟩)]⟩
          100).fs
        (sync_context_files ["claude", "gemini"]
          ⟨[(["CLAUDE.md"], ⟨"A".data, 10⟩), (["GEMINI.md"], ⟨"B".data, 5⟩)]⟩
          100).clock).synced = 1 := by decide

/-- **C2 (amended).** `sync_context_files` is not write-idempotent: every
run that finds at least one existing candidate performs exactly `D - 1`
file writes, where `D` is the number of distinct resolved context paths of
the installed agents — in particular the second of two back-to-back runs
performs exactly as many writes as the first (`D - 1`, zero only when
`D = 1`), not zero. -/
theorem c2_each_run_rewrites (installed : List String) (fs : FS) (clock : Nat)
    (h : collectCtx fs installed [] ≠ []) :
    (sync_context_files installed fs clock).synced + 1
        = distinctNew installed [] ∧
    (sync_context_files installed
        (sync_context_files installed fs clock).fs
        (sync_context_files installed fs clock).clock).synced + 1
      = distinctNew installed [] :=
  ⟨sync_synced_eq installed fs clock h,
    sync_synced_eq installed _ _ (collect_second_ne installed fs clock h)⟩

/-- Concrete witness for the amended C2: with two distinct context paths
both runs perform exactly one write. -/
theorem c2_each_run_rewrites_witness :
    (collectCtx
        ⟨[(["CLAUDE.md"], ⟨"A".data, 10⟩), (["GEMINI.md"], ⟨"B".data, 5⟩)]⟩
        ["claude", "gemini"] [] ≠ []) ∧
    ((sync_context_files ["claude", "gemini"]
          ⟨[(["CLAUDE.md"], ⟨"A".data, 10⟩), (["GEMINI.md"], ⟨"B".data, 5⟩)]⟩
          100).synced + 1
        = distinctNew ["claude", "gemini"] [] ∧
      (sync_context_files ["claude", "gemini"]
          (sync_context_files ["claude", "gemini"]
            ⟨[(["CLAUDE.md"], ⟨"A".data, 10⟩), (["GEMINI.md"], ⟨"B".data, 5⟩)]⟩
            100).fs
          (sync_context_files ["claude", "gemini"]
            ⟨[(["CLAUDE.md"], ⟨"A".data, 10⟩), (["GEMINI.md"], ⟨"B".data, 5⟩)]⟩
            100).clock).synced + 1
        = distinctNew ["claude", "gemini"] []) :=
  ⟨by decide,
    c2_each_run_rewrites ["claude", "gemini"]
      ⟨[(["CLAUDE.md"], ⟨"A".data, 10⟩), (["GEMINI.md"], ⟨"B".data, 5⟩)]⟩
      100 (by decide)⟩

/-! ### Working-Tree Synchronizer (`sync_agent_working_files`, lines 1463-1520)

The synced subtrees live at `project / folder / subdir / rel`; the agent
folder is one path component (`AGENT_CONFIG[key]["folder"].rstrip("/")`),
the subdir is `skills` or `agents/specforge`, and `rel` is the file's path
relative to the working dir.  `copystat` stamps the winner's mtime onto the
written copy, so the write clock plays no role here. -/

/-- `AGENT_CONFIG[agent_key]["folder"].rstrip("/")`. -/
def rstripSlashS (s : String) : String := String.mk (rstripSlash s.data)

/-- `project_path / agent_folder / subdir / rel_str`. -/
def targetPath (cfg : AgentCfg) (sd rel : FPath) : FPath :=
  rstripSlashS cfg.folder :: (sd ++ rel)

/-- `working_dir.rglob("*")` restricted to files: every entry strictly
under `dir`, paired with its path relative to `dir`, in filesystem order. -/
def filesUnder (fs : FS) (dir : FPath) : List (FPath × SFile) :=
  fs.entries.filterMap (fun e =>
    if dir.isPrefixOf e.1 = true ∧ dir.length < e.1.length
    then some (e.1.drop dir.length, e.2) else none)

/-- `all_files[rel_str].append(e)`, creating the key at the end on first
use (Python dict insertion order). -/
def addFileEntry : List (FPath × List (String × Nat)) → FPath → String × Nat →
    List (FPath × List (String × Nat))
  | [], rel, e => [(rel, [e])]
  | (r, l) :: rest, rel, e =>
    if r = rel then (r, l ++ [e]) :: rest
    else (r, l) :: addFileEntry rest rel e

/-- One agent's inner collection loop over its working dir. -/
def addAgentFiles (a : String) : List (FPath × SFile) →
    List (FPath × List (String × Nat)) → List (FPath × List (String × Nat))
  | [], m => m
  | e :: rest, m => addAgentFiles a rest (addFileEntry m e.1 (a, e.2.mtime))

/-- Collection loop of one subdir (lines 1478-1492): group every installed
agent's files by relative path, recording `(agent_key, mtime)`. -/
def collectSub (fs : FS) (sd : FPath) :
    List String → List (FPath × List (String × Nat)) →
    List (FPath × List (String × Nat))
  | [], m => m
  | a :: rest, m =>
    match AGENT_CONFIG a with
    | none => collectSub fs sd rest m
    | some cfg =>
      collectSub fs sd rest
        (addAgentFiles a (filesUnder fs (rstripSlashS cfg.folder :: sd)) m)

/-- Python `max(sources, key=lambda x: x[2])`: first maximal element. -/
def firstMaxSrc (best : String × Nat) : List (String × Nat) → String × Nat
  | [] => best
  | c :: rest => firstMaxSrc (if best.2 < c.2 then c else best) rest

def groupNewest : List (String × Nat) → Option (String × Nat)
  | [] => none
  | s0 :: stail => some (firstMaxSrc s0 stail)

/-- Does `q` already hold a file at least as new as `t`
(`target_path.exists() and target_path.stat().st_mtime >= newest_mtime`)? -/
def freshB (fs : FS) (q : FPath) (t : Nat) : Bool :=
  match fs.lookup q with
  | some f => decide (t ≤ f.mtime)
  | none => false

/-- Inner write loop for one relative path (lines 1502-1516): skip the
winner agent and up-to-date targets; otherwise write the winner's bytes
and, per `shutil.copystat`, its mtime. -/
def propagateRel (sd rel : FPath) (aStar : String) (tStar : Nat)
    (content : Content) : List String → FS × Nat → FS × Nat
  | [], s => s
  | a :: rest, (fs, n) =>
    if a = aStar then propagateRel sd rel aStar tStar content rest (fs, n)
    else
      match AGENT_CONFIG a with
      | none => propagateRel sd rel aStar tStar content rest (fs, n)
      | some cfg =>
        match fs.lookup (targetPath cfg sd rel) with
        | some f =>
          if tStar ≤ f.mtime then
            propagateRel sd rel aStar tStar content rest (fs, n)
          else
            propagateRel sd rel aStar tStar content rest
              (fs.write (targetPath cfg sd rel) ⟨content, tStar⟩, n + 1)
        | none =>
          propagateRel sd rel aStar tStar content rest
            (fs.write (targetPath cfg sd rel) ⟨content, tStar⟩, n + 1)

/-- Outer write loop of one subdir (lines 1495-1516): one group per
relative path, in dict insertion order. -/
def syncGroups (installed : List String) (sd : FPath) :
    List (FPath × List (String × Nat)) → FS × Nat → FS × Nat
  | [], s => s
  | (rel, srcs) :: rest, (fs, n) =>
    match srcs with
    | [] => syncGroups installed sd rest (fs, n)
    | s0 :: stail =>
      let newest := firstMaxSrc s0 stail
      let content : Content :=
        match AGENT_CONFIG newest.1 with
        | none => []
        | some cfg =>
          ((fs.lookup (targetPath cfg sd rel)).map SFile.content).getD []
      syncGroups installed sd rest
        (propagateRel sd rel newest.1 newest.2 content installed (fs, n))

/-- One iteration of the `sync_subdirs` loop. -/
def syncSubdir (installed : List String) (sd : FPath) (s : FS × Nat) :
    FS × Nat :=
  syncGroups installed sd (collectSub s.1 sd installed []) s

/-- `sync_agent_working_files` (lines 1463-1520); `none` models the
`KeyError` raised on an unknown installed agent key. -/
def sync_agent_working_files (installed : List String) (fs : FS) :
    Option (FS × Nat) :=
  if installed.all (fun a => (AGENT_CONFIG a).isSome) then
    some (syncSubdir installed ["agents", "specforge"]
      (syncSubdir installed ["skills"] (fs, 0)))
  else none

/-- Real filesystems bind each path to one file: entry keys are distinct. -/
abbrev FSNodup (fs : FS) : Prop := (fs.entries.map Prod.fst).Nodup

/-! ### Filesystem well-formedness -/

theorem removeKeyE_keys_sub :
    ∀ (l : List (FPath × SFile)) (p q : FPath),
      q ∈ (removeKeyE l p).map Prod.fst → q ∈ l.map Prod.fst ∧ q ≠ p := by
  intro l
  induction l with
  | nil => intro p q h; cases h
  | cons e rest ih =>
    intro p q h
    rw [removeKeyE] at h
    by_cases hep : e.1 = p
    · rw [if_pos hep] at h
      obtain ⟨hm, hq⟩ := ih p q h
      exact ⟨List.mem_cons_of_mem _ hm, hq⟩
    · rw [if_neg hep] at h
      rw [List.map_cons] at h
      rcases List.mem_cons.1 h with rfl | h'
      · exact ⟨List.mem_cons_self _ _, hep⟩
      · obtain ⟨hm, hq⟩ := ih p q h'
        exact ⟨List.mem_cons_of_mem _ hm, hq⟩

theorem removeKeyE_keys_nodup :
    ∀ (l : List (FPath × SFile)) (p : FPath),
      (l.map Prod.fst).Nodup → ((removeKeyE l p).map Prod.fst).Nodup := by
  intro l
  induction l with
  | nil => intro p _; exact List.nodup_nil
  | cons e rest ih =>
    intro p h
    rw [List.map_cons, List.nodup_cons] at h
    rw [removeKeyE]
    by_cases hep : e.1 = p
    · rw [if_pos hep]; exact ih p h.2
    · rw [if_neg hep]
      rw [List.map_cons, List.nodup_cons]
      refine ⟨?_, ih p h.2⟩
      intro hc
      exact h.1 (removeKeyE_keys_sub rest p e.1 hc).1

theorem FSNodup_write (fs : FS) (p : FPath) (f : SFile) (h : FSNodup fs) :
    FSNodup (fs.write p f) := by
  show ((((p, f) :: removeKeyE fs.entries p)).map Prod.fst).Nodup
  rw [List.map_cons, List.nodup_cons]
  refine ⟨?_, removeKeyE_keys_nodup fs.entries p h⟩
  intro hc
  exact (removeKeyE_keys_sub fs.entries p p hc).2 rfl

theorem lookupE_of_mem :
    ∀ (l : List (FPath × SFile)) (p : FPath) (f : SFile),
      (p, f) ∈ l → (l.map Prod.fst).Nodup → lookupE l p = some f := by
  intro l
  induction l with
  | nil => intro p f h; cases h
  | cons e rest ih =>
    intro p f h hnd
    rw [List.map_cons, List.nodup_cons] at hnd
    rw [lookupE]
    rcases List.mem_cons.1 h with rfl | h'
    · rw [if_pos rfl]
    · by_cases hep : e.1 = p
      · exact absurd (hep ▸ (List.mem_map_of_mem Prod.fst h')) hnd.1
      · rw [if_neg hep]; exact ih p f h' hnd.2

theorem mem_of_lookupE :
    ∀ (l : List (FPath × SFile)) (p : FPath) (f : SFile),
      lookupE l p = some f → (p, f) ∈ l := by
  intro l
  induction l with
  | nil => intro p f h; cases h
  | cons e rest ih =>
    intro p f h
    rw [lookupE] at h
    by_cases hep : e.1 = p
    · rw [if_pos hep, Option.some.injEq] at h
      rw [← hep, ← h]
      exact List.mem_cons_self _ _
    · rw [if_neg hep] at h
      exact List.mem_cons_of_mem _ (ih p f h)

/-! ### The inner write loop -/

/-- A target already at least as new as the winner is never touched —
whoever's target it is. -/
theorem propagateRel_fresh (sd rel : FPath) (aStar : String) (tStar : Nat)
    (content : Content) :
    ∀ (installed : List String) (fs : FS) (n : Nat) (q : FPath),
      freshB fs q tStar = true →
      (propagateRel sd rel aStar tStar content installed (fs, n)).1.lookup q
        = fs.lookup q := by
  intro installed
  induction installed with
  | nil => intro fs n q _; rfl
  | cons a rest ih =>
    intro fs n q hfresh
    rw [propagateRel]
    by_cases ha : a = aStar
    · rw [if_pos ha]; exact ih fs n q hfresh
    · rw [if_neg ha]
      cases hcfg : AGENT_CONFIG a with
      | none => exact ih fs n q hfresh
      | some cfg =>
        simp only []
        cases hlk : fs.lookup (targetPath cfg sd rel) with
        | some f =>
          simp only []
          by_cases hts : tStar ≤ f.mtime
          · rw [if_pos hts]; exact ih fs n q hfresh
          · rw [if_neg hts]
            have hne : targetPath cfg sd rel ≠ q := by
              intro he
              rw [freshB, ← he, hlk] at hfresh
              simp only [decide_eq_true_eq] at hfresh
              exact hts hfresh
            have hpres : (fs.write (targetPath cfg sd rel)
                ⟨content, tStar⟩).lookup q = fs.lookup q :=
              FS.lookup_write_ne _ q _ _ (fun he => hne he.symm)
            rw [ih _ (n + 1) q (by rw [freshB, hpres]; exact hfresh), hpres]
        | none =>
          simp only []
          have hne : targetPath cfg sd rel ≠ q := by
            intro he
            rw [freshB, ← he, hlk] at hfresh
            simp at hfresh
          have hpres : (fs.write (targetPath cfg sd rel)
              ⟨content, tStar⟩).lookup q = fs.lookup q :=
            FS.lookup_write_ne _ q _ _ (fun he => hne he.symm)
          rw [ih _ (n + 1) q (by rw [freshB, hpres]; exact hfresh), hpres]

/-- A missing or strictly older target of a non-winner installed agent is
written: afterwards it holds the winner's bytes with the winner's mtime. -/
theorem propagateRel_nonfresh (sd rel : FPath) (aStar : String) (tStar : Nat)
    (content : Content) :
    ∀ (installed : List String) (fs : FS) (n : Nat) (a : String) (cfg : AgentCfg),
      a ∈ installed → a ≠ aStar → AGENT_CONFIG a = some cfg →
      freshB fs (targetPath cfg sd rel) tStar = false →
      (propagateRel sd rel aStar tStar content installed (fs, n)).1.lookup
          (targetPath cfg sd rel)
        = some ⟨content, tStar⟩ := by
  intro installed
  induction installed with
  | nil => intro fs n a cfg ha; exact absurd ha (List.not_mem_nil _)
  | cons b rest ih =>
    intro fs n a cfg ha hne hcfg hfresh
    rw [propagateRel]
    by_cases hb : b = aStar
    · rw [if_pos hb]
      rcases List.mem_cons.1 ha with rfl | ha'
      · exact absurd hb hne
      · exact ih fs n a cfg ha' hne hcfg hfresh
    · rw [if_neg hb]
      cases hcfgb : AGENT_CONFIG b with
      | none =>
        rcases List.mem_cons.1 ha with rfl | ha'
        · rw [hcfg] at hcfgb; cases hcfgb
        · exact ih fs n a cfg ha' hne hcfg hfresh
      | some cfgb =>
        simp only []
        cases hlk : fs.lookup (targetPath cfgb sd rel) with
        | some f =>
          simp only []
          by_cases hts : tStar ≤ f.mtime
          · rw [if_pos hts]
            have htpb : targetPath cfgb sd rel ≠ targetPath cfg sd rel := by
              intro he
              rw [freshB, ← he, hlk] at hfresh
              simp only [decide_eq_false_iff_not] at hfresh
              exact hfresh hts
            rcases List.mem_cons.1 ha with rfl | ha'
            · rw [hcfg, Option.some.injEq] at hcfgb
              exact absurd (hcfgb ▸ rfl) htpb
            · exact ih fs n a cfg ha' hne hcfg hfresh
          · rw [if_neg hts]
            by_cases htp : targetPath cfgb sd rel = targetPath cfg sd rel
            · rw [htp]
              refine Eq.trans (propagateRel_fresh sd rel aStar tStar content rest
                _ (n + 1) _ ?_) ?_
              · rw [freshB, FS.lookup_write_self]
                simp
              · rw [FS.lookup_write_self]
            · rcases List.mem_cons.1 ha with rfl | ha'
              · rw [hcfg, Option.some.injEq] at hcfgb
                exact absurd (hcfgb ▸ rfl) htp
              · refine ih _ (n + 1) a cfg ha' hne hcfg ?_
                rw [freshB, FS.lookup_write_ne _ _ _ _ (fun he => htp he.symm)]
                rw [freshB] at hfresh
                exact hfresh
        | none =>
          simp only []
          by_cases htp : targetPath cfgb sd rel = targetPath cfg sd rel
          · rw [htp]
            refine Eq.trans (propagateRel_fresh sd rel aStar tStar content rest
              _ (n + 1) _ ?_) ?_
            · rw [freshB, FS.lookup_write_self]
              simp
            · rw [FS.lookup_write_self]
          · rcases List.mem_cons.1 ha with rfl | ha'
            · rw [hcfg, Option.some.injEq] at hcfgb
              exact absurd (hcfgb ▸ rfl) htp
            · refine ih _ (n + 1) a cfg ha' hne hcfg ?_
              rw [freshB, FS.lookup_write_ne _ _ _ _ (fun he => htp he.symm)]
              rw [freshB] at hfresh
              exact hfresh

/-- The inner loop only writes paths whose tail is `sd ++ rel`. -/
theorem propagateRel_frame (sd rel : FPath) (aStar : String) (tStar : Nat)
    (content : Content) :
    ∀ (installed : List String) (fs : FS) (n : Nat) (q : FPath),
      q.drop 1 ≠ sd ++ rel →
      (propagateRel sd rel aStar tStar content installed (fs, n)).1.lookup q
        = fs.lookup q := by
  intro installed
  induction installed with
  | nil => intro fs n q _; rfl
  | cons a rest ih =>
    intro fs n q hq
    rw [propagateRel]
    by_cases ha : a = aStar
    · rw [if_pos ha]; exact ih fs n q hq
    · rw [if_neg ha]
      cases hcfg : AGENT_CONFIG a with
      | none => exact ih fs n q hq
      | some cfg =>
        simp only []
        have hne : targetPath cfg sd rel ≠ q := by
          intro he
          exact hq (by rw [← he]; rfl)
        cases hlk : fs.lookup (targetPath cfg sd rel) with
        | some f =>
          simp only []
          by_cases hts : tStar ≤ f.mtime
          · rw [if_pos hts]; exact ih fs n q hq
          · rw [if_neg hts]
            rw [ih _ (n + 1) q hq]
            exact FS.lookup_write_ne _ q _ _ (fun he => hne he.symm)
        | none =>
          simp only []
          rw [ih _ (n + 1) q hq]
          exact FS.lookup_write_ne _ q _ _ (fun he => hne he.symm)

/-- When every non-winner installed target is already up to date, the
whole inner loop is the identity: no writes, no counter bump. -/
theorem propagateRel_no_write (sd rel : FPath) (aStar : String) (tStar : Nat)
    (content : Content) :
    ∀ (installed : List String) (fs : FS) (n : Nat),
      (∀ a ∈ installed, a ≠ aStar → ∀ cfg, AGENT_CONFIG a = some cfg →
        freshB fs (targetPath cfg sd rel) tStar = true) →
      propagateRel sd rel aStar tStar content installed (fs, n) = (fs, n) := by
  intro installed
  induction installed with
  | nil => intro fs n _; rfl
  | cons a rest ih =>
    intro fs n hall
    rw [propagateRel]
    by_cases ha : a = aStar
    · rw [if_pos ha]
      exact ih fs n (fun b hb => hall b (List.mem_cons_of_mem _ hb))
    · rw [if_neg ha]
      cases hcfg : AGENT_CONFIG a with
      | none => exact ih fs n (fun b hb => hall b (List.mem_cons_of_mem _ hb))
      | some cfg =>
        simp only []
        have hfa := hall a (List.mem_cons_self _ _) ha cfg hcfg
        rw [freshB] at hfa
        cases hlk : fs.lookup (targetPath cfg sd rel) with
        | some f =>
          simp only []
          rw [hlk] at hfa
          simp only [decide_eq_true_eq] at hfa
          rw [if_pos hfa]
          exact ih fs n (fun b hb => hall b (List.mem_cons_of_mem _ hb))
        | none =>
          rw [hlk] at hfa
          cases hfa

/-- The inner loop preserves key distinctness. -/
theorem propagateRel_nodup (sd rel : FPath) (aStar : String) (tStar : Nat)
    (content : Content) :
    ∀ (installed : List String) (fs : FS) (n : Nat),
      FSNodup fs →
      FSNodup (propagateRel sd rel aStar tStar content installed (fs, n)).1 := by
  intro installed
  induction installed with
  | nil => intro fs n h; exact h
  | cons a rest ih =>
    intro fs n h
    rw [propagateRel]
    by_cases ha : a = aStar
    · rw [if_pos ha]; exact ih fs n h
    · rw [if_neg ha]
      cases hcfg : AGENT_CONFIG a with
      | none => exact ih fs n h
      | some cfg =>
        simp only []
        cases hlk : fs.lookup (targetPath cfg sd rel) with
        | some f =>
          simp only []
          by_cases hts : tStar ≤ f.mtime
          · rw [if_pos hts]; exact ih fs n h
          · rw [if_neg hts]
            exact ih _ (n + 1) (FSNodup_write fs _ _ h)
        | none =>
          simp only []
          exact ih _ (n + 1) (FSNodup_write fs _ _ h)

/-! ### Collection facts -/

theorem filesUnder_mem (fs : FS) (dir : FPath) (rel : FPath) (f : SFile)
    (h : (rel, f) ∈ filesUnder fs dir) :
    (dir ++ rel, f) ∈ fs.entries ∧ rel ≠ [] := by
  rw [filesUnder, List.mem_filterMap] at h
  obtain ⟨e, he, hcond⟩ := h
  by_cases hc : dir.isPrefixOf e.1 = true ∧ dir.length < e.1.length
  · rw [if_pos hc, Option.some.injEq] at hcond
    obtain ⟨t, ht⟩ := List.isPrefixOf_iff_prefix.1 hc.1
    have hdrop : e.1.drop dir.length = t := by
      rw [← ht, List.drop_left]
    rw [Prod.mk.injEq] at hcond
    obtain ⟨hrel, hfe⟩ := hcond
    have htrel : t = rel := by rw [← hdrop, hrel]
    constructor
    · rw [← htrel, ht, ← hfe]
      exact he
    · intro hnil
      rw [htrel, hnil] at ht
      rw [← ht] at hc
      simp at hc
  · rw [if_neg hc] at hcond
    cases hcond

theorem filesUnder_mem_rev (fs : FS) (dir : FPath) (rel : FPath) (f : SFile)
    (h : (dir ++ rel, f) ∈ fs.entries) (hrel : rel ≠ []) :
    (rel, f) ∈ filesUnder fs dir := by
  rw [filesUnder, List.mem_filterMap]
  refine ⟨(dir ++ rel, f), h, ?_⟩
  rw [if_pos ⟨List.isPrefixOf_iff_prefix.2 (List.prefix_append _ _), by
    simp only [List.length_append]
    have : 0 < rel.length := List.length_pos.2 hrel
    omega⟩]
  rw [List.drop_left]

theorem addFileEntry_keys_mem :
    ∀ (m : List (FPath × List (String × Nat))) (rel : FPath) (e : String × Nat)
      (q : FPath),
      q ∈ (addFileEntry m rel e).map Prod.fst ↔
        (q ∈ m.map Prod.fst ∨ q = rel) := by
  intro m
  induction m with
  | nil =>
    intro rel e q
    simp [addFileEntry]
  | cons g rest ih =>
    intro rel e q
    match g with
    | (r, l) =>
      rw [addFileEntry]
      by_cases hr : r = rel
      · rw [if_pos hr]
        simp only [List.map_cons, List.mem_cons]
        constructor
        · intro h
          rcases h with h | h
          · exact Or.inl (Or.inl h)
          · exact Or.inl (Or.inr h)
        · intro h
          rcases h with (h | h) | h
          · exact Or.inl h
          · exact Or.inr h
          · exact Or.inl (by rw [h, ← hr])
      · rw [if_neg hr]
        simp only [List.map_cons, List.mem_cons, ih rel e q]
        tauto

theorem addFileEntry_keys_nodup :
    ∀ (m : List (FPath × List (String × Nat))) (rel : FPath) (e : String × Nat),
      (m.map Prod.fst).Nodup → ((addFileEntry m rel e).map Prod.fst).Nodup := by
  intro m
  induction m with
  | nil => intro rel e _; simp [addFileEntry]
  | cons g rest ih =>
    intro rel e hnd
    match g with
    | (r, l) =>
      rw [List.map_cons, List.nodup_cons] at hnd
      rw [addFileEntry]
      by_cases hr : r = rel
      · rw [if_pos hr]
        rw [List.map_cons, List.nodup_cons]
        exact hnd
      · rw [if_neg hr]
        rw [List.map_cons, List.nodup_cons]
        refine ⟨?_, ih rel e hnd.2⟩
        intro hc
        rcases (addFileEntry_keys_mem rest rel e r).1 hc with h | h
        · exact hnd.1 h
        · exact hr h

theorem addFileEntry_sound :
    ∀ (m : List (FPath × List (String × Nat))) (rel : FPath) (e : String × Nat)
      (g : FPath × List (String × Nat)),
      g ∈ addFileEntry m rel e → ∀ e' ∈ g.2,
        (∃ srcs, (g.1, srcs) ∈ m ∧ e' ∈ srcs) ∨ (g.1 = rel ∧ e' = e) := by
  intro m
  induction m with
  | nil =>
    intro rel e g hg e' he'
    rw [addFileEntry] at hg
    rcases List.mem_cons.1 hg with rfl | hg'
    · rcases List.mem_singleton.1 he' with rfl
      · exact Or.inr ⟨rfl, rfl⟩
    · cases hg'
  | cons g0 rest ih =>
    intro rel e g hg e' he'
    match g0 with
    | (r, l) =>
      rw [addFileEntry] at hg
      by_cases hr : r = rel
      · rw [if_pos hr] at hg
        rcases List.mem_cons.1 hg with rfl | hg'
        · rcases List.mem_append.1 he' with hl | hsing
          · exact Or.inl ⟨l, List.mem_cons_self _ _, hl⟩
          · rcases List.mem_singleton.1 hsing with rfl
            exact Or.inr ⟨hr, rfl⟩
        · exact Or.inl ⟨g.2, List.mem_cons_of_mem _ (by
            have : (g.1, g.2) = g := rfl
            rw [this]; exact hg'), he'⟩
      · rw [if_neg hr] at hg
        rcases List.mem_cons.1 hg with rfl | hg'
        · exact Or.inl ⟨l, List.mem_cons_self _ _, he'⟩
        · rcases ih rel e g hg' e' he' with ⟨srcs, hm, hmem⟩ | hnew
          · exact Or.inl ⟨srcs, List.mem_cons_of_mem _ hm, hmem⟩
          · exact Or.inr hnew

theorem addFileEntry_complete_new :
    ∀ (m : List (FPath × List (String × Nat))) (rel : FPath) (e : String × Nat),
      ∃ srcs, (rel, srcs) ∈ addFileEntry m rel e ∧ e ∈ srcs := by
  intro m
  induction m with
  | nil =>
    intro rel e
    exact ⟨[e], List.mem_singleton.2 rfl, List.mem_singleton.2 rfl⟩
  | cons g0 rest ih =>
    intro rel e
    match g0 with
    | (r, l) =>
      rw [addFileEntry]
      by_cases hr : r = rel
      · exact ⟨l ++ [e], by
          rw [if_pos hr, hr]
          exact List.mem_cons_self _ _,
          List.mem_append_right _ (List.mem_singleton.2 rfl)⟩
      · obtain ⟨srcs, hmem, he⟩ := ih rel e
        exact ⟨srcs, by rw [if_neg hr]; exact List.mem_cons_of_mem _ hmem, he⟩

theorem addFileEntry_complete_old :
    ∀ (m : List (FPath × List (String × Nat))) (rel : FPath) (e : String × Nat)
      (rel' : FPath) (srcs₀ : List (String × Nat)) (e' : String × Nat),
      (rel', srcs₀) ∈ m → e' ∈ srcs₀ →
      ∃ srcs, (rel', srcs) ∈ addFileEntry m rel e ∧ e' ∈ srcs := by
  intro m
  induction m with
  | nil => intro rel e rel' srcs₀ e' hm; cases hm
  | cons g0 rest ih =>
    intro rel e rel' srcs₀ e' hm he'
    match g0 with
    | (r, l) =>
      rw [addFileEntry]
      by_cases hr : r = rel
      · rw [if_pos hr]
        rcases List.mem_cons.1 hm with heq | hm'
        · rw [Prod.mk.injEq] at heq
          obtain ⟨h1, h2⟩ := heq
          exact ⟨l ++ [e], by rw [h1]; exact List.mem_cons_self _ _,
            List.mem_append_left _ (h2 ▸ he')⟩
        · exact ⟨srcs₀, List.mem_cons_of_mem _ hm', he'⟩
      · rw [if_neg hr]
        rcases List.mem_cons.1 hm with heq | hm'
        · rw [Prod.mk.injEq] at heq
          obtain ⟨h1, h2⟩ := heq
          exact ⟨l, by rw [h1]; exact List.mem_cons_self _ _, h2 ▸ he'⟩
        · obtain ⟨srcs, hmem, hin⟩ := ih rel e rel' srcs₀ e' hm' he'
          exact ⟨srcs, List.mem_cons_of_mem _ hmem, hin⟩

theorem addFileEntry_groups_ne :
    ∀ (m : List (FPath × List (String × Nat))) (rel : FPath) (e : String × Nat),
      (∀ g ∈ m, g.2 ≠ []) → ∀ g ∈ addFileEntry m rel e, g.2 ≠ [] := by
  intro m
  induction m with
  | nil =>
    intro rel e _ g hg
    rcases List.mem_singleton.1 hg with rfl
    · simp
  | cons g0 rest ih =>
    intro rel e hne g hg
    match g0 with
    | (r, l) =>
      rw [addFileEntry] at hg
      by_cases hr : r = rel
      · rw [if_pos hr] at hg
        rcases List.mem_cons.1 hg with rfl | hg'
        · simp
        · exact hne g (List.mem_cons_of_mem _ hg')
      · rw [if_neg hr] at hg
        rcases List.mem_cons.1 hg with rfl | hg'
        · exact hne _ (List.mem_cons_self _ _)
        · exact ih rel e (fun g' hg' => hne g' (List.mem_cons_of_mem _ hg')) g hg'

theorem addAgentFiles_sound (a : String)
    (P : FPath → String × Nat → Prop) :
    ∀ (L : List (FPath × SFile)) (m : List (FPath × List (String × Nat))),
      (∀ g ∈ m, ∀ e' ∈ g.2, P g.1 e') →
      (∀ relf ∈ L, P relf.1 (a, relf.2.mtime)) →
      ∀ g ∈ addAgentFiles a L m, ∀ e' ∈ g.2, P g.1 e' := by
  intro L
  induction L with
  | nil => intro m hm _ g hg; exact hm g hg
  | cons relf rest ih =>
    intro m hm hL g hg
    rw [addAgentFiles] at hg
    refine ih _ ?_ (fun rf hrf => hL rf (List.mem_cons_of_mem _ hrf)) g hg
    intro g' hg' e' he'
    rcases addFileEntry_sound m relf.1 (a, relf.2.mtime) g' hg' e' he' with
      ⟨srcs, hmem, hin⟩ | ⟨h1, h2⟩
    · exact hm (g'.1, srcs) hmem e' hin
    · rw [h1, h2]
      exact hL relf (List.mem_cons_self _ _)

theorem addAgentFiles_complete_old (a : String) :
    ∀ (L : List (FPath × SFile)) (m : List (FPath × List (String × Nat)))
      (rel' : FPath) (srcs₀ : List (String × Nat)) (e' : String × Nat),
      (rel', srcs₀) ∈ m → e' ∈ srcs₀ →
      ∃ srcs, (rel', srcs) ∈ addAgentFiles a L m ∧ e' ∈ srcs := by
  intro L
  induction L with
  | nil => intro m rel' srcs₀ e' hm he'; exact ⟨srcs₀, hm, he'⟩
  | cons relf rest ih =>
    intro m rel' srcs₀ e' hm he'
    rw [addAgentFiles]
    obtain ⟨srcs₁, hm₁, he₁⟩ :=
      addFileEntry_complete_old m relf.1 (a, relf.2.mtime) rel' srcs₀ e' hm he'
    exact ih _ rel' srcs₁ e' hm₁ he₁

theorem addAgentFiles_complete_new (a : String) :
    ∀ (L : List (FPath × SFile)) (m : List (FPath × List (String × Nat)))
      (rel : FPath) (f : SFile),
      (rel, f) ∈ L →
      ∃ srcs, (rel, srcs) ∈ addAgentFiles a L m ∧ (a, f.mtime) ∈ srcs := by
  intro L
  induction L with
  | nil => intro m rel f h; cases h
  | cons relf rest ih =>
    intro m rel f h
    rw [addAgentFiles]
    rcases List.mem_cons.1 h with heq | h'
    · obtain ⟨srcs₁, hm₁, he₁⟩ := addFileEntry_complete_new m relf.1
        (a, relf.2.mtime)
      have hr : rel = relf.1 := by rw [← heq]
      have hf : f.mtime = relf.2.mtime := by rw [← heq]
      rw [hr, hf]
      exact addAgentFiles_complete_old a rest _ relf.1 srcs₁ _ hm₁ he₁
    · exact ih _ rel f h'

theorem addAgentFiles_keys_nodup (a : String) :
    ∀ (L : List (FPath × SFile)) (m : List (FPath × List (String × Nat))),
      (m.map Prod.fst).Nodup →
      ((addAgentFiles a L m).map Prod.fst).Nodup := by
  intro L
  induction L with
  | nil => intro m h; exact h
  | cons relf rest ih =>
    intro m h
    rw [addAgentFiles]
    exact ih _ (addFileEntry_keys_nodup m relf.1 (a, relf.2.mtime) h)

theorem addAgentFiles_groups_ne (a : String) :
    ∀ (L : List (FPath × SFile)) (m : List (FPath × List (String × Nat))),
      (∀ g ∈ m, g.2 ≠ []) → ∀ g ∈ addAgentFiles a L m, g.2 ≠ [] := by
  intro L
  induction L with
  | nil => intro m h g hg; exact h g hg
  | cons relf rest ih =>
    intro m h g hg
    rw [addAgentFiles] at hg
    exact ih _ (addFileEntry_groups_ne m relf.1 (a, relf.2.mtime) h) g hg

theorem collectSub_sound (fs : FS) (sd : FPath)
    (P : FPath → String × Nat → Prop) :
    ∀ (agents : List String) (m : List (FPath × List (String × Nat))),
      (∀ g ∈ m, ∀ e' ∈ g.2, P g.1 e') →
      (∀ a ∈ agents, ∀ cfg, AGENT_CONFIG a = some cfg →
        ∀ relf ∈ filesUnder fs (rstripSlashS cfg.folder :: sd),
          P relf.1 (a, relf.2.mtime)) →
      ∀ g ∈ collectSub fs sd agents m, ∀ e' ∈ g.2, P g.1 e' := by
  intro agents
  induction agents with
  | nil => intro m hm _ g hg; exact hm g hg
  | cons a rest ih =>
    intro m hm hP g hg
    rw [collectSub] at hg
    cases hcfg : AGENT_CONFIG a with
    | none =>
      rw [hcfg] at hg
      exact ih m hm (fun b hb => hP b (List.mem_cons_of_mem _ hb)) g hg
    | some cfg =>
      rw [hcfg] at hg
      refine ih _ ?_ (fun b hb => hP b (List.mem_cons_of_mem _ hb)) g hg
      exact addAgentFiles_sound a P _ m hm
        (fun rf hrf => hP a (List.mem_cons_self _ _) cfg hcfg rf hrf)

theorem collectSub_complete_old (fs : FS) (sd : FPath) :
    ∀ (agents : List String) (m : List (FPath × List (String × Nat)))
      (rel' : FPath) (srcs₀ : List (String × Nat)) (e' : String × Nat),
      (rel', srcs₀) ∈ m → e' ∈ srcs₀ →
      ∃ srcs, (rel', srcs) ∈ collectSub fs sd agents m ∧ e' ∈ srcs := by
  intro agents
  induction agents with
  | nil => intro m rel' srcs₀ e' hm he'; exact ⟨srcs₀, hm, he'⟩
  | cons a rest ih =>
    intro m rel' srcs₀ e' hm he'
    rw [collectSub]
    cases hcfg : AGENT_CONFIG a with
    | none => exact ih m rel' srcs₀ e' hm he'
    | some cfg =>
      obtain ⟨srcs₁, hm₁, he₁⟩ := addAgentFiles_complete_old a
        (filesUnder fs (rstripSlashS cfg.folder :: sd)) m rel' srcs₀ e' hm he'
      exact ih _ rel' srcs₁ e' hm₁ he₁

theorem collectSub_complete (fs : FS) (sd : FPath) :
    ∀ (agents : List String) (m : List (FPath × List (String × Nat)))
      (a : String) (cfg : AgentCfg) (rel : FPath) (f : SFile),
      a ∈ agents → AGENT_CONFIG a = some cfg →
      (rel, f) ∈ filesUnder fs (rstripSlashS cfg.folder :: sd) →
      ∃ srcs, (rel, srcs) ∈ collectSub fs sd agents m ∧ (a, f.mtime) ∈ srcs := by
  intro agents
  induction agents with
  | nil => intro m a cfg rel f ha; exact absurd ha (List.not_mem_nil _)
  | cons b rest ih =>
    intro m a cfg rel f ha hcfg hmem
    rw [collectSub]
    cases hcfgb : AGENT_CONFIG b with
    | none =>
      rcases List.mem_cons.1 ha with rfl | ha'
      · rw [hcfg] at hcfgb; cases hcfgb
      · exact ih m a cfg rel f ha' hcfg hmem
    | some cfgb =>
      by_cases hab : a = b
      · subst hab
        rw [hcfg, Option.some.injEq] at hcfgb
        subst hcfgb
        obtain ⟨srcs₁, hm₁, he₁⟩ := addAgentFiles_complete_new a
          (filesUnder fs (rstripSlashS cfg.folder :: sd)) m rel f hmem
        exact collectSub_complete_old fs sd rest _ rel srcs₁ _ hm₁ he₁
      · rcases List.mem_cons.1 ha with rfl | ha'
        · exact absurd rfl hab
        · exact ih _ a cfg rel f ha' hcfg hmem

theorem collectSub_keys_nodup (fs : FS) (sd : FPath) :
    ∀ (agents : List String) (m : List (FPath × List (String × Nat))),
      (m.map Prod.fst).Nodup →
      ((collectSub fs sd agents m).map Prod.fst).Nodup := by
  intro agents
  induction agents with
  | nil => intro m h; exact h
  | cons a rest ih =>
    intro m h
    rw [collectSub]
    cases hcfg : AGENT_CONFIG a with
    | none => exact ih m h
    | some cfg => exact ih _ (addAgentFiles_keys_nodup a _ m h)

theorem collectSub_groups_ne (fs : FS) (sd : FPath) :
    ∀ (agents : List String) (m : List (FPath × List (String × Nat))),
      (∀ g ∈ m, g.2 ≠ []) → ∀ g ∈ collectSub fs sd agents m, g.2 ≠ [] := by
  intro agents
  induction agents with
  | nil => intro m h g hg; exact h g hg
  | cons a rest ih =>
    intro m h g hg
    rw [collectSub] at hg
    cases hcfg : AGENT_CONFIG a with
    | none =>
      rw [hcfg] at hg
      exact ih m h g hg
    | some cfg =>
      rw [hcfg] at hg
      exact ih _ (addAgentFiles_groups_ne a _ m h) g hg

/-- Python `max` over a source list: the result is a source, and no source
is newer. -/
theorem firstMaxSrc_spec :
    ∀ (rest : List (String × Nat)) (best : String × Nat),
      (firstMaxSrc best rest = best ∨ firstMaxSrc best rest ∈ rest) ∧
      best.2 ≤ (firstMaxSrc best rest).2 ∧
      ∀ e ∈ rest, e.2 ≤ (firstMaxSrc best rest).2 := by
  intro rest
  induction rest with
  | nil =>
    intro best
    exact ⟨Or.inl rfl, Nat.le_refl _, fun e he => absurd he (List.not_mem_nil _)⟩
  | cons c rest' ih =>
    intro best
    rw [show firstMaxSrc best (c :: rest')
        = firstMaxSrc (if best.2 < c.2 then c else best) rest' from rfl]
    obtain ⟨hpos, hle, hall⟩ := ih (if best.2 < c.2 then c else best)
    by_cases hbc : best.2 < c.2
    · rw [if_pos hbc] at hpos hle hall ⊢
      refine ⟨?_, Nat.le_trans (Nat.le_of_lt hbc) hle, ?_⟩
      · rcases hpos with heq | hmem
        · exact Or.inr (by rw [heq]; exact List.mem_cons_self _ _)
        · exact Or.inr (List.mem_cons_of_mem _ hmem)
      · intro e he
        rcases List.mem_cons.1 he with rfl | he'
        · exact hle
        · exact hall e he'
    · rw [if_neg hbc] at hpos hle hall ⊢
      refine ⟨?_, hle, ?_⟩
      · rcases hpos with heq | hmem
        · exact Or.inl heq
        · exact Or.inr (List.mem_cons_of_mem _ hmem)
      · intro e he
        rcases List.mem_cons.1 he with rfl | he'
        · exact Nat.le_trans (Nat.le_of_not_lt hbc) hle
        · exact hall e he'

/-! ### One group's effect, and the outer loop -/

/-- `newest_path.read_bytes()` for the group's winner. -/
def groupContent (fs : FS) (sd rel : FPath) (aw : String) : Content :=
  match AGENT_CONFIG aw with
  | none => []
  | some cfg => ((fs.lookup (targetPath cfg sd rel)).map SFile.content).getD []

theorem syncGroups_cons_nil (installed : List String) (sd rel : FPath)
    (rest : List (FPath × List (String × Nat))) (fs : FS) (n : Nat) :
    syncGroups installed sd ((rel, []) :: rest) (fs, n)
      = syncGroups installed sd rest (fs, n) := rfl

theorem syncGroups_cons_eq (installed : List String) (sd rel : FPath)
    (s0 : String × Nat) (stail : List (String × Nat))
    (rest : List (FPath × List (String × Nat))) (fs : FS) (n : Nat) :
    syncGroups installed sd ((rel, s0 :: stail) :: rest) (fs, n)
      = syncGroups installed sd rest
          (propagateRel sd rel (firstMaxSrc s0 stail).1
            (firstMaxSrc s0 stail).2
            (groupContent fs sd rel (firstMaxSrc s0 stail).1)
            installed (fs, n)) := rfl

/-- After one group's pass, every installed agent's copy of the group's
relative path exists and carries exactly the winner's mtime. -/
theorem propagateRel_group_post (sd rel : FPath) (content : Content)
    (installed : List String) (fs : FS) (n : Nat)
    (s0 : String × Nat) (stail : List (String × Nat))
    (hsound : ∀ e ∈ s0 :: stail, e.1 ∈ installed ∧
      ∃ cfg, AGENT_CONFIG e.1 = some cfg ∧
        ∃ f, fs.lookup (targetPath cfg sd rel) = some f ∧ f.mtime = e.2)
    (hcompl : ∀ b cfgb f, b ∈ installed → AGENT_CONFIG b = some cfgb →
      fs.lookup (targetPath cfgb sd rel) = some f → (b, f.mtime) ∈ s0 :: stail) :
    ∀ b cfgb, b ∈ installed → AGENT_CONFIG b = some cfgb →
      ∃ fb, (propagateRel sd rel (firstMaxSrc s0 stail).1
            (firstMaxSrc s0 stail).2 content installed (fs, n)).1.lookup
          (targetPath cfgb sd rel) = some fb ∧
        fb.mtime = (firstMaxSrc s0 stail).2 := by
  intro b cfgb hb hcfgb
  obtain ⟨hpos, hle0, hall⟩ := firstMaxSrc_spec stail s0
  have hnwmem : firstMaxSrc s0 stail ∈ s0 :: stail := by
    rcases hpos with heq | hmem
    · rw [heq]; exact List.mem_cons_self _ _
    · exact List.mem_cons_of_mem _ hmem
  have hmax : ∀ e ∈ s0 :: stail, e.2 ≤ (firstMaxSrc s0 stail).2 := by
    intro e he
    rcases List.mem_cons.1 he with rfl | he'
    · exact hle0
    · exact hall e he'
  cases hfr : freshB fs (targetPath cfgb sd rel) (firstMaxSrc s0 stail).2 with
  | true =>
    have hex : ∃ f, fs.lookup (targetPath cfgb sd rel) = some f ∧
        (firstMaxSrc s0 stail).2 ≤ f.mtime := by
      rw [freshB] at hfr
      cases hlk : fs.lookup (targetPath cfgb sd rel) with
      | none => rw [hlk] at hfr; cases hfr
      | some f =>
        rw [hlk] at hfr
        simp only [decide_eq_true_eq] at hfr
        exact ⟨f, rfl, hfr⟩
    obtain ⟨f, hlk, hge⟩ := hex
    refine ⟨f, ?_, ?_⟩
    · rw [propagateRel_fresh sd rel _ _ content installed fs n _ hfr]
      exact hlk
    · exact Nat.le_antisymm (hmax _ (hcompl b cfgb f hb hcfgb hlk)) hge
  | false =>
    have hbne : b ≠ (firstMaxSrc s0 stail).1 := by
      intro hbe
      obtain ⟨_, cfgw, hcfgw, fw, hlkw, hmw⟩ := hsound _ hnwmem
      rw [← hbe, hcfgb, Option.some.injEq] at hcfgw
      rw [← hcfgw] at hlkw
      rw [freshB, hlkw] at hfr
      simp only [decide_eq_false_iff_not] at hfr
      exact hfr (Nat.le_of_eq hmw.symm)
    exact ⟨⟨content, (firstMaxSrc s0 stail).2⟩,
      propagateRel_nonfresh sd rel _ _ content installed fs n b cfgb hb hbne
        hcfgb hfr, rfl⟩

/-- A target path's tail is the subdir plus the relative path. -/
theorem targetPath_drop (cfg : AgentCfg) (sd rel : FPath) :
    (targetPath cfg sd rel).drop 1 = sd ++ rel := rfl

/-- Characterization of the outer loop over sound, complete,
distinctly-keyed groups: paths outside every group's footprint are
untouched, and each group's relative path ends up present at every
installed agent with exactly the group winner's mtime. -/
theorem syncGroups_char (installed : List String) (sd : FPath) :
    ∀ (G : List (FPath × List (String × Nat))) (fs : FS) (n : Nat),
      (G.map Prod.fst).Nodup →
      (∀ g ∈ G, ∀ e ∈ g.2, e.1 ∈ installed ∧
        ∃ cfg, AGENT_CONFIG e.1 = some cfg ∧
          ∃ f, fs.lookup (targetPath cfg sd g.1) = some f ∧ f.mtime = e.2) →
      (∀ g ∈ G, ∀ b cfgb f, b ∈ installed → AGENT_CONFIG b = some cfgb →
        fs.lookup (targetPath cfgb sd g.1) = some f → (b, f.mtime) ∈ g.2) →
      (∀ q, (∀ g ∈ G, q.drop 1 ≠ sd ++ g.1) →
        (syncGroups installed sd G (fs, n)).1.lookup q = fs.lookup q) ∧
      (∀ g ∈ G, ∀ nw, groupNewest g.2 = some nw →
        ∀ b cfgb, b ∈ installed → AGENT_CONFIG b = some cfgb →
          ∃ fb, (syncGroups installed sd G (fs, n)).1.lookup
              (targetPath cfgb sd g.1) = some fb ∧ fb.mtime = nw.2) := by
  intro G
  induction G with
  | nil =>
    intro fs n _ _ _
    exact ⟨fun q _ => rfl, fun g hg => absurd hg (List.not_mem_nil _)⟩
  | cons g0 rest ih =>
    intro fs n hnd hsound hcompl
    obtain ⟨rel, srcs⟩ := g0
    rw [List.map_cons, List.nodup_cons] at hnd
    cases srcs with
    | nil =>
      rw [syncGroups_cons_nil]
      obtain ⟨hframe, hpost⟩ := ih fs n hnd.2
        (fun g hg => hsound g (List.mem_cons_of_mem _ hg))
        (fun g hg => hcompl g (List.mem_cons_of_mem _ hg))
      refine ⟨?_, ?_⟩
      · intro q hq
        exact hframe q (fun g hg => hq g (List.mem_cons_of_mem _ hg))
      · intro g hg nw hnw
        rcases List.mem_cons.1 hg with rfl | hg'
        · cases hnw
        · exact hpost g hg' nw hnw
    | cons s0 stail =>
      rw [syncGroups_cons_eq]
      have hgpost := propagateRel_group_post sd rel
        (groupContent fs sd rel (firstMaxSrc s0 stail).1) installed fs n s0 stail
        (hsound (rel, s0 :: stail) (List.mem_cons_self _ _))
        (hcompl (rel, s0 :: stail) (List.mem_cons_self _ _))
      have hframe1 : ∀ q, q.drop 1 ≠ sd ++ rel →
          (propagateRel sd rel (firstMaxSrc s0 stail).1 (firstMaxSrc s0 stail).2
            (groupContent fs sd rel (firstMaxSrc s0 stail).1) installed
            (fs, n)).1.lookup q = fs.lookup q :=
        fun q hq => propagateRel_frame sd rel _ _ _ installed fs n q hq
      have hrelne : ∀ g ∈ rest, g.1 ≠ rel := by
        intro g hg he
        refine hnd.1 ?_
        rw [← he]
        exact List.mem_map.2 ⟨g, hg, rfl⟩
      have hpathne : ∀ g ∈ rest, ∀ (cfg : AgentCfg),
          (targetPath cfg sd g.1).drop 1 ≠ sd ++ rel := by
        intro g hg cfg he
        rw [targetPath_drop] at he
        exact hrelne g hg (List.append_cancel_left he)
      obtain ⟨hframe, hpost⟩ := ih
        (propagateRel sd rel (firstMaxSrc s0 stail).1 (firstMaxSrc s0 stail).2
          (groupContent fs sd rel (firstMaxSrc s0 stail).1) installed (fs, n)).1
        (propagateRel sd rel (firstMaxSrc s0 stail).1 (firstMaxSrc s0 stail).2
          (groupContent fs sd rel (firstMaxSrc s0 stail).1) installed (fs, n)).2
        hnd.2
        (by
          intro g hg e he
          obtain ⟨hmem, cfg, hcfg, f, hlk, hmt⟩ :=
            hsound g (List.mem_cons_of_mem _ hg) e he
          exact ⟨hmem, cfg, hcfg, f, by
            rw [hframe1 _ (hpathne g hg cfg)]; exact hlk, hmt⟩)
        (by
          intro g hg b cfgb f hb hcfgb hlk
          refine hcompl g (List.mem_cons_of_mem _ hg) b cfgb f hb hcfgb ?_
          rw [← hframe1 _ (hpathne g hg cfgb)]
          exact hlk)
      refine ⟨?_, ?_⟩
      · intro q hq
        refine Eq.trans (hframe q
          (fun g hg => hq g (List.mem_cons_of_mem _ hg))) ?_
        exact hframe1 q (hq (rel, s0 :: stail) (List.mem_cons_self _ _))
      · intro g hg nw hnw
        rcases List.mem_cons.1 hg with rfl | hg'
        · rw [groupNewest, Option.some.injEq] at hnw
          intro b cfgb hb hcfgb
          obtain ⟨fb, hfb, hmt⟩ := hgpost b cfgb hb hcfgb
          refine ⟨fb, ?_, by rw [← hnw]; exact hmt⟩
          rw [hframe (targetPath cfgb sd rel) (fun g' hg' => by
            rw [targetPath_drop]
            intro he
            exact hrelne g' hg' (List.append_cancel_left he).symm)]
          exact hfb
        · exact hpost g hg' nw hnw

theorem syncGroups_nodup (installed : List String) (sd : FPath) :
    ∀ (G : List (FPath × List (String × Nat))) (fs : FS) (n : Nat),
      FSNodup fs → FSNodup (syncGroups installed sd G (fs, n)).1 := by
  intro G
  induction G with
  | nil => intro fs n h; exact h
  | cons g0 rest ih =>
    intro fs n h
    obtain ⟨rel, srcs⟩ := g0
    cases srcs with
    | nil => rw [syncGroups_cons_nil]; exact ih fs n h
    | cons s0 stail =>
      rw [syncGroups_cons_eq]
      exact ih _ _ (propagateRel_nodup sd rel _ _ _ installed fs n h)

theorem groups_key_unique :
    ∀ (G : List (FPath × List (String × Nat))), (G.map Prod.fst).Nodup →
      ∀ rel s1 s2, (rel, s1) ∈ G → (rel, s2) ∈ G → s1 = s2 := by
  intro G
  induction G with
  | nil => intro _ rel s1 s2 h; cases h
  | cons g0 rest ih =>
    intro hnd rel s1 s2 h1 h2
    obtain ⟨r0, l0⟩ := g0
    rw [List.map_cons, List.nodup_cons] at hnd
    rcases List.mem_cons.1 h1 with he1 | h1'
    · rw [Prod.mk.injEq] at he1
      rcases List.mem_cons.1 h2 with he2 | h2'
      · rw [Prod.mk.injEq] at he2
        rw [he1.2, he2.2]
      · refine absurd ?_ hnd.1
        rw [← he1.1]
        exact List.mem_map.2 ⟨(rel, s2), h2', rfl⟩
    · rcases List.mem_cons.1 h2 with he2 | h2'
      · rw [Prod.mk.injEq] at he2
        refine absurd ?_ hnd.1
        rw [← he2.1]
        exact List.mem_map.2 ⟨(rel, s1), h1', rfl⟩
      · exact ih hnd.2 rel s1 s2 h1' h2'

theorem collectSub_keys_ne_nil (fs : FS) (sd : FPath) :
    ∀ (agents : List String) (m : List (FPath × List (String × Nat))),
      (∀ g ∈ m, g.1 ≠ []) → ∀ g ∈ collectSub fs sd agents m, g.1 ≠ [] := by
  have haf : ∀ (a : String) (L : List (FPath × SFile))
      (m : List (FPath × List (String × Nat))),
      (∀ g ∈ m, g.1 ≠ []) → (∀ relf ∈ L, relf.1 ≠ []) →
      ∀ g ∈ addAgentFiles a L m, g.1 ≠ [] := by
    intro a L
    induction L with
    | nil => intro m hm _ g hg; exact hm g hg
    | cons relf rest ih =>
      intro m hm hL g hg
      rw [addAgentFiles] at hg
      refine ih _ ?_ (fun rf hrf => hL rf (List.mem_cons_of_mem _ hrf)) g hg
      intro g' hg' hnil
      rcases (addFileEntry_keys_mem m relf.1 (a, relf.2.mtime) g'.1).1
          (List.mem_map.2 ⟨g', hg', rfl⟩) with hold | hnew
      · obtain ⟨g₀, hg₀, hkey⟩ := List.mem_map.1 hold
        exact hm g₀ hg₀ (by rw [hkey]; exact hnil)
      · exact hL relf (List.mem_cons_self _ _) (by rw [← hnew]; exact hnil)
  intro agents
  induction agents with
  | nil => intro m hm g hg; exact hm g hg
  | cons a rest ih =>
    intro m hm g hg
    rw [collectSub] at hg
    cases hcfg : AGENT_CONFIG a with
    | none =>
      rw [hcfg] at hg
      exact ih m hm g hg
    | some cfg =>
      rw [hcfg] at hg
      refine ih _ (haf a _ m hm ?_) g hg
      intro relf hrelf
      exact (filesUnder_mem fs _ relf.1 relf.2 hrelf).2

/-- Soundness of the collection on a well-formed filesystem: every
recorded `(agent, mtime)` names an installed, configured agent with a file
of exactly that mtime at the group's relative path. -/
theorem collectSub_groups_sound (fs : FS) (sd : FPath) (installed : List String)
    (hnd : FSNodup fs) :
    ∀ g ∈ collectSub fs sd installed [], ∀ e ∈ g.2, e.1 ∈ installed ∧
      ∃ cfg, AGENT_CONFIG e.1 = some cfg ∧
        ∃ f, fs.lookup (targetPath cfg sd g.1) = some f ∧ f.mtime = e.2 := by
  refine collectSub_sound fs sd
    (fun r e => e.1 ∈ installed ∧ ∃ cfg, AGENT_CONFIG e.1 = some cfg ∧
      ∃ f, fs.lookup (targetPath cfg sd r) = some f ∧ f.mtime = e.2)
    installed [] (by simp) ?_
  intro a ha cfg hcfg relf hrelf
  obtain ⟨hment, hrel⟩ := filesUnder_mem fs _ relf.1 relf.2 hrelf
  exact ⟨ha, cfg, hcfg, relf.2, lookupE_of_mem _ _ _ hment hnd, rfl⟩

/-- Completeness of the collection: a file any installed, configured agent
holds in the subtree is recorded in its relative path's group. -/
theorem collectSub_groups_compl (fs : FS) (sd : FPath) (installed : List String)
    (rel : FPath) (hrel : rel ≠ []) (b : String) (cfgb : AgentCfg) (f : SFile)
    (hb : b ∈ installed) (hcfgb : AGENT_CONFIG b = some cfgb)
    (hlk : fs.lookup (targetPath cfgb sd rel) = some f) :
    ∃ srcs, (rel, srcs) ∈ collectSub fs sd installed [] ∧ (b, f.mtime) ∈ srcs := by
  refine collectSub_complete fs sd installed [] b cfgb rel f hb hcfgb ?_
  exact filesUnder_mem_rev fs _ rel f (mem_of_lookupE _ _ _ hlk) hrel

/-- Frame and postcondition of one whole subdir pass. -/
theorem syncSubdir_char (installed : List String) (sd : FPath) (fs : FS)
    (n : Nat) (hnd : FSNodup fs) :
    (∀ q, (∀ g ∈ collectSub fs sd installed [], q.drop 1 ≠ sd ++ g.1) →
      (syncSubdir installed sd (fs, n)).1.lookup q = fs.lookup q) ∧
    (∀ g ∈ collectSub fs sd installed [], ∀ nw, groupNewest g.2 = some nw →
      ∀ b cfgb, b ∈ installed → AGENT_CONFIG b = some cfgb →
        ∃ fb, (syncSubdir installed sd (fs, n)).1.lookup
            (targetPath cfgb sd g.1) = some fb ∧ fb.mtime = nw.2) := by
  refine syncGroups_char installed sd (collectSub fs sd installed []) fs n
    (collectSub_keys_nodup fs sd installed [] (by simp))
    (collectSub_groups_sound fs sd installed hnd) ?_
  intro g hg b cfgb f hb hcfgb hlk
  obtain ⟨srcs, hgmem, hsmem⟩ := collectSub_groups_compl fs sd installed g.1
    (collectSub_keys_ne_nil fs sd installed [] (by simp) g hg) b cfgb f hb
    hcfgb hlk
  have := groups_key_unique (collectSub fs sd installed [])
    (collectSub_keys_nodup fs sd installed [] (by simp)) g.1 srcs g.2 hgmem hg
  rw [← this]
  exact hsmem

/-- Any path whose tail does not start with the subdir is untouched by the
subdir's pass. -/
theorem syncSubdir_other (installed : List String) (sd : FPath) (fs : FS)
    (n : Nat) (hnd : FSNodup fs) (q : FPath)
    (hq : sd.isPrefixOf (q.drop 1) = false) :
    (syncSubdir installed sd (fs, n)).1.lookup q = fs.lookup q := by
  refine (syncSubdir_char installed sd fs n hnd).1 q ?_
  intro g hg he
  rw [he] at hq
  rw [List.isPrefixOf_iff_prefix.2 (List.prefix_append _ _)] at hq
  cases hq

theorem syncSubdir_nodup (installed : List String) (sd : FPath) (fs : FS)
    (n : Nat) (hnd : FSNodup fs) :
    FSNodup (syncSubdir installed sd (fs, n)).1 :=
  syncGroups_nodup installed sd _ fs n hnd

/-- A relative path no installed agent holds is untouched at every agent's
target. -/
theorem syncSubdir_absent (installed : List String) (sd : FPath) (fs : FS)
    (n : Nat) (hnd : FSNodup fs) (rel : FPath)
    (hnone : ∀ a cfga, a ∈ installed → AGENT_CONFIG a = some cfga →
      fs.lookup (targetPath cfga sd rel) = none) :
    ∀ b cfgb, b ∈ installed → AGENT_CONFIG b = some cfgb →
      (syncSubdir installed sd (fs, n)).1.lookup (targetPath cfgb sd rel)
        = fs.lookup (targetPath cfgb sd rel) := by
  intro b cfgb hb hcfgb
  refine (syncSubdir_char installed sd fs n hnd).1 _ ?_
  intro g hg he
  rw [targetPath_drop] at he
  have hkey : g.1 = rel := (List.append_cancel_left he).symm
  have hne := collectSub_groups_ne fs sd installed [] (by simp) g hg
  obtain ⟨e, he'⟩ := List.exists_mem_of_ne_nil g.2 hne
  obtain ⟨hmem, cfg, hcfg, f, hlk, _⟩ :=
    collectSub_groups_sound fs sd installed hnd g hg e he'
  rw [hkey] at hlk
  rw [hnone e.1 cfg hmem hcfg] at hlk
  cases hlk

/-- When every group's non-winner targets are already as new as the
winner, the outer loop does nothing at all. -/
theorem syncGroups_no_write (installed : List String) (sd : FPath) :
    ∀ (G : List (FPath × List (String × Nat))) (fs : FS) (n : Nat),
      (∀ g ∈ G, ∀ nw, groupNewest g.2 = some nw →
        ∀ b ∈ installed, b ≠ nw.1 → ∀ cfgb, AGENT_CONFIG b = some cfgb →
          freshB fs (targetPath cfgb sd g.1) nw.2 = true) →
      syncGroups installed sd G (fs, n) = (fs, n) := by
  intro G
  induction G with
  | nil => intro fs n _; rfl
  | cons g0 rest ih =>
    intro fs n hall
    obtain ⟨rel, srcs⟩ := g0
    cases srcs with
    | nil =>
      rw [syncGroups_cons_nil]
      exact ih fs n (fun g hg => hall g (List.mem_cons_of_mem _ hg))
    | cons s0 stail =>
      rw [syncGroups_cons_eq]
      rw [propagateRel_no_write sd rel _ _ _ installed fs n (by
        intro b hb hbne cfgb hcfgb
        exact hall (rel, s0 :: stail) (List.mem_cons_self _ _)
          (firstMaxSrc s0 stail) rfl b hb hbne cfgb hcfgb)]
      exact ih fs n (fun g hg => hall g (List.mem_cons_of_mem _ hg))

/-- If for every populated relative path all installed agents already hold
a copy with one common mtime, a subdir pass is the identity. -/
theorem syncSubdir_idem (installed : List String) (sd : FPath) (fs : FS)
    (n : Nat) (hnd : FSNodup fs)
    (hinv : ∀ rel, rel ≠ [] →
      (∃ a cfga, a ∈ installed ∧ AGENT_CONFIG a = some cfga ∧
        (fs.lookup (targetPath cfga sd rel)).isSome = true) →
      ∃ t, ∀ b cfgb, b ∈ installed → AGENT_CONFIG b = some cfgb →
        ∃ fb, fs.lookup (targetPath cfgb sd rel) = some fb ∧ fb.mtime = t) :
    syncSubdir installed sd (fs, n) = (fs, n) := by
  refine syncGroups_no_write installed sd _ fs n ?_
  intro g hg nw hnw b hb hbne cfgb hcfgb
  cases hsrcs : g.2 with
  | nil => rw [hsrcs] at hnw; cases hnw
  | cons s0 stail =>
    rw [hsrcs, groupNewest, Option.some.injEq] at hnw
    obtain ⟨hpos, hle0, hall⟩ := firstMaxSrc_spec stail s0
    have hnwmem : nw ∈ g.2 := by
      rw [hsrcs]
      rw [← hnw]
      rcases hpos with heq | hmem
      · rw [heq]; exact List.mem_cons_self _ _
      · exact List.mem_cons_of_mem _ hmem
    obtain ⟨hwmem, cfgw, hcfgw, fw, hlkw, hmw⟩ :=
      collectSub_groups_sound fs sd installed hnd g hg nw hnwmem
    obtain ⟨t, hallb⟩ := hinv g.1
      (collectSub_keys_ne_nil fs sd installed [] (by simp) g hg)
      ⟨nw.1, cfgw, hwmem, hcfgw, by rw [hlkw]; rfl⟩
    have htnw : t = nw.2 := by
      obtain ⟨fb, hfb, hmt⟩ := hallb nw.1 cfgw hwmem hcfgw
      rw [hlkw, Option.some.injEq] at hfb
      rw [← hmt, ← hfb]
      exact hmw
    obtain ⟨fb, hfb, hmt⟩ := hallb b cfgb hb hcfgb
    rw [freshB, hfb]
    simp only [decide_eq_true_eq]
    rw [hmt, htnw]

theorem skills_not_prefix_agents (l : FPath) :
    (["skills"] : FPath).isPrefixOf ("agents" :: l) = false := rfl

theorem agents_not_prefix_skills (l : FPath) :
    (["agents", "specforge"] : FPath).isPrefixOf ("skills" :: l) = false := rfl

/-- A file present at one installed agent's path is present at every
installed agent's path after the subdir's pass. -/
theorem syncSubdir_presence (installed : List String) (sd : FPath) (fs : FS)
    (n : Nat) (hnd : FSNodup fs) (rel : FPath) (hrel : rel ≠ [])
    (a : String) (cfga : AgentCfg) (f : SFile) (ha : a ∈ installed)
    (hcfga : AGENT_CONFIG a = some cfga)
    (hlk : fs.lookup (targetPath cfga sd rel) = some f) :
    ∀ b cfgb, b ∈ installed → AGENT_CONFIG b = some cfgb →
      ((syncSubdir installed sd (fs, n)).1.lookup
        (targetPath cfgb sd rel)).isSome = true := by
  obtain ⟨srcs, hgmem, hsmem⟩ := collectSub_groups_compl fs sd installed rel
    hrel a cfga f ha hcfga hlk
  cases srcs with
  | nil => cases hsmem
  | cons s0 stail =>
    intro b cfgb hb hcfgb
    obtain ⟨fb, hfb, _⟩ := (syncSubdir_char installed sd fs n hnd).2
      (rel, s0 :: stail) hgmem (firstMaxSrc s0 stail) rfl b cfgb hb hcfgb
    rw [hfb]
    rfl

/-- One pass leaves every populated relative path present at all installed
agents with one common mtime (the idempotence invariant). -/
theorem syncSubdir_establishes (installed : List String) (sd : FPath)
    (fs : FS) (n : Nat) (hnd : FSNodup fs) :
    ∀ rel, rel ≠ [] →
      (∃ a cfga, a ∈ installed ∧ AGENT_CONFIG a = some cfga ∧
        ((syncSubdir installed sd (fs, n)).1.lookup
          (targetPath cfga sd rel)).isSome = true) →
      ∃ t, ∀ b cfgb, b ∈ installed → AGENT_CONFIG b = some cfgb →
        ∃ fb, (syncSubdir installed sd (fs, n)).1.lookup
            (targetPath cfgb sd rel) = some fb ∧ fb.mtime = t := by
  intro rel hrel hex
  by_cases hpre : ∃ a cfga f, a ∈ installed ∧ AGENT_CONFIG a = some cfga ∧
      fs.lookup (targetPath cfga sd rel) = some f
  · obtain ⟨a, cfga, f, ha, hcfga, hlk⟩ := hpre
    obtain ⟨srcs, hgmem, hsmem⟩ := collectSub_groups_compl fs sd installed rel
      hrel a cfga f ha hcfga hlk
    cases srcs with
    | nil => cases hsmem
    | cons s0 stail =>
      refine ⟨(firstMaxSrc s0 stail).2, ?_⟩
      intro b cfgb hb hcfgb
      exact (syncSubdir_char installed sd fs n hnd).2 (rel, s0 :: stail) hgmem
        (firstMaxSrc s0 stail) rfl b cfgb hb hcfgb
  · exfalso
    obtain ⟨a, cfga, ha, hcfga, hsome⟩ := hex
    have hnone : ∀ a' cfga', a' ∈ installed → AGENT_CONFIG a' = some cfga' →
        fs.lookup (targetPath cfga' sd rel) = none := by
      intro a' cfga' ha' hcfga'
      cases hlk : fs.lookup (targetPath cfga' sd rel) with
      | none => rfl
      | some f => exact absurd ⟨a', cfga', f, ha', hcfga', hlk⟩ hpre
    rw [syncSubdir_absent installed sd fs n hnd rel hnone a cfga ha hcfga,
      hnone a cfga ha hcfga] at hsome
    cases hsome

/-- **C5.** The Working-Tree Synchronizer: (1) the per-path winner is one
of that path's candidates and no candidate is newer; (2) in the write loop,
an installed non-winner agent's target is written only when it is missing
or strictly older than the winner (a target at least as new is returned
untouched), and a written target receives exactly the winner's bytes and —
per `shutil.copystat` — the winner's mtime; (3) a file present under at
least one installed agent (in particular under only one) is present under
every installed agent after a run; (4) an immediately repeated run with no
intervening edits performs zero writes: it returns the same filesystem
with a sync counter of zero. -/
theorem c5_working_tree_sync :
    (∀ (s0 : String × Nat) (stail : List (String × Nat)),
      (firstMaxSrc s0 stail = s0 ∨ firstMaxSrc s0 stail ∈ stail) ∧
      ∀ e ∈ s0 :: stail, e.2 ≤ (firstMaxSrc s0 stail).2) ∧
    (∀ (sd rel : FPath) (aStar : String) (tStar : Nat) (content : Content)
        (installed : List String) (fs : FS) (n : Nat) (a : String)
        (cfg : AgentCfg),
      a ∈ installed → a ≠ aStar → AGENT_CONFIG a = some cfg →
      ((∀ f, fs.lookup (targetPath cfg sd rel) = some f →
          tStar ≤ f.mtime → False) →
        (propagateRel sd rel aStar tStar content installed (fs, n)).1.lookup
          (targetPath cfg sd rel) = some ⟨content, tStar⟩) ∧
      (∀ f, fs.lookup (targetPath cfg sd rel) = some f → tStar ≤ f.mtime →
        (propagateRel sd rel aStar tStar content installed (fs, n)).1.lookup
          (targetPath cfg sd rel) = some f)) ∧
    (∀ (installed : List String) (fs fs1 : FS) (n : Nat),
      FSNodup fs →
      sync_agent_working_files installed fs = some (fs1, n) →
      ∀ sd, (sd = ["skills"] ∨ sd = ["agents", "specforge"]) →
      ∀ (a : String) (cfga : AgentCfg) (rel : FPath),
        a ∈ installed → AGENT_CONFIG a = some cfga → rel ≠ [] →
        (fs.lookup (targetPath cfga sd rel)).isSome = true →
        ∀ (b : String) (cfgb : AgentCfg), b ∈ installed →
          AGENT_CONFIG b = some cfgb →
          (fs1.lookup (targetPath cfgb sd rel)).isSome = true) ∧
    (∀ (installed : List String) (fs fs1 : FS) (n : Nat),
      FSNodup fs →
      sync_agent_working_files installed fs = some (fs1, n) →
      sync_agent_working_files installed fs1 = some (fs1, 0)) := by
  refine ⟨?_, ?_, ?_, ?_⟩
  · intro s0 stail
    obtain ⟨hpos, hle0, hall⟩ := firstMaxSrc_spec stail s0
    refine ⟨hpos, ?_⟩
    intro e he
    rcases List.mem_cons.1 he with rfl | he'
    · exact hle0
    · exact hall e he'
  · intro sd rel aStar tStar content installed fs n a cfg ha hne hcfg
    constructor
    · intro hold
      refine propagateRel_nonfresh sd rel aStar tStar content installed fs n
        a cfg ha hne hcfg ?_
      rw [freshB]
      cases hlk : fs.lookup (targetPath cfg sd rel) with
      | none => rfl
      | some f =>
        simp only [decide_eq_false_iff_not]
        intro hle
        exact hold f hlk hle
    · intro f hlk hle
      rw [propagateRel_fresh sd rel aStar tStar content installed fs n _ (by
        rw [freshB, hlk]
        simp only [decide_eq_true_eq]
        exact hle)]
      exact hlk
  · intro installed fs fs1 n hnd hsync sd hsd a cfga rel ha hcfga hrel hsome
      b cfgb hb hcfgb
    rw [sync_agent_working_files] at hsync
    by_cases hall : installed.all (fun x => (AGENT_CONFIG x).isSome) = true
    · rw [if_pos hall] at hsync
      cases hmid : syncSubdir installed ["skills"] (fs, 0) with
      | mk fsm nm =>
        rw [hmid] at hsync
        cases hfin : syncSubdir installed ["agents", "specforge"] (fsm, nm) with
        | mk fsf nf =>
          rw [hfin, Option.some.injEq, Prod.mk.injEq] at hsync
          obtain ⟨hfs1, hn⟩ := hsync
          subst hfs1
          have hndm : FSNodup fsm := by
            have h := syncSubdir_nodup installed ["skills"] fs 0 hnd
            rw [hmid] at h
            exact h
          rcases hsd with rfl | rfl
          · obtain ⟨f, hf⟩ := Option.isSome_iff_exists.1 hsome
            have hmidb := syncSubdir_presence installed ["skills"] fs 0 hnd
              rel hrel a cfga f ha hcfga hf b cfgb hb hcfgb
            rw [hmid] at hmidb
            simp only [] at hmidb
            have hframe := syncSubdir_other installed ["agents", "specforge"]
              fsm nm hndm (targetPath cfgb ["skills"] rel)
              (agents_not_prefix_skills _)
            rw [hfin] at hframe
            simp only [] at hframe
            rw [hframe]
            exact hmidb
          · have hframe0 := syncSubdir_other installed ["skills"] fs 0 hnd
              (targetPath cfga ["agents", "specforge"] rel)
              (skills_not_prefix_agents _)
            rw [hmid] at hframe0
            simp only [] at hframe0
            obtain ⟨f, hf⟩ := Option.isSome_iff_exists.1 hsome
            have hfm : fsm.lookup (targetPath cfga ["agents", "specforge"] rel)
                = some f := by
              rw [hframe0]
              exact hf
            have hb2 := syncSubdir_presence installed ["agents", "specforge"]
              fsm nm hndm rel hrel a cfga f ha hcfga hfm b cfgb hb hcfgb
            rw [hfin] at hb2
            simp only [] at hb2
            exact hb2
    · rw [if_neg hall] at hsync
      cases hsync
  · intro installed fs fs1 n hnd hsync
    rw [sync_agent_working_files] at hsync
    by_cases hall : installed.all (fun x => (AGENT_CONFIG x).isSome) = true
    · rw [if_pos hall] at hsync
      cases hmid : syncSubdir installed ["skills"] (fs, 0) with
      | mk fsm nm =>
        rw [hmid] at hsync
        cases hfin : syncSubdir installed ["agents", "specforge"] (fsm, nm) with
        | mk fsf nf =>
          rw [hfin, Option.some.injEq, Prod.mk.injEq] at hsync
          obtain ⟨hfs1, hn⟩ := hsync
          subst hfs1
          have hndm : FSNodup fsm := by
            have h := syncSubdir_nodup installed ["skills"] fs 0 hnd
            rw [hmid] at h
            exact h
          have hndf : FSNodup fsf := by
            have h := syncSubdir_nodup installed ["agents", "specforge"]
              fsm nm hndm
            rw [hfin] at h
            exact h
          have hframe1 : ∀ (cfg : AgentCfg) (rel : FPath),
              fsf.lookup (targetPath cfg ["skills"] rel)
                = fsm.lookup (targetPath cfg ["skills"] rel) := by
            intro cfg rel
            have h := syncSubdir_other installed ["agents", "specforge"]
              fsm nm hndm (targetPath cfg ["skills"] rel)
              (agents_not_prefix_skills _)
            rw [hfin] at h
            exact h
          have hmidinv := syncSubdir_establishes installed ["skills"] fs 0 hnd
          have hinv1 : ∀ rel, rel ≠ [] →
              (∃ a cfga, a ∈ installed ∧ AGENT_CONFIG a = some cfga ∧
                (fsf.lookup (targetPath cfga ["skills"] rel)).isSome = true) →
              ∃ t, ∀ b cfgb, b ∈ installed → AGENT_CONFIG b = some cfgb →
                ∃ fb, fsf.lookup (targetPath cfgb ["skills"] rel) = some fb ∧
                  fb.mtime = t := by
            intro rel hrel hex
            obtain ⟨a, cfga, ha, hcfga, hsome⟩ := hex
            rw [hframe1 cfga rel] at hsome
            obtain ⟨t, hbs⟩ := hmidinv rel hrel ⟨a, cfga, ha, hcfga, by
              rw [hmid]
              exact hsome⟩
            refine ⟨t, ?_⟩
            intro b cfgb hbm hcfgb
            obtain ⟨fb, hfb, hmt⟩ := hbs b cfgb hbm hcfgb
            rw [hmid] at hfb
            simp only [] at hfb
            exact ⟨fb, by rw [hframe1 cfgb rel]; exact hfb, hmt⟩
          have hinv2 := syncSubdir_establishes installed
            ["agents", "specforge"] fsm nm hndm
          have hinv2f : ∀ rel, rel ≠ [] →
              (∃ a cfga, a ∈ installed ∧ AGENT_CONFIG a = some cfga ∧
                (fsf.lookup
                  (targetPath cfga ["agents", "specforge"] rel)).isSome = true) →
              ∃ t, ∀ b cfgb, b ∈ installed → AGENT_CONFIG b = some cfgb →
                ∃ fb, fsf.lookup (targetPath cfgb ["agents", "specforge"] rel)
                    = some fb ∧ fb.mtime = t := by
            intro rel hrel hex
            obtain ⟨a, cfga, ha, hcfga, hsome⟩ := hex
            obtain ⟨t, hbs⟩ := hinv2 rel hrel ⟨a, cfga, ha, hcfga, by
              rw [hfin]
              exact hsome⟩
            refine ⟨t, ?_⟩
            intro b cfgb hbm hcfgb
            obtain ⟨fb, hfb, hmt⟩ := hbs b cfgb hbm hcfgb
            rw [hfin] at hfb
            simp only [] at hfb
            exact ⟨fb, hfb, hmt⟩
          rw [sync_agent_working_files, if_pos hall]
          rw [syncSubdir_idem installed ["skills"] fsf 0 hndf hinv1]
          rw [syncSubdir_idem installed ["agents", "specforge"] fsf 0 hndf
            hinv2f]
    · rw [if_neg hall] at hsync
      cases hsync

/-- Concrete witness for C5: a single `skills` file under `claude` is
copied to `gemini` (one write), and the immediately repeated run reports
zero writes. -/
theorem c5_working_tree_sync_witness :
    (FSNodup ⟨[([".claude", "skills", "a.md"], ⟨"X".data, 5⟩)]⟩ ∧
      sync_agent_working_files ["claude", "gemini"]
          ⟨[([".claude", "skills", "a.md"], ⟨"X".data, 5⟩)]⟩
        = some (⟨[([".gemini", "skills", "a.md"], ⟨"X".data, 5⟩),
            ([".claude", "skills", "a.md"], ⟨"X".data, 5⟩)]⟩, 1)) ∧
    sync_agent_working_files ["claude", "gemini"]
        ⟨[([".gemini", "skills", "a.md"], ⟨"X".data, 5⟩),
          ([".claude", "skills", "a.md"], ⟨"X".data, 5⟩)]⟩
      = some (⟨[([".gemini", "skills", "a.md"], ⟨"X".data, 5⟩),
          ([".claude", "skills", "a.md"], ⟨"X".data, 5⟩)]⟩, 0) :=
  ⟨⟨by decide, by decide⟩,
    c5_working_tree_sync.2.2.2 ["claude", "gemini"]
      ⟨[([".claude", "skills", "a.md"], ⟨"X".data, 5⟩)]⟩
      ⟨[([".gemini", "skills", "a.md"], ⟨"X".data, 5⟩),
        ([".claude", "skills", "a.md"], ⟨"X".data, 5⟩)]⟩ 1
      (by decide) (by decide)⟩

/-! ### Command generation (`generate_agent_commands`, lines 359-493)

Modelled at the `write_text` level: the target project tree is a
path-to-text map, and the function additionally returns the ordered trace
of writes it performs.  The `handle_vscode_settings` call is recorded as
one atomic event (its own writes happen inside that helper).  `none`
models the `KeyError` on an `AGENT_COMMAND_DIRS` key missing from
`AGENT_CONFIG` (no such key exists). -/

/-- The bundled resource tree, as `generate_agent_commands` reads it:
the `templates/commands/*.md` files as `(stem, text)` (absent directory =
`none`), whether `templates/vscode-settings.json` exists, and the
`agent_templates/<agent>` file sets (absent directory = `none`). -/
structure Bundled where
  commands : Option (List (String × Content))
  vscodeSettings : Bool
  agentTemplates : Option (List (String × List (String × Content)))

inductive WriteEvt where
  | cmdFile (p : FPath) (text : Content)
  | promptFile (p : FPath) (text : Content)
  | settingsMerge
  | copyFile (p : FPath) (text : Content)
  deriving DecidableEq

def removeKeyPC : List (FPath × Content) → FPath → List (FPath × Content)
  | [], _ => []
  | e :: rest, p => if e.1 = p then removeKeyPC rest p else e :: removeKeyPC rest p

def writePC (tgt : List (FPath × Content)) (p : FPath) (c : Content) :
    List (FPath × Content) :=
  (p, c) :: removeKeyPC tgt p

/-- `content.replace("\r\n", "\n").replace("\r", "\n")`. -/
def normEOL (s : Content) : Content :=
  replaceAll ("\r".data) ("\n".data) (replaceAll ("\r\n".data) ("\n".data) s)

/-- Python `\s`. -/
def wsChar (c : Char) : Bool :=
  c = ' ' ∨ c = '\t' ∨ c = '\n' ∨ c = '\r' ∨ c = Char.ofNat 11 ∨ c = Char.ofNat 12

/-- Python `str.strip()`. -/
def stripC (s : Content) : Content :=
  ((s.dropWhile wsChar).reverse.dropWhile wsChar).reverse

def splitLines : Content → List Content
  | [] => [[]]
  | c :: rest =>
    if c = '\n' then [] :: splitLines rest
    else
      match splitLines rest with
      | [] => [[c]]
      | l :: ls => (c :: l) :: ls

def joinLines : List Content → Content
  | [] => []
  | [l] => l
  | l :: ls => l ++ '\n' :: joinLines ls

/-- `\s*(.+)$` after a matched key, group stripped: the value is the rest
of the line holding the first non-whitespace character (`\s*` may cross
newlines); an all-whitespace tail matches, with empty stripped value, iff
it holds some non-newline character. -/
def matchAfterKey (r : Content) : Option Content :=
  match r.dropWhile wsChar with
  | c :: rest => some (stripC ((c :: rest).takeWhile (fun x => x ≠ '\n')))
  | [] => if r.any (fun c => c ≠ '\n') = true then some [] else none

/-- `re.search(r'^description:\s*(.+)$', content, re.MULTILINE)` tried at
one line start. -/
def matchDescAt (s : Content) : Option Content :=
  if ("description:".data).isPrefixOf s = true then
    matchAfterKey (s.drop 12)
  else none

/-- `re.search(rf'^\s*{script_variant}:\s*(.+)$', ...)` tried at one line
start. -/
def matchScriptAt (variant : String) (s : Content) : Option Content :=
  let u := s.dropWhile wsChar
  if ((variant ++ ":").data).isPrefixOf u = true then
    matchAfterKey (u.drop ((variant ++ ":").data.length))
  else none

def nextLineDrop : Content → Option Content
  | [] => none
  | c :: rest => if c = '\n' then some rest else nextLineDrop rest

def searchKeyF (m : Content → Option Content) : Nat → Content → Option Content
  | 0, _ => none
  | fuel + 1, s =>
    match m s with
    | some d => some d
    | none =>
      match nextLineDrop s with
      | none => none
      | some rest => searchKeyF m fuel rest

/-- `re.search` with a MULTILINE line-anchored pattern: try the matcher at
every line start, first hit wins. -/
def reSearchLines (m : Content → Option Content) (s : Content) : Option Content :=
  searchKeyF m (s.length + 1) s

/-- The frontmatter section filter (lines 419-433). -/
def filterSections : List Content → Bool → List Content
  | [], _ => []
  | l :: rest, skip =>
    if (("scripts:".data).isPrefixOf l = true ∧ (l.drop 8).all wsChar = true) ∨
        (("agent_scripts:".data).isPrefixOf l = true ∧
          (l.drop 14).all wsChar = true) then
      filterSections rest true
    else if skip = true ∧ ("  ".data).isPrefixOf l = true then
      filterSections rest skip
    else
      let skip2 := if skip = true ∧ (("---".data).isPrefixOf l = true ∨
          (l ≠ [] ∧ (" ".data).isPrefixOf l = false)) then false else skip
      if skip2 = true then filterSections rest skip2
      else l :: filterSections rest skip2

/-- The rendering pipeline applied to one normalized template (lines
409-452): `\x7bSCRIPT\x7d`, section filter, `\x7bARGS\x7d`, the agent
placeholders, then the bundled-path rewrite. -/
def renderBody (st argFormat ai : String) (cfg : AgentCfg) (c1 : Content) :
    Content :=
  let scriptCommand := (reSearchLines (matchScriptAt st) c1).getD []
  let c2 := replaceAll ("\x7bSCRIPT\x7d".data) scriptCommand c1
  let c3 := joinLines (filterSections (splitLines c2) false)
  let c4 := replaceAll ("\x7bARGS\x7d".data) argFormat.data c3
  _rewrite_paths_for_bundled (applyAgentPlaceholders ai cfg c4)

/-- Output filename and content per `file_ext` (lines 454-465): TOML gets
backslashes doubled and a description/prompt wrapper. -/
def artifactFile (fileExt nm : String) (desc body : Content) :
    String × Content :=
  if fileExt = "toml" then
    ("specforge." ++ nm ++ ".toml",
      ("description = \"".data) ++ desc ++ ("\"\n\nprompt = \"\"\"\n".data) ++
        replaceAll ("\\".data) ("\\\\".data) body ++ ("\n\"\"\"\n".data))
  else if fileExt = "agent.md" then
    ("specforge." ++ nm ++ ".agent.md", body)
  else
    ("specforge." ++ nm ++ ".md", body)

/-- The per-template loop (lines 395-467). -/
def writeCommands (cmdDir : FPath) (fileExt argFormat st ai : String)
    (cfg : AgentCfg) :
    List (String × Content) → List (FPath × Content) × List WriteEvt →
    List (FPath × Content) × List WriteEvt
  | [], s => s
  | (nm, text) :: rest, (tgt, tr) =>
    let c1 := normEOL text
    let out := artifactFile fileExt nm ((reSearchLines matchDescAt c1).getD [])
      (renderBody st argFormat ai cfg c1)
    writeCommands cmdDir fileExt argFormat st ai cfg rest
      (writePC tgt (cmdDir ++ [out.1]) out.2,
        tr ++ [WriteEvt.cmdFile (cmdDir ++ [out.1]) out.2])

/-- `fnmatch` of `specforge.*.agent.md`. -/
def agentMdMatch (fname : String) : Bool :=
  ("specforge.".data).isPrefixOf fname.data ∧
    (".agent.md".data).isSuffixOf fname.data = true ∧ 19 ≤ fname.data.length

/-- One copilot prompt stub (lines 471-475): strip `.md`, drop `.agent`,
write a tiny agent-pointer frontmatter file. -/
def promptOf (fname : String) : FPath × Content :=
  let base := String.mk (replaceAll (".agent".data) []
    (fname.data.take (fname.data.length - 3)))
  ([".github", "prompts", base ++ ".prompt.md"],
    ("---\nagent: ".data) ++ base.data ++ ("\n---\n".data))

/-- `output_dir.glob("specforge.*.agent.md")` over the current target
tree. -/
def promptTargets (tgt : List (FPath × Content)) (cmdDir : FPath) :
    List (FPath × Content) :=
  tgt.filterMap (fun e =>
    if cmdDir.isPrefixOf e.1 = true ∧ e.1.length = cmdDir.length + 1 then
      match e.1.drop cmdDir.length with
      | [fname] =>
        if agentMdMatch fname = true then some (promptOf fname) else none
      | _ => none
    else none)

def writePrompts :
    List (FPath × Content) → List (FPath × Content) × List WriteEvt →
    List (FPath × Content) × List WriteEvt
  | [], s => s
  | w :: rest, (tgt, tr) =>
    writePrompts rest (writePC tgt w.1 w.2, tr ++ [WriteEvt.promptFile w.1 w.2])

/-- `shutil.copy2` of the agent-specific files into the project root
(lines 488-492). -/
def writeCopies :
    List (String × Content) → List (FPath × Content) × List WriteEvt →
    List (FPath × Content) × List WriteEvt
  | [], s => s
  | (fname, c) :: rest, (tgt, tr) =>
    writeCopies rest (writePC tgt [fname] c, tr ++ [WriteEvt.copyFile [fname] c])

def lookupStrL : List (String × List (String × Content)) → String →
    Option (List (String × Content))
  | [], _ => none
  | g :: rest, a => if g.1 = a then some g.2 else lookupStrL rest a

/-- The success path: template loop, copilot prompt stubs and settings
merge, agent-specific copies (lines 394-493). -/
def genSteps (ai st : String) (cmdDir : FPath) (fileExt argFormat : String)
    (cfg : AgentCfg) (b : Bundled) (tgt : List (FPath × Content))
    (tpls : List (String × Content)) :
    List (FPath × Content) × List WriteEvt :=
  let s1 := writeCommands cmdDir fileExt argFormat st ai cfg tpls (tgt, [])
  let s2 :=
    if ai = "copilot" then
      let s2a := writePrompts (promptTargets s1.1 cmdDir) s1
      if b.vscodeSettings = true then (s2a.1, s2a.2 ++ [WriteEvt.settingsMerge])
      else s2a
    else s1
  match b.agentTemplates with
  | none => s2
  | some groups =>
    match lookupStrL groups ai with
    | none => s2
    | some files => writeCopies files s2

/-- `generate_agent_commands` (lines 359-493). -/
def generate_agent_commands (ai st : String) (tgt : List (FPath × Content))
    (b : Bundled) : Option (Bool × List (FPath × Content) × List WriteEvt) :=
  match b.commands with
  | none => some (false, tgt, [])
  | some tpls =>
    match AGENT_COMMAND_DIRS ai with
    | none => some (false, tgt, [])
    | some (cmdDir, fileExt, argFormat) =>
      match AGENT_CONFIG ai with
      | none => none
      | some cfg =>
        some (true, (genSteps ai st cmdDir fileExt argFormat cfg b tgt tpls).1,
          (genSteps ai st cmdDir fileExt argFormat cfg b tgt tpls).2)

theorem writeCommands_mono (cmdDir : FPath) (fileExt argFormat st ai : String)
    (cfg : AgentCfg) :
    ∀ (tpls : List (String × Content)) (s : List (FPath × Content) × List WriteEvt)
      (e : WriteEvt), e ∈ s.2 →
      e ∈ (writeCommands cmdDir fileExt argFormat st ai cfg tpls s).2 := by
  intro tpls
  induction tpls with
  | nil => intro s e he; exact he
  | cons t rest ih =>
    intro s e he
    obtain ⟨nm, text⟩ := t
    obtain ⟨tgt, tr⟩ := s
    rw [writeCommands]
    exact ih _ e (List.mem_append_left _ he)

theorem writeCommands_covers (cmdDir : FPath) (fileExt argFormat st ai : String)
    (cfg : AgentCfg) :
    ∀ (tpls : List (String × Content)) (s : List (FPath × Content) × List WriteEvt)
      (nm : String) (text : Content), (nm, text) ∈ tpls →
      WriteEvt.cmdFile
          (cmdDir ++ [(artifactFile fileExt nm
            ((reSearchLines matchDescAt (normEOL text)).getD [])
            (renderBody st argFormat ai cfg (normEOL text))).1])
          (artifactFile fileExt nm
            ((reSearchLines matchDescAt (normEOL text)).getD [])
            (renderBody st argFormat ai cfg (normEOL text))).2
        ∈ (writeCommands cmdDir fileExt argFormat st ai cfg tpls s).2 := by
  intro tpls
  induction tpls with
  | nil => intro s nm text h; cases h
  | cons t rest ih =>
    intro s nm text h
    obtain ⟨nm0, text0⟩ := t
    obtain ⟨tgt, tr⟩ := s
    rw [writeCommands]
    rcases List.mem_cons.1 h with heq | h'
    · rw [Prod.mk.injEq] at heq
      obtain ⟨h1, h2⟩ := heq
      subst h1
      subst h2
      refine writeCommands_mono cmdDir fileExt argFormat st ai cfg rest _ _ ?_
      exact List.mem_append_right _ (List.mem_singleton.2 rfl)
    · exact ih _ nm text h'

theorem writePrompts_mono :
    ∀ (L : List (FPath × Content)) (s : List (FPath × Content) × List WriteEvt)
      (e : WriteEvt), e ∈ s.2 → e ∈ (writePrompts L s).2 := by
  intro L
  induction L with
  | nil => intro s e he; exact he
  | cons w rest ih =>
    intro s e he
    obtain ⟨tgt, tr⟩ := s
    rw [writePrompts]
    exact ih _ e (List.mem_append_left _ he)

theorem writeCopies_mono :
    ∀ (L : List (String × Content)) (s : List (FPath × Content) × List WriteEvt)
      (e : WriteEvt), e ∈ s.2 → e ∈ (writeCopies L s).2 := by
  intro L
  induction L with
  | nil => intro s e he; exact he
  | cons w rest ih =>
    intro s e he
    obtain ⟨fname, c⟩ := w
    obtain ⟨tgt, tr⟩ := s
    rw [writeCopies]
    exact ih _ e (List.mem_append_left _ he)

theorem genSteps_covers (ai st : String) (cmdDir : FPath)
    (fileExt argFormat : String) (cfg : AgentCfg) (b : Bundled)
    (tgt : List (FPath × Content)) (tpls : List (String × Content))
    (nm : String) (text : Content) (h : (nm, text) ∈ tpls) :
    WriteEvt.cmdFile
        (cmdDir ++ [(artifactFile fileExt nm
          ((reSearchLines matchDescAt (normEOL text)).getD [])
          (renderBody st argFormat ai cfg (normEOL text))).1])
        (artifactFile fileExt nm
          ((reSearchLines matchDescAt (normEOL text)).getD [])
          (renderBody st argFormat ai cfg (normEOL text))).2
      ∈ (genSteps ai st cmdDir fileExt argFormat cfg b tgt tpls).2 := by
  have h1 := writeCommands_covers cmdDir fileExt argFormat st ai cfg tpls
    (tgt, []) nm text h
  rw [genSteps]
  simp only []
  have h2 : WriteEvt.cmdFile
      (cmdDir ++ [(artifactFile fileExt nm
        ((reSearchLines matchDescAt (normEOL text)).getD [])
        (renderBody st argFormat ai cfg (normEOL text))).1])
      (artifactFile fileExt nm
        ((reSearchLines matchDescAt (normEOL text)).getD [])
        (renderBody st argFormat ai cfg (normEOL text))).2
      ∈ (if ai = "copilot" then
          let s2a := writePrompts
            (promptTargets (writeCommands cmdDir fileExt argFormat st ai cfg
              tpls (tgt, [])).1 cmdDir)
            (writeCommands cmdDir fileExt argFormat st ai cfg tpls (tgt, []))
          if b.vscodeSettings = true then
            (s2a.1, s2a.2 ++ [WriteEvt.settingsMerge])
          else s2a
        else writeCommands cmdDir fileExt argFormat st ai cfg tpls (tgt, [])).2 := by
    by_cases hcp : ai = "copilot"
    · rw [if_pos hcp]
      simp only []
      have hpm := writePrompts_mono
        (promptTargets (writeCommands cmdDir fileExt argFormat st ai cfg
          tpls (tgt, [])).1 cmdDir)
        (writeCommands cmdDir fileExt argFormat st ai cfg tpls (tgt, [])) _ h1
      by_cases hvs : b.vscodeSettings = true
      · rw [if_pos hvs]
        exact List.mem_append_left _ hpm
      · rw [if_neg hvs]
        exact hpm
    · rw [if_neg hcp]
      exact h1
  cases hat : b.agentTemplates with
  | none => exact h2
  | some groups =>
    simp only []
    cases hlu : lookupStrL groups ai with
    | none => exact h2
    | some files => exact writeCopies_mono files _ _ h2

/-- **C8.** `generate_agent_commands` returns `False` — having performed no
file write at all, the target tree unchanged and the write trace empty —
whenever the bundled `templates/commands` directory does not exist or the
agent identity is not an `AGENT_COMMAND_DIRS` key; otherwise it returns
`True` and its write trace contains, for every discovered command
template, that template's rendered artifact at the agent's command
directory. -/
theorem c8_generate_agent_commands_gate :
    (∀ (ai st : String) (tgt : List (FPath × Content)) (b : Bundled),
      b.commands = none →
      generate_agent_commands ai st tgt b = some (false, tgt, [])) ∧
    (∀ (ai st : String) (tgt : List (FPath × Content)) (b : Bundled)
        (tpls : List (String × Content)),
      b.commands = some tpls → AGENT_COMMAND_DIRS ai = none →
      generate_agent_commands ai st tgt b = some (false, tgt, [])) ∧
    (∀ (ai st : String) (tgt : List (FPath × Content)) (b : Bundled)
        (tpls : List (String × Content)) (cmdDir : FPath)
        (fileExt argFormat : String) (cfg : AgentCfg)
        (res : Bool × List (FPath × Content) × List WriteEvt),
      b.commands = some tpls →
      AGENT_COMMAND_DIRS ai = some (cmdDir, fileExt, argFormat) →
      AGENT_CONFIG ai = some cfg →
      generate_agent_commands ai st tgt b = some res →
      res.1 = true ∧
      ∀ nm text, (nm, text) ∈ tpls →
        WriteEvt.cmdFile
            (cmdDir ++ [(artifactFile fileExt nm
              ((reSearchLines matchDescAt (normEOL text)).getD [])
              (renderBody st argFormat ai cfg (normEOL text))).1])
            (artifactFile fileExt nm
              ((reSearchLines matchDescAt (normEOL text)).getD [])
              (renderBody st argFormat ai cfg (normEOL text))).2
          ∈ res.2.2) := by
  refine ⟨?_, ?_, ?_⟩
  · intro ai st tgt b h
    rw [generate_agent_commands, h]
  · intro ai st tgt b tpls h1 h2
    rw [generate_agent_commands, h1, h2]
  · intro ai st tgt b tpls cmdDir fileExt argFormat cfg res h1 h2 h3 hg
    rw [generate_agent_commands, h1, h2, h3] at hg
    simp only [Option.some.injEq] at hg
    refine ⟨by rw [← hg], ?_⟩
    intro nm text hmem
    rw [← hg]
    exact genSteps_covers ai st cmdDir fileExt argFormat cfg b tgt tpls nm
      text hmem

/-- Concrete witness for C8: a missing commands directory returns `False`
with an empty trace; an unknown agent likewise; and with an (empty)
commands directory a known agent returns `True`. -/
theorem c8_generate_agent_commands_gate_witness :
    (Bundled.commands ⟨none, false, none⟩ = none ∧
      generate_agent_commands "claude" "sh" [] ⟨none, false, none⟩
        = some (false, [], [])) ∧
    (Bundled.commands ⟨some [], false, none⟩ = some [] ∧
      AGENT_COMMAND_DIRS "nosuch" = none ∧
      generate_agent_commands "nosuch" "sh" [] ⟨some [], false, none⟩
        = some (false, [], [])) ∧
    ((generate_agent_commands "claude" "sh" [] ⟨some [], false, none⟩).map
        (fun r => r.1) = some true) :=
  ⟨⟨rfl, c8_generate_agent_commands_gate.1 "claude" "sh" [] ⟨none, false, none⟩
      rfl⟩,
    ⟨rfl, rfl, c8_generate_agent_commands_gate.2.1 "nosuch" "sh" []
      ⟨some [], false, none⟩ [] rfl rfl⟩,
    by decide⟩

end SpecForge
